import Mathlib

/-!
# Shallow embedding of the `ufos` storage engine

This file embeds the storage engine of `src/ufos/src/storage_fjall.rs`
(`FjallWriter` / `FjallReader`) together with the batch types of
`src/ufos/src/lib.rs`, and proves properties of the embedded operations.

Modelling conventions:

* the five fjall partitions (`global`, `feeds`, `records`, `rollups`, `queues`)
  become fields of a `Store` record; each partition's keyed rows become a
  sorted association list whose structured key mirrors the byte key.  The key
  codecs live in `db_types.rs` / `store_types.rs`, which are not part of the
  sources; per the spec all numeric key components are big-endian and strings
  are null-terminated, so byte-lexicographic order on encoded keys agrees with
  lexicographic order on the structured keys used here, and prefix scans become
  filters on key components.
* `Cursor` is the raw `u64` jetstream cursor, modelled as `Nat`
  (`Cursor::from_start()` is `0`); `u64` counter arithmetic is modelled on
  `Nat` (no claim under consideration exercises `u64` wrap-around).
* the cardinality sketch (`cardinality_estimator_safe::Sketch<14>`) is not in
  the sources; it is modelled from the spec as a mergeable set of DIDs whose
  estimate is deterministic (here: exact cardinality, matching the spec's
  concrete scenarios on small inputs).
* fallible store operations that can only fail on I/O are modelled as total;
  the `unwrap` in `insert_batch` and the reader's integrity `expect` /
  `assert_eq!` are modelled with `Option` (`none` = panic).
-/

namespace Ufos

abbrev Cursor := Nat
abbrev Did := String
abbrev Nsid := String
abbrev RKey := String

/-! ## Cardinality sketch and counts cells -/

/-- Kernel-computable byte/code-point lexicographic comparison on character
lists (UTF-8 byte order agrees with code-point order, so this is the order of
the encoded null-terminated strings). -/
def charListLtB : List Char → List Char → Bool
  | [], [] => false
  | [], _ :: _ => true
  | _ :: _, [] => false
  | c :: cs, d :: ds =>
    if c.toNat < d.toNat then true
    else if d.toNat < c.toNat then false
    else charListLtB cs ds

/-- Lexicographic string comparison (byte order of the encoded key parts). -/
def strLtB (a b : String) : Bool := charListLtB a.data b.data

/-- Ordered insertion of a string into a sorted duplicate-free list,
keeping it sorted and duplicate-free. -/
def insStrSet (d : String) : List String → List String
  | [] => [d]
  | h :: t =>
    if strLtB d h then d :: h :: t else if d = h then h :: t else h :: insStrSet d t

/-- Modelled from the spec: the HLL-like DID cardinality sketch
(`cardinality_estimator_safe::Sketch<14>`, not in `src/`).  Per the spec it is
a mergeable (union) estimator with a deterministic estimate; it is modelled as
a sorted set of DIDs with exact cardinality as the estimate, which agrees with
the spec's concrete scenarios. -/
structure Sketch where
  dids : List Did
deriving DecidableEq, Repr

def Sketch.empty : Sketch := ⟨[]⟩

instance : Inhabited Sketch := ⟨Sketch.empty⟩

def Sketch.insert (s : Sketch) (d : Did) : Sketch := ⟨insStrSet d s.dids⟩

/-- Sketch union (`Sketch::merge`). -/
def Sketch.merge (a b : Sketch) : Sketch := b.dids.foldl Sketch.insert a

/-- Deterministic estimate (`Sketch::estimate`). -/
def Sketch.estimate (s : Sketch) : Nat := s.dids.length

/-- `CountsValue` of `store_types.rs` (value of every counts cell): an exact
record count and a DID sketch. -/
structure CountsValue where
  records : Nat
  dids : Sketch
deriving DecidableEq, Repr

def CountsValue.zero : CountsValue := ⟨0, Sketch.empty⟩

instance : Inhabited CountsValue := ⟨CountsValue.zero⟩

/-- `CountsValue::merge`: add record counts, union the sketches (spec §3 and
§4.3: `A.records += delta.records; A.sketch.union(delta.sketch)`). -/
def CountsValue.merge (a b : CountsValue) : CountsValue :=
  ⟨a.records + b.records, a.dids.merge b.dids⟩

def CountsValue.estimate (c : CountsValue) : Nat := c.dids.estimate

/-! ## Sorted association lists (partition rows) -/

/-- Lookup by key (fjall `get`). -/
def getAssoc {K V : Type} [DecidableEq K] (l : List (K × V)) (k : K) : Option V :=
  (l.find? fun p => p.1 = k).map (·.2)

/-- Keyed insert (fjall `insert`): overwrite the row if the key exists,
otherwise insert at the sorted position given by `lt`. -/
def insAssoc {K V : Type} [DecidableEq K] (lt : K → K → Bool) (k : K) (v : V) :
    List (K × V) → List (K × V)
  | [] => [(k, v)]
  | p :: t =>
    if lt k p.1 then (k, v) :: p :: t
    else if k = p.1 then (k, v) :: t
    else p :: insAssoc lt k v t

/-- Keyed remove (fjall `remove`); removing an absent key is a no-op. -/
def delAssoc {K V : Type} [DecidableEq K] (k : K) (l : List (K × V)) : List (K × V) :=
  l.filter fun p => p.1 ≠ k

/-- Insert into a key-only row set (a rank row has an empty value). -/
def insSet {K : Type} [DecidableEq K] (lt : K → K → Bool) (k : K) : List K → List K
  | [] => [k]
  | h :: t => if lt k h then k :: h :: t else if k = h then h :: t else h :: insSet lt k t

/-- Remove from a key-only row set. -/
def delSet {K : Type} [DecidableEq K] (k : K) (l : List K) : List K :=
  l.filter fun x => x ≠ k

/-- `counts_by_rollup.entry(key).or_default().merge(&val)`: merge `v` into the
entry at `k`, appending a fresh `default().merge(v)` entry if absent.  The Rust
map is a `HashMap`; its iteration order is immaterial (all per-entry effects
are on pairwise distinct keys), so first-insertion order is used as the
canonical order here. -/
def updMergeCV {K : Type} [DecidableEq K] (k : K) (v : CountsValue) :
    List (K × CountsValue) → List (K × CountsValue)
  | [] => [(k, CountsValue.zero.merge v)]
  | p :: t => if p.1 = k then (p.1, p.2.merge v) :: t else p :: updMergeCV k v t

/-! ## Key orders

Byte keys order big-endian integers numerically and null-terminated strings
lexicographically (spec §3), so the encoded-key order is the lexicographic
order on the structured keys below. -/

def natLtB (a b : Nat) : Bool := a < b

def unitLtB (_ _ : Unit) : Bool := false

/-- Lexicographic order on pairs, mirroring concatenated key components. -/
def lex2 {α β : Type} [DecidableEq α] (la : α → α → Bool) (lb : β → β → Bool)
    (x y : α × β) : Bool :=
  la x.1 y.1 || (x.1 = y.1 && lb x.2 y.2)

/-- `live_counts` key order: (js_cursor, nsid). -/
def liveLt : (Cursor × Nsid) → (Cursor × Nsid) → Bool := lex2 natLtB strLtB

/-- `feeds` key order: (nsid, js_cursor). -/
def feedLt : (Nsid × Cursor) → (Nsid × Cursor) → Bool := lex2 strLtB natLtB

/-- `records` key order: (did, nsid, rkey). -/
def recLt : (Did × Nsid × RKey) → (Did × Nsid × RKey) → Bool :=
  lex2 strLtB (lex2 strLtB strLtB)

/-- Hourly/weekly counts cell key order: (bucket, nsid). -/
def cellLt : (Nat × Nsid) → (Nat × Nsid) → Bool := lex2 natLtB strLtB

/-- All-time counts cell key order (no bucket component; `Unit` stands for the
empty bucket so the three cell families share one shape). -/
def everCellLt : (Unit × Nsid) → (Unit × Nsid) → Bool := lex2 unitLtB strLtB

/-- Hourly/weekly rank row key order: (bucket, metric, nsid). -/
def rank3Lt : (Nat × Nat × Nsid) → (Nat × Nat × Nsid) → Bool :=
  lex2 natLtB (lex2 natLtB strLtB)

/-- All-time rank row key order: (metric, nsid). -/
def everRankLt : (Unit × Nat × Nsid) → (Unit × Nat × Nsid) → Bool :=
  lex2 unitLtB (lex2 natLtB strLtB)

/-! ## Values and the store -/

/-- `feeds` row value (`NsidRecordFeedVal`): did, rkey, rev. -/
structure FeedVal where
  did : Did
  rkey : RKey
  rev : String
deriving DecidableEq, Repr

/-- `records` row value (`RecordLocationMeta` plus the raw record):
js_cursor, is_update, rev, raw record bytes. -/
structure RecordVal where
  cursor : Cursor
  isUpdate : Bool
  rev : String
  record : String
deriving DecidableEq, Repr

/-- The keyspace: the five partitions of `storage_fjall.rs`, with the
`rollups` partition split by key tag (`live_counts`, `hourly_counts`,
`hourly_rank_records`, …) into one field per tag — the tags are distinct
byte strings, so the split is exactly the keyspace layout.  `global` rows
`js_endpoint` / `takeoff` / `sketch_secret` are init-time constants no
modelled operation reads or writes and are omitted. -/
structure Store where
  rollupCursor : Cursor
  jsCursor : Option Cursor
  trimCursors : List (Nsid × Cursor)
  feeds : List ((Nsid × Cursor) × FeedVal)
  records : List ((Did × Nsid × RKey) × RecordVal)
  liveCounts : List ((Cursor × Nsid) × CountsValue)
  hourly : List ((Nat × Nsid) × CountsValue)
  weekly : List ((Nat × Nsid) × CountsValue)
  ever : List ((Unit × Nsid) × CountsValue)
  hourlyRankRecords : List (Nat × Nat × Nsid)
  hourlyRankDids : List (Nat × Nat × Nsid)
  weeklyRankRecords : List (Nat × Nat × Nsid)
  weeklyRankDids : List (Nat × Nat × Nsid)
  everRankRecords : List (Unit × Nat × Nsid)
  everRankDids : List (Unit × Nat × Nsid)
  queues : List (Cursor × Did)
deriving DecidableEq, Repr

/-- The freshly initialized keyspace (`FjallStorage::init`, fresh-db branch):
`rollup_cursor = Cursor::from_start()`, everything else empty. -/
def Store.init : Store :=
  ⟨0, none, [], [], [], [], [], [], [], [], [], [], [], [], [], []⟩

/-- `HourTruncatedCursor` (modelled from the spec: cursor truncated to the
hour; microseconds). -/
def hourTrunc (c : Cursor) : Nat := c - c % (3600 * 1000000)

/-- `WeekTruncatedCursor` (modelled from the spec: cursor truncated to the
ISO week; the codec is not in `src/`, and no claim depends on the week
boundary phase, so epoch-aligned weeks are used). -/
def weekTrunc (c : Cursor) : Nat := c - c % (7 * 24 * 3600 * 1000000)

/-! ## Batch types (`lib.rs`) -/

/-- `CommitAction`: `Put { record, is_update }` or `Cut` (delete). -/
inductive CommitAction
  | put (record : String) (isUpdate : Bool)
  | cut
deriving DecidableEq, Repr

def CommitAction.isCreate : CommitAction → Bool
  | .put _ isUpdate => !isUpdate
  | .cut => false

/-- `UFOsCommit`. -/
structure UFOsCommit where
  cursor : Cursor
  did : Did
  rkey : RKey
  rev : String
  action : CommitAction
deriving DecidableEq, Repr

/-- `CollectionCommits` as consumed by `insert_batch`: the seen-count, the DID
sketch and the (capped) commit vector.  The capping machinery
(`truncating_insert`) happens upstream of the storage engine. -/
structure CollectionCommits where
  totalSeen : Nat
  didsEstimate : Sketch
  commits : List UFOsCommit
deriving DecidableEq, Repr

/-- `DeleteAccount`. -/
structure DeleteAccount where
  did : Did
  cursor : Cursor
deriving DecidableEq, Repr

/-- `EventBatch`.  `commits_by_nsid` is a `HashMap`; `insert_batch`'s
per-group effects touch pairwise disjoint keys (every touched key embeds the
group's nsid), so iteration order is immaterial and a list in canonical order
models it. -/
structure EventBatch where
  commitsByNsid : List (Nsid × CollectionCommits)
  accountRemoves : List DeleteAccount
deriving DecidableEq, Repr

/-- `EventBatch::is_empty`. -/
def EventBatch.isEmpty (b : EventBatch) : Bool :=
  b.commitsByNsid.isEmpty && b.accountRemoves.isEmpty

/-- `EventBatch::latest_cursor`: maximum commit cursor, also considering only
the *last* element of `account_removes`; `None` when that maximum is
`Cursor::from_start()` (0). -/
def EventBatch.latestCursor (b : EventBatch) : Option Cursor :=
  let oldest : Cursor := b.commitsByNsid.foldl
    (fun acc g => g.2.commits.foldl
      (fun a c => if c.cursor > a then c.cursor else a) acc) 0
  let oldest : Cursor :=
    match b.accountRemoves.getLast? with
    | some del => if del.cursor > oldest then del.cursor else oldest
    | none => oldest
  if oldest > 0 then some oldest else none

/-! ## Writer: batch ingest (`FjallWriter::insert_batch`) -/

/-- Effect of one commit inside `insert_batch`'s batch: `Cut` removes the
records row at the location key; `Put` writes the feed row and the records
row. -/
def applyCommit (nsid : Nsid) (st : Store) (c : UFOsCommit) : Store :=
  match c.action with
  | .cut => { st with records := delAssoc (c.did, nsid, c.rkey) st.records }
  | .put record isUpdate =>
    let st := { st with
      feeds := insAssoc feedLt (nsid, c.cursor) ⟨c.did, c.rkey, c.rev⟩ st.feeds }
    { st with
      records := insAssoc recLt (c.did, nsid, c.rkey)
        ⟨c.cursor, isUpdate, c.rev, record⟩ st.records }

/-- One `commits_by_nsid` group inside `insert_batch`'s batch: apply the
group's commits, then write the group's live-counts cell at
`(latest_cursor, nsid)`. -/
def insGroupStep (latest : Cursor) (st : Store) (g : Nsid × CollectionCommits) : Store :=
  let st := g.2.commits.foldl (applyCommit g.1) st
  let cell : CountsValue := ⟨g.2.totalSeen, g.2.didsEstimate⟩
  { st with liveCounts := insAssoc liveLt (latest, g.1) cell st.liveCounts }

/-- One `account_removes` entry inside `insert_batch`'s batch: enqueue the
delete-account work item at its cursor. -/
def insRemoveStep (st : Store) (r : DeleteAccount) : Store :=
  { st with queues := insAssoc natLtB r.cursor r.did st.queues }

/-- `FjallWriter::insert_batch`.  `none` models the panic of
`event_batch.latest_cursor().unwrap()` (reached before anything is written, so
the store is untouched on that path). -/
def insertBatch (s : Store) (b : EventBatch) : Option Store :=
  if b.isEmpty then some s
  else
    match b.latestCursor with
    | none => none
    | some latest =>
      let s := b.commitsByNsid.foldl (insGroupStep latest) s
      let s := b.accountRemoves.foldl insRemoveStep s
      some { s with jsCursor := some latest }

/-! ## Writer: account delete (`FjallWriter::delete_account`) -/

/-- Sizes of the committed sub-batches when `n` rows are removed: the loop
commits whenever the pending batch reaches
`MAX_BATCHED_ACCOUNT_DELETE_RECORDS` (1024) removals, and always commits the
(possibly empty) remainder at the end. -/
def chunkSizes (n : Nat) : List Nat :=
  List.replicate (n / 1024) 1024 ++ [n % 1024]

/-- `FjallWriter::delete_account`: scan the `records` rows whose key starts
with `did` (null-terminated prefix scan, i.e. exact first-component match),
remove each, committing in sub-batches; return the new store, the number of
rows removed, and the committed sub-batch sizes. -/
def deleteAccount (s : Store) (did : Did) : Store × Nat × List Nat :=
  let matching := s.records.filter fun p => p.1.1 = did
  let s1 := matching.foldl (fun st p => { st with records := delAssoc p.1 st.records }) s
  (s1, matching.length, chunkSizes matching.length)

/-! ## Writer: roll-up (`FjallWriter::step_rollup` and helpers) -/

/-- `FjallWriter::rollup_delete_account`: run `delete_account` for the queued
DID, then (in one batch) remove the queue row and set `rollup_cursor` to the
queue item's cursor; returns 1. -/
def rollupDeleteAccount (s : Store) (d : Cursor × Did) : Store × Nat × List Nsid :=
  let s1 := (deleteAccount s d.2).1
  ({ s1 with queues := delAssoc d.1 s1.queues, rollupCursor := d.1 }, 1, [])

/-- The `Rollup` enum local to `rollup_live_counts`. -/
inductive RollupTag
  | hourly (h : Nat)
  | weekly (w : Nat)
  | allTime
deriving DecidableEq, Repr

/-- One consumed live cell's contribution to `counts_by_rollup`: merge its
`CountsValue` into the hourly, weekly and all-time entry for its nsid. -/
def buildStep (m : List ((Nsid × RollupTag) × CountsValue))
    (kv : (Cursor × Nsid) × CountsValue) : List ((Nsid × RollupTag) × CountsValue) :=
  let n := kv.1.2
  let c := kv.1.1
  let m := updMergeCV (n, RollupTag.hourly (hourTrunc c)) kv.2 m
  let m := updMergeCV (n, RollupTag.weekly (weekTrunc c)) kv.2 m
  updMergeCV (n, RollupTag.allTime) kv.2 m

/-- The `counts_by_rollup` accumulation over the consumed cells. -/
def buildRollups (processed : List ((Cursor × Nsid) × CountsValue)) :
    List ((Nsid × RollupTag) × CountsValue) :=
  processed.foldl buildStep []

/-- One `counts_by_rollup` entry of `rollup_live_counts`: read the current
aggregate cell from the pre-batch store `pre` (batch writes are invisible
until commit), merge the delta, replace the rank-records row, replace the
rank-dids row only if the estimate changed, and write the cell back. -/
def applyEntry (pre : Store) (st : Store) (e : (Nsid × RollupTag) × CountsValue) : Store :=
  match e with
  | ((nsid, .hourly h), dv) =>
    let old := (getAssoc pre.hourly (h, nsid)).getD CountsValue.zero
    let rolled := old.merge dv
    let rr := insSet rank3Lt (h, rolled.records, nsid)
      (delSet (h, old.records, nsid) st.hourlyRankRecords)
    let rd := if rolled.estimate = old.estimate then st.hourlyRankDids
      else insSet rank3Lt (h, rolled.estimate, nsid)
        (delSet (h, old.estimate, nsid) st.hourlyRankDids)
    { st with hourly := insAssoc cellLt (h, nsid) rolled st.hourly,
              hourlyRankRecords := rr, hourlyRankDids := rd }
  | ((nsid, .weekly w), dv) =>
    let old := (getAssoc pre.weekly (w, nsid)).getD CountsValue.zero
    let rolled := old.merge dv
    let rr := insSet rank3Lt (w, rolled.records, nsid)
      (delSet (w, old.records, nsid) st.weeklyRankRecords)
    let rd := if rolled.estimate = old.estimate then st.weeklyRankDids
      else insSet rank3Lt (w, rolled.estimate, nsid)
        (delSet (w, old.estimate, nsid) st.weeklyRankDids)
    { st with weekly := insAssoc cellLt (w, nsid) rolled st.weekly,
              weeklyRankRecords := rr, weeklyRankDids := rd }
  | ((nsid, .allTime), dv) =>
    let old := (getAssoc pre.ever ((), nsid)).getD CountsValue.zero
    let rolled := old.merge dv
    let rr := insSet everRankLt ((), rolled.records, nsid)
      (delSet ((), old.records, nsid) st.everRankRecords)
    let rd := if rolled.estimate = old.estimate then st.everRankDids
      else insSet everRankLt ((), rolled.estimate, nsid)
        (delSet ((), old.estimate, nsid) st.everRankDids)
    { st with ever := insAssoc everCellLt ((), nsid) rolled st.ever,
              everRankRecords := rr, everRankDids := rd }

/-- Deduplicating nsid collection (the `dirty_nsids` `HashSet`), in
first-seen order. -/
def dedupNsids (l : List Nsid) : List Nsid :=
  l.foldl (fun acc n => if n ∈ acc then acc else acc ++ [n]) []

/-- The prefix of the live-counts range consumed by one `rollup_live_counts`
call: the loop breaks at `rollup_limit` cells, or at the first cell with
`key.cursor() > limit` — so a cell exactly at the limit is still consumed. -/
def processedOf (timelies : List ((Cursor × Nsid) × CountsValue))
    (cursorExclusiveLimit : Option Cursor) (rollupLimit : Nat) :
    List ((Cursor × Nsid) × CountsValue) :=
  (timelies.take rollupLimit).takeWhile fun kv =>
    match cursorExclusiveLimit with
    | some limit => kv.1.1 ≤ limit
    | none => true

/-- `FjallWriter::rollup_live_counts`.  `timelies` is the live-counts range
iterator handed over by `step_rollup`; the consumed prefix is `processedOf`.
Consumed cells are removed, their counts are folded into the three aggregate
families, and `rollup_cursor` is set to the cursor of the last consumed cell
(`Cursor::from_start()` when none was consumed).  Returns the store, the
number of consumed cells, and the dirty nsids. -/
def rollupLiveCounts (s : Store) (timelies : List ((Cursor × Nsid) × CountsValue))
    (cursorExclusiveLimit : Option Cursor) (rollupLimit : Nat) :
    Store × Nat × List Nsid :=
  let processed := processedOf timelies cursorExclusiveLimit rollupLimit
  let dirty := dedupNsids (processed.map fun kv => kv.1.2)
  let s1 := { s with
    liveCounts := processed.foldl (fun lc kv => delAssoc kv.1 lc) s.liveCounts }
  let s2 := (buildRollups processed).foldl (applyEntry s) s1
  let lastCursor := ((processed.getLast?).map fun kv => kv.1.1).getD 0
  ({ s2 with rollupCursor := lastCursor }, processed.length, dirty)

/-- `MAX_BATCHED_ROLLUP_COUNTS`. -/
def MAX_BATCHED_ROLLUP_COUNTS : Nat := 256

/-- The live-counts range read by `step_rollup`
(`LiveCountsKey::range_from_cursor(rollup_cursor)`, modelled from the spec
§4.3, `store_types.rs` not being in `src/`: cells with cursor strictly
greater than `rollup_cursor`). -/
def timeliesOf (s : Store) : List ((Cursor × Nsid) × CountsValue) :=
  s.liveCounts.filter fun kv => s.rollupCursor < kv.1.1

/-- `timely_next`: the first live cell past the rollup cursor. -/
def firstLive (s : Store) : Option ((Cursor × Nsid) × CountsValue) :=
  (timeliesOf s).head?

/-- `next_delete`: the first queued account delete past the rollup cursor
(`DeleteAccountQueueKey::new(rollup_cursor).range_to_prefix_end()`, modelled
from the spec §4.3 like the live range). -/
def firstDel (s : Store) : Option (Cursor × Did) :=
  (s.queues.filter fun q => s.rollupCursor < q.1).head?

/-- `FjallWriter::step_rollup`: peek the first live-counts cell and the first
queued account delete past the rollup cursor, then dispatch as in the source
`match`. -/
def stepRollup (s : Store) : Store × Nat × List Nsid :=
  match firstLive s, firstDel s with
  | some timely, some d =>
    if timely.1.1 < d.1 then
      rollupLiveCounts s (timeliesOf s) (some d.1) MAX_BATCHED_ROLLUP_COUNTS
    else rollupDeleteAccount s d
  | some _, none => rollupLiveCounts s (timeliesOf s) none MAX_BATCHED_ROLLUP_COUNTS
  | none, some d => rollupDeleteAccount s d
  | none, none => (s, 0, [])

/-! ## Writer: feed trim (`FjallWriter::trim_collection`) -/

/-- Mutable state of the trim scan. -/
structure TrimState where
  dangling : Nat
  deleted : Nat
  liveFound : Nat
  candidate : Option Cursor
  feedRemovals : List (Nsid × Cursor)
  recordRemovals : List (Did × Nsid × RKey)
  endedEarly : Bool
deriving DecidableEq, Repr

/-- The trim scan over the (descending) feed range, mirroring the loop body of
`trim_collection`.  `recs` is the records partition as read during the scan;
the loop's intermediate sub-batch commits are folded into one final
application (they only flush removals early and the scan never revisits a
removed key's feed row). -/
def trimLoop (recs : List ((Did × Nsid × RKey) × RecordVal)) (limit : Nat)
    (fullScan : Bool) :
    List ((Nsid × Cursor) × FeedVal) → Nat → TrimState → TrimState
  | [], _, st => st
  | (fk, fv) :: rest, i, st =>
    if !fullScan && i > 1000000 then { st with endedEarly := true }
    else
      let lk : Did × Nsid × RKey := (fv.did, fk.1, fv.rkey)
      match getAssoc recs lk with
      | none =>
        trimLoop recs limit fullScan rest (i + 1)
          { st with dangling := st.dangling + 1, feedRemovals := fk :: st.feedRemovals }
      | some meta =>
        if meta.cursor ≠ fk.2 then
          trimLoop recs limit fullScan rest (i + 1)
            { st with dangling := st.dangling + 1, feedRemovals := fk :: st.feedRemovals }
        else if meta.rev ≠ fv.rev then
          trimLoop recs limit fullScan rest (i + 1)
            { st with dangling := st.dangling + 1, feedRemovals := fk :: st.feedRemovals,
                      recordRemovals := lk :: st.recordRemovals }
        else
          let st := { st with liveFound := st.liveFound + 1 }
          if st.liveFound ≤ limit then trimLoop recs limit fullScan rest (i + 1) st
          else
            let st := if st.candidate.isNone then { st with candidate := some fk.2 } else st
            trimLoop recs limit fullScan rest (i + 1)
              { st with deleted := st.deleted + 1, feedRemovals := fk :: st.feedRemovals,
                        recordRemovals := lk :: st.recordRemovals }

/-- `FjallWriter::trim_collection`: walk the collection's feed range (all of
it on `full_scan`, else from the stored trim cursor) in descending cursor
order, drop dead feed rows, keep the newest `limit` live rows and remove the
surplus; store the new trim cursor unless the scan ended early.  Returns the
store and `(dangling_feed_keys_cleaned, records_deleted)`. -/
def trimCollection (s : Store) (collection : Nsid) (limit : Nat) (fullScan : Bool) :
    Store × Nat × Nat :=
  let tc : Cursor := if fullScan then 0 else (getAssoc s.trimCursors collection).getD 0
  let range := s.feeds.filter fun p => p.1.1 = collection && (fullScan || tc ≤ p.1.2)
  let st0 : TrimState := ⟨0, 0, 0, none, [], [], false⟩
  let st := trimLoop s.records limit fullScan range.reverse 0 st0
  let newTrim :=
    if !st.endedEarly then
      match st.candidate with
      | some newCursor => insAssoc strLtB collection newCursor s.trimCursors
      | none => s.trimCursors
    else s.trimCursors
  let s1 := { s with
    feeds := st.feedRemovals.foldl (fun f k => delAssoc k f) s.feeds,
    records := st.recordRemovals.foldl (fun r k => delAssoc k r) s.records,
    trimCursors := newTrim }
  (s1, st.dangling, st.deleted)

/-! ## Reader (`FjallReader`) -/

/-- `UFOsRecord`. -/
structure URec where
  collection : Nsid
  cursor : Cursor
  did : Did
  rkey : RKey
  rev : String
  record : String
  isUpdate : Bool
deriving DecidableEq, Repr

/-- The inner loop of `RecordIterator::next` / `RecordIterator::get_record`:
walk the remaining (descending) feed rows until one has a live records row
(present, cursor equal, rev equal); dead rows are skipped. -/
def riScan (recs : List ((Did × Nsid × RKey) × RecordVal)) :
    List ((Nsid × Cursor) × FeedVal) → Option (URec × List ((Nsid × Cursor) × FeedVal))
  | [] => none
  | (fk, fv) :: rest =>
    match getAssoc recs (fv.did, fk.1, fv.rkey) with
    | none => riScan recs rest
    | some meta =>
      if meta.cursor ≠ fk.2 then riScan recs rest
      else if meta.rev ≠ fv.rev then riScan recs rest
      else some (⟨fk.1, fk.2, fv.did, fv.rkey, meta.rev, meta.record, meta.isUpdate⟩, rest)

/-- `RecordIterator` state: the remaining feed rows of its collection in
descending cursor order, the limit, and the fetched count. -/
structure RecIter where
  remaining : List ((Nsid × Cursor) × FeedVal)
  limit : Nat
  fetched : Nat
deriving DecidableEq, Repr

/-- `RecordIterator::next`: `some none` is the `Some(Ok(None))` yielded once
`fetched` reaches `limit`; `none` is iterator exhaustion (the feed range ran
dry). -/
def riNext (recs : List ((Did × Nsid × RKey) × RecordVal)) (it : RecIter) :
    Option (Option URec) × RecIter :=
  if it.fetched = it.limit then (some none, it)
  else
    match riScan recs it.remaining with
    | none => (none, { it with remaining := [] })
    | some (r, rest) =>
      (some (some r), { it with remaining := rest, fetched := it.fetched + 1 })

/-- `Peekable<RecordIterator>`: the cache holds the last peeked item
(`none` = nothing cached; `some none` = cached exhaustion;
`some (some none)` = cached `Ok(None)`; `some (some (some r))` = cached
record). -/
structure PIter where
  cache : Option (Option (Option URec))
  it : RecIter
deriving DecidableEq, Repr

/-- `Peekable::peek_mut`: fill the cache from the iterator if empty. -/
def ppeek (recs : List ((Did × Nsid × RKey) × RecordVal)) (p : PIter) :
    Option (Option URec) × PIter :=
  match p.cache with
  | some v => (v, p)
  | none =>
    let (v, it1) := riNext recs p.it
    (v, { cache := some v, it := it1 })

/-- One pass of the inner `for (i, iter)` loop of
`get_records_by_collections`: peek each iterator in order, tracking the
latest (greatest-cursor, first-wins on ties) peeked record and its index;
an exhausted iterator is skipped; a `Ok(None)` (limit-reached) iterator is
skipped when `expand`, and otherwise breaks the pass, leaving later
iterators untouched. -/
def scanIters (recs : List ((Did × Nsid × RKey) × RecordVal)) (expand : Bool) :
    List PIter → Nat → Option (Cursor × Nat) → List PIter × Option (Cursor × Nat)
  | [], _, latest => ([], latest)
  | p :: rest, i, latest =>
    let (v, p1) := ppeek recs p
    match v with
    | none =>
      let (rest1, latest1) := scanIters recs expand rest (i + 1) latest
      (p1 :: rest1, latest1)
    | some none =>
      if expand then
        let (rest1, latest1) := scanIters recs expand rest (i + 1) latest
        (p1 :: rest1, latest1)
      else (p1 :: rest, latest)
    | some (some rec) =>
      let latest1 :=
        match latest with
        | some (cursor, _) => if rec.cursor > cursor then some (rec.cursor, i) else latest
        | none => some (rec.cursor, i)
      let (rest1, latest2) := scanIters recs expand rest (i + 1) latest1
      (p1 :: rest1, latest2)

/-- The outer `loop` of `get_records_by_collections`: scan, then pop the
latest record (consuming the chosen iterator's cache) and push it, until no
candidate remains.  `fuel` bounds the recursion; every iteration that
recurses consumes one cached record, so `collections.length * limit + 1`
fuel is never exhausted, and the properties proved below hold for every
fuel. -/
def mergeLoop (recs : List ((Did × Nsid × RKey) × RecordVal)) (expand : Bool) :
    Nat → List PIter → List URec → List URec
  | 0, _, acc => acc.reverse
  | fuel + 1, iters, acc =>
    let (iters1, latest) := scanIters recs expand iters 0 none
    match latest with
    | none => acc.reverse
    | some (_, idx) =>
      match iters1.get? idx with
      | some p =>
        match p.cache with
        | some (some (some rec)) =>
          mergeLoop recs expand fuel (iters1.set idx { p with cache := none }) (rec :: acc)
        | _ => acc.reverse
      | none => acc.reverse

/-- `FjallReader::get_records_by_collections`. -/
def getRecordsByCollections (s : Store) (collections : List Nsid) (limit : Nat)
    (expand : Bool) : List URec :=
  if collections.isEmpty then []
  else
    let iters := collections.map fun c =>
      ({ cache := none,
         it := { remaining := (s.feeds.filter fun p => p.1.1 = c).reverse,
                 limit := limit, fetched := 0 } } : PIter)
    mergeLoop s.records expand (collections.length * limit + 1) iters []

/-- `NsidCount` as `(nsid, records, dids_estimate)`. -/
abbrev NsidCount := Nsid × Nat × Nat

/-- Resolve a list of all-time rank-records rows against their aggregate
cells; `none` models the integrity `expect` (missing cell) and the
`assert_eq!` (rank count differs from the cell count). -/
def resolveRankRows (s : Store) : List (Unit × Nat × Nsid) → Option (List NsidCount)
  | [] => some []
  | k :: rest =>
    match getAssoc s.ever ((), k.2.2) with
    | none => none
    | some cv =>
      if cv.records ≠ k.2.1 then none
      else (resolveRankRows s rest).map fun out => (k.2.2, cv.records, cv.estimate) :: out

/-- `FjallReader::get_top_collections_by_count` (all-time period): walk the
`ever_rank_records` rows in descending key order, take `limit`, resolve each
against its aggregate cell. -/
def topCollectionsByCount (s : Store) (limit : Nat) : Option (List NsidCount) :=
  resolveRankRows s (s.everRankRecords.reverse.take limit)

/-! ## Operation sequences

The write operations exposed by `StoreWriter` (`storage.rs`), as acted on one
store.  An `insert_batch` whose `unwrap` would panic leaves the store
untouched (the panic happens before the batch is committed).  The `reroll`
option of `background_tasks` is excluded, as in claim C5. -/

inductive Op
  | insert (b : EventBatch)
  | step
  | trim (collection : Nsid) (limit : Nat) (fullScan : Bool)
  | delAcct (did : Did)

def applyOp (s : Store) : Op → Store
  | .insert b => (insertBatch s b).getD s
  | .step => (stepRollup s).1
  | .trim c l f => (trimCollection s c l f).1
  | .delAcct d => (deleteAccount s d).1

def execOps (s : Store) (ops : List Op) : Store := ops.foldl applyOp s

/-! ## Concrete scenarios -/

/-- A create commit (operation `Create`, so `Put { is_update: false }`). -/
def mkCreate (did : Did) (rkey : RKey) (rev record : String) (cursor : Cursor) :
    UFOsCommit :=
  ⟨cursor, did, rkey, rev, .put record false⟩

/-- The spec §8 scenario 4 batch: collections `a.a.a`, `a.a.b`, `a.b.c` with
2, 1, 1 created records from 3 distinct DIDs (as in the source test
`get_top_collections`), one ingest batch at cursors 10000‥10003. -/
def c8Batch : EventBatch :=
  { commitsByNsid := [
      ("a.a.a", ⟨2, ⟨["did:plc:person-a"]⟩,
        [mkCreate "did:plc:person-a" "rkey-aaa" "rev-aaa" "{}" 10000,
         mkCreate "did:plc:person-a" "rkey-aaa-2" "rev-aaa-2" "{}" 10003]⟩),
      ("a.a.b", ⟨1, ⟨["did:plc:person-b"]⟩,
        [mkCreate "did:plc:person-b" "rkey-bbb" "rev-bbb" "{}" 10001]⟩),
      ("a.b.c", ⟨1, ⟨["did:plc:person-c"]⟩,
        [mkCreate "did:plc:person-c" "rkey-ccc" "rev-ccc" "{}" 10002]⟩)],
    accountRemoves := [] }

/-- The C8 store: ingest `c8Batch`, then run one roll-up step. -/
def c8Store : Store := (stepRollup ((insertBatch Store.init c8Batch).getD Store.init)).1

/-- The spec §8 scenario 5 store (C2): a create by `did:plc:person-a` in
`a.a.a` at cursor 10000, then an account delete for the same DID queued at
cursor 9999 (as in the source test `rollup_delete_account_removes_record`). -/
def c2Store : Store :=
  (insertBatch
    ((insertBatch Store.init
      { commitsByNsid := [("a.a.a", ⟨1, ⟨["did:plc:person-a"]⟩,
          [mkCreate "did:plc:person-a" "rkey-aaa" "rev-aaa" "{}" 10000]⟩)],
        accountRemoves := [] }).getD Store.init)
    { commitsByNsid := [], accountRemoves := [⟨"did:plc:person-a", 9999⟩] }).getD
    Store.init

/-- C1 counterexample store: two live cells at cursors 100 and 150, and a
queued account delete at cursor 150 (equal to the second cell's cursor). -/
def c1Store : Store :=
  { Store.init with
    liveCounts := [((100, "n1"), ⟨1, ⟨["d1"]⟩⟩), ((150, "n2"), ⟨1, ⟨["d2"]⟩⟩)],
    queues := [(150, "dx")] }

/-- C10 counterexample batch: two account removes, the earlier one at cursor
5, the *last* one at cursor 0. -/
def c10Batch : EventBatch := ⟨[], [⟨"d1", 5⟩, ⟨"d2", 0⟩]⟩

/-! ## Generic helper lemmas -/

/-- A field untouched by every fold step is untouched by the fold. -/
theorem foldl_pres {α β γ : Type} {f : α → β} {g : α → γ → α}
    (h : ∀ a c, f (g a c) = f a) : ∀ (l : List γ) (a : α), f (l.foldl g a) = f a
  | [], _ => rfl
  | c :: t, a => by rw [List.foldl_cons, foldl_pres h t, h]

theorem foldl_max_init_le {α : Type} (f : α → Cursor) :
    ∀ (l : List α) (a : Cursor), a ≤ l.foldl (fun acc c => if f c > acc then f c else acc) a
  | [], _ => le_refl _
  | c :: t, a => by
    rw [List.foldl_cons]
    refine le_trans ?_ (foldl_max_init_le f t (if f c > a then f c else a))
    by_cases h : f c > a
    · rw [if_pos h]; exact Nat.le_of_lt h
    · rw [if_neg h]

theorem foldl_max_mem_le {α : Type} (f : α → Cursor) {l : List α} {x : α} (hx : x ∈ l) :
    ∀ a : Cursor, f x ≤ l.foldl (fun acc c => if f c > acc then f c else acc) a := by
  induction l with
  | nil => cases hx
  | cons c t ih =>
    intro a
    rcases List.mem_cons.1 hx with h | h
    · subst h
      rw [List.foldl_cons]
      refine le_trans ?_ (foldl_max_init_le f t (if f x > a then f x else a))
      by_cases h : f x > a
      · rw [if_pos h]
      · rw [if_neg h]; exact Nat.le_of_not_lt h
    · rw [List.foldl_cons]; exact ih h _

/-- Folding `delAssoc` over a list of rows removes exactly the rows whose key
occurs in that list. -/
theorem foldl_delAssoc_eq_filter {K V : Type} [DecidableEq K] :
    ∀ (M l : List (K × V)),
      M.foldl (fun st p => delAssoc p.1 st) l =
        l.filter fun p => !(M.any fun q => q.1 = p.1)
  | [], l => by simp
  | m :: M, l => by
    rw [List.foldl_cons, foldl_delAssoc_eq_filter M, delAssoc, List.filter_filter]
    refine List.filter_congr fun p _ => ?_
    simp only [List.any_cons, Bool.not_or, decide_not, ne_eq]
    have hd : decide (p.1 = m.1) = decide (m.1 = p.1) := by simp [eq_comm]
    rw [Bool.and_comm, hd]

theorem length_filter_add_length_filter_not {α : Type} (p : α → Bool) :
    ∀ l : List α, (l.filter p).length + (l.filter fun a => !(p a)).length = l.length
  | [] => rfl
  | a :: t => by
    by_cases h : p a = true <;>
      simp [List.filter_cons, h, ← length_filter_add_length_filter_not p t] <;> omega

/-- Sub-batch sizes: each at most 1024, summing to the total. -/
theorem chunkSizes_spec (n : Nat) :
    (∀ m ∈ chunkSizes n, m ≤ 1024) ∧ (chunkSizes n).sum = n := by
  constructor
  · intro m hm
    rcases List.mem_append.1 hm with h | h
    · rw [List.eq_of_mem_replicate h]
    · rcases List.mem_singleton.1 h with rfl
      exact le_of_lt (Nat.mod_lt _ (by norm_num))
  · rw [chunkSizes, List.sum_append, List.sum_replicate, List.sum_singleton, smul_eq_mul,
      Nat.mul_comm]
    exact Nat.div_add_mod n 1024

/-! ## C9: empty-batch ingest is a no-op -/

/-- C9: for every store state, `insert_batch` on an empty batch (no commits
for any NSID and no account removes) returns success and leaves every
partition (global, feeds, records, rollups, queues) completely unchanged —
the store value is returned as-is. -/
theorem C9_insertBatch_empty_noop (s : Store) (b : EventBatch)
    (h : b.isEmpty = true) : insertBatch s b = some s := by
  simp [insertBatch, h]

/-- C9 witness: the empty batch on the initial store. -/
theorem C9_insertBatch_empty_noop_witness :
    (⟨[], []⟩ : EventBatch).isEmpty = true ∧
      insertBatch Store.init ⟨[], []⟩ = some Store.init :=
  ⟨by decide, C9_insertBatch_empty_noop Store.init ⟨[], []⟩ (by decide)⟩

/-! ## C10: totality precondition of `insert_batch` -/

/-- The precondition claimed by C10: some commit or some account removal has
a cursor strictly greater than zero. -/
def hasPositiveCursor (b : EventBatch) : Prop :=
  (∃ g ∈ b.commitsByNsid, ∃ c ∈ g.2.commits, 0 < c.cursor) ∨
    ∃ r ∈ b.accountRemoves, 0 < r.cursor

instance (b : EventBatch) : Decidable (hasPositiveCursor b) := by
  unfold hasPositiveCursor; infer_instance

/-- Claim C10 as stated: for every non-empty batch containing at least one
commit or account-removal with cursor strictly greater than zero,
`latest_cursor()` is `Some`. -/
def ClaimC10 : Prop :=
  ∀ b : EventBatch, b.isEmpty = false → hasPositiveCursor b →
    b.latestCursor.isSome = true

/-- C10 counterexample: a batch with account removes at cursors 5 then 0 is
non-empty and has a removal with positive cursor, but `latest_cursor` only
inspects the *last* remove (cursor 0) and returns `None`. -/
theorem C10_counterexample : ¬ ClaimC10 := by
  intro h
  exact absurd (h c10Batch (by decide) (by decide)) (by decide)

theorem foldl_step_le {α : Type} (step : Cursor → α → Cursor)
    (mono : ∀ a x, a ≤ step a x) : ∀ (l : List α) (a : Cursor), a ≤ l.foldl step a
  | [], _ => le_refl _
  | c :: t, a => le_trans (mono a c) (foldl_step_le step mono t _)

theorem foldl_step_mem_le {α : Type} (step : Cursor → α → Cursor)
    (mono : ∀ a x, a ≤ step a x) {l : List α} {x : α} (hx : x ∈ l) (v : Cursor)
    (hv : ∀ a, v ≤ step a x) : ∀ a : Cursor, v ≤ l.foldl step a := by
  induction l with
  | nil => cases hx
  | cons c t ih =>
    intro a
    rcases List.mem_cons.1 hx with h | h
    · subst h
      exact le_trans (hv a) (foldl_step_le step mono t _)
    · exact ih h _

theorem innerStep_mono (a : Cursor) (c : UFOsCommit) :
    a ≤ if c.cursor > a then c.cursor else a := by
  by_cases hgt : c.cursor > a
  · rw [if_pos hgt]; exact Nat.le_of_lt hgt
  · rw [if_neg hgt]

theorem innerStep_self_le (a : Cursor) (c : UFOsCommit) :
    c.cursor ≤ if c.cursor > a then c.cursor else a := by
  by_cases hgt : c.cursor > a
  · rw [if_pos hgt]
  · rw [if_neg hgt]; exact Nat.le_of_not_lt hgt

/-- C10 amended: the unwrap in `insert_batch` cannot panic exactly when some
commit has a positive cursor or the *last* account removal has a positive
cursor (`latest_cursor` ignores every remove but the last); and a non-empty
batch whose cursors are all zero does reach the unwrap with `None`. -/
theorem C10_amended :
    (∀ (s : Store) (b : EventBatch), b.isEmpty = false →
      ((∃ g ∈ b.commitsByNsid, ∃ c ∈ g.2.commits, 0 < c.cursor) ∨
        (∃ r, b.accountRemoves.getLast? = some r ∧ 0 < r.cursor)) →
      b.latestCursor.isSome = true ∧ (insertBatch s b).isSome = true) ∧
    ∃ b : EventBatch, b.isEmpty = false ∧
      (∀ g ∈ b.commitsByNsid, ∀ c ∈ g.2.commits, c.cursor = 0) ∧
      (∀ r ∈ b.accountRemoves, r.cursor = 0) ∧
      b.latestCursor = none ∧ ∀ s, insertBatch s b = none := by
  constructor
  · intro s b hne hpos
    have hsome : b.latestCursor.isSome = true := by
      unfold EventBatch.latestCursor
      set inner : Cursor → UFOsCommit → Cursor :=
        fun a c => if c.cursor > a then c.cursor else a with hinner
      set outer : Cursor → Nsid × CollectionCommits → Cursor :=
        fun acc g => g.2.commits.foldl inner acc with houter
      have hinmono : ∀ (a : Cursor) (c : UFOsCommit), a ≤ inner a c := by
        intro a c; rw [hinner]; exact innerStep_mono a c
      have houtmono : ∀ a x, a ≤ outer a x := by
        intro a x
        exact foldl_step_le inner hinmono _ _
      have hpos2 : 0 < (match b.accountRemoves.getLast? with
          | some del => if del.cursor > b.commitsByNsid.foldl outer 0 then del.cursor
              else b.commitsByNsid.foldl outer 0
          | none => b.commitsByNsid.foldl outer 0) := by
        rcases hpos with ⟨g, hg, c, hc, hcpos⟩ | ⟨r, hr, hrpos⟩
        · have hle : c.cursor ≤ b.commitsByNsid.foldl outer 0 := by
            refine foldl_step_mem_le outer houtmono hg c.cursor ?_ 0
            intro a
            refine foldl_step_mem_le inner hinmono hc c.cursor ?_ a
            intro a'
            rw [hinner]; exact innerStep_self_le a' c
          have hX : 0 < b.commitsByNsid.foldl outer 0 := Nat.lt_of_lt_of_le hcpos hle
          rcases b.accountRemoves.getLast? with _ | del
          · exact hX
          · dsimp only
            by_cases hgt : del.cursor > b.commitsByNsid.foldl outer 0
            · rw [if_pos hgt]; exact Nat.lt_trans hX hgt
            · rw [if_neg hgt]; exact hX
        · rw [hr]
          dsimp only
          by_cases hgt : r.cursor > b.commitsByNsid.foldl outer 0
          · rw [if_pos hgt]; exact hrpos
          · rw [if_neg hgt]; exact Nat.lt_of_lt_of_le hrpos (Nat.le_of_not_lt hgt)
      dsimp only
      rw [if_pos hpos2]
      rfl
    refine ⟨hsome, ?_⟩
    rcases Option.isSome_iff_exists.1 hsome with ⟨x, hx⟩
    simp [insertBatch, hne, hx]
  · refine ⟨⟨[], [⟨"d1", 0⟩]⟩, by decide, by decide, by decide, by decide, ?_⟩
    intro s
    simp [insertBatch, show (⟨[], [⟨"d1", 0⟩]⟩ : EventBatch).latestCursor = none by decide,
      show (⟨[], [⟨"d1", 0⟩]⟩ : EventBatch).isEmpty = false by decide]

/-- C10 amended witness: a batch whose last remove has cursor 5. -/
theorem C10_amended_witness :
    ((⟨[], [⟨"d1", 5⟩]⟩ : EventBatch).isEmpty = false) ∧
      (⟨[], [⟨"d1", 5⟩]⟩ : EventBatch).latestCursor.isSome = true ∧
      (insertBatch Store.init ⟨[], [⟨"d1", 5⟩]⟩).isSome = true :=
  ⟨by decide,
    C10_amended.1 Store.init ⟨[], [⟨"d1", 5⟩]⟩ (by decide)
      (Or.inr ⟨⟨"d1", 5⟩, by decide, by decide⟩)⟩

/-! ## C2: account delete queued before the matching create -/

/-- Claim C2 as stated: with the delete queued at cursor 9999 and the only
matching create committed at cursor 10000, the roll-up step executes the
queue item and `records_by_collections` still returns that record. -/
def ClaimC2 : Prop :=
  (stepRollup c2Store).2.1 = 1 ∧
    ∃ r ∈ getRecordsByCollections (stepRollup c2Store).1 ["a.a.a"] 1 false,
      r.cursor = 10000 ∧ r.did = "did:plc:person-a"

/-- C2 counterexample: the roll-up step does execute the queue item, but
`delete_account` removes every record of the DID regardless of cursor order,
so the record is gone (this matches the source test
`rollup_delete_account_removes_record`). -/
theorem C2_counterexample : ¬ ClaimC2 := by unfold ClaimC2; decide

/-- C2 amended: before the step the record is returned; the step executes the
queue item (returns 1) and removes the DID's records even though the delete's
cursor predates the create's; afterwards `records_by_collections` returns
nothing. -/
theorem C2_amended :
    (∃ r ∈ getRecordsByCollections c2Store ["a.a.a"] 1 false,
        r.cursor = 10000 ∧ r.did = "did:plc:person-a") ∧
      (stepRollup c2Store).2.1 = 1 ∧
      (stepRollup c2Store).1.records = [] ∧
      getRecordsByCollections (stepRollup c2Store).1 ["a.a.a"] 1 false = [] := by
  decide

/-! ## C8: `top_collections_by_count` ordering -/

/-- Claim C8 as stated: after ingesting `a.a.a`, `a.a.b`, `a.b.c` with
2, 1, 1 records from 3 DIDs and one roll-up step,
`top_collections_by_count(10)` lists ties in ascending NSID order. -/
def ClaimC8 : Prop :=
  topCollectionsByCount c8Store 10 =
    some [("a.a.a", 2, 1), ("a.a.b", 1, 1), ("a.b.c", 1, 1)]

/-- C8 counterexample: the rank scan walks `ever_rank_records` keys in
descending key order, and the key ends with the NSID, so equal counts come
out in *descending* NSID order — `a.b.c` before `a.a.b`. -/
theorem C8_counterexample : ¬ ClaimC8 := by unfold ClaimC8; decide

/-- C8 amended: the actual output, with ties in descending NSID order (and
the roll-up step did fold the three collections' cells). -/
theorem C8_amended :
    (stepRollup ((insertBatch Store.init c8Batch).getD Store.init)).2.1 = 3 ∧
      topCollectionsByCount c8Store 10 =
        some [("a.a.a", 2, 1), ("a.b.c", 1, 1), ("a.a.b", 1, 1)] := by
  decide

/-! ## C1: the `step_rollup` decision rule -/

/-- Per-entry field preservation: `rollup_live_counts`'s aggregate-merge loop
never touches the live cells. -/
theorem applyEntry_liveCounts (pre st : Store) (e : (Nsid × RollupTag) × CountsValue) :
    (applyEntry pre st e).liveCounts = st.liveCounts := by
  rcases e with ⟨⟨n, tag⟩, v⟩
  cases tag <;> rfl

/-- The observable pieces of `rollup_live_counts`: the returned count, the
live cells actually removed, and the new rollup cursor. -/
theorem rollupLiveCounts_parts (s : Store) (t : List ((Cursor × Nsid) × CountsValue))
    (cl : Option Cursor) (rl : Nat) :
    (rollupLiveCounts s t cl rl).2.1 = (processedOf t cl rl).length ∧
    (rollupLiveCounts s t cl rl).1.liveCounts =
      (processedOf t cl rl).foldl (fun lc kv => delAssoc kv.1 lc) s.liveCounts ∧
    (rollupLiveCounts s t cl rl).1.rollupCursor =
      (((processedOf t cl rl).getLast?).map fun kv => kv.1.1).getD 0 := by
  refine ⟨rfl, ?_, rfl⟩
  exact foldl_pres (f := Store.liveCounts) (fun st e => applyEntry_liveCounts s st e)
    (buildRollups (processedOf t cl rl)) _

/-- The fold restriction exactly as the claim words it (`cursor` strictly
less than the exclusive limit) — a comparison definition following the
claim's words, to be diffed against `rollupLiveCounts`. -/
def processedStrict (timelies : List ((Cursor × Nsid) × CountsValue))
    (cursorExclusiveLimit : Option Cursor) (rollupLimit : Nat) :
    List ((Cursor × Nsid) × CountsValue) :=
  (timelies.take rollupLimit).takeWhile fun kv =>
    match cursorExclusiveLimit with
    | some limit => kv.1.1 < limit
    | none => true

/-- `rollup_live_counts` as the claim describes it: identical except that the
consumed prefix stops strictly before the limit cursor. -/
def rollupLiveCountsStrict (s : Store) (timelies : List ((Cursor × Nsid) × CountsValue))
    (cursorExclusiveLimit : Option Cursor) (rollupLimit : Nat) :
    Store × Nat × List Nsid :=
  let processed := processedStrict timelies cursorExclusiveLimit rollupLimit
  let dirty := dedupNsids (processed.map fun kv => kv.1.2)
  let s1 := { s with
    liveCounts := processed.foldl (fun lc kv => delAssoc kv.1 lc) s.liveCounts }
  let s2 := (buildRollups processed).foldl (applyEntry s) s1
  let lastCursor := ((processed.getLast?).map fun kv => kv.1.1).getD 0
  ({ s2 with rollupCursor := lastCursor }, processed.length, dirty)

/-- Claim C1 as stated: the five-way decision rule, with the fold in the
both-exist-and-live-first case restricted to cells whose cursor is
*strictly less* than the delete's cursor. -/
def ClaimC1 : Prop :=
  ∀ s : Store,
    (∀ t d, firstLive s = some t → firstDel s = some d → t.1.1 < d.1 →
      stepRollup s =
        rollupLiveCountsStrict s (timeliesOf s) (some d.1) MAX_BATCHED_ROLLUP_COUNTS) ∧
    (∀ t d, firstLive s = some t → firstDel s = some d → ¬ t.1.1 < d.1 →
      stepRollup s = rollupDeleteAccount s d) ∧
    (∀ t, firstLive s = some t → firstDel s = none →
      stepRollup s =
        rollupLiveCountsStrict s (timeliesOf s) none MAX_BATCHED_ROLLUP_COUNTS) ∧
    (∀ d, firstLive s = none → firstDel s = some d →
      stepRollup s = rollupDeleteAccount s d) ∧
    (firstLive s = none → firstDel s = none → stepRollup s = (s, 0, []))

/-- C1 counterexample: on `c1Store` the first live cell (cursor 100) precedes
the queued delete (cursor 150), and the code folds *both* live cells — the
loop breaks only on `cursor > limit`, so the cell exactly at cursor 150 is
consumed too, while the claim's strict restriction would leave it. -/
theorem C1_counterexample : ¬ ClaimC1 := by
  intro h
  have h1 := (h c1Store).1 ((100, "n1"), ⟨1, ⟨["d1"]⟩⟩) (150, "dx")
    (by decide) (by decide) (by decide)
  exact absurd h1 (by decide)

/-- C1 amended: the same decision rule, with the fold restricted to cells
whose cursor is *at most* the delete's cursor (the source's
`cursor_exclusive_limit` is in fact inclusive); the fold consumes up to 256
such cells, removing exactly the consumed prefix from `live_counts`. -/
theorem C1_amended (s : Store) :
    (∀ t d, firstLive s = some t → firstDel s = some d → t.1.1 < d.1 →
      stepRollup s =
        rollupLiveCounts s (timeliesOf s) (some d.1) MAX_BATCHED_ROLLUP_COUNTS ∧
      (stepRollup s).2.1 =
        (processedOf (timeliesOf s) (some d.1) MAX_BATCHED_ROLLUP_COUNTS).length ∧
      (stepRollup s).1.liveCounts =
        (processedOf (timeliesOf s) (some d.1) MAX_BATCHED_ROLLUP_COUNTS).foldl
          (fun lc kv => delAssoc kv.1 lc) s.liveCounts) ∧
    (∀ t d, firstLive s = some t → firstDel s = some d → ¬ t.1.1 < d.1 →
      stepRollup s = rollupDeleteAccount s d) ∧
    (∀ t, firstLive s = some t → firstDel s = none →
      stepRollup s = rollupLiveCounts s (timeliesOf s) none MAX_BATCHED_ROLLUP_COUNTS ∧
      (stepRollup s).2.1 =
        (processedOf (timeliesOf s) none MAX_BATCHED_ROLLUP_COUNTS).length) ∧
    (∀ d, firstLive s = none → firstDel s = some d →
      stepRollup s = rollupDeleteAccount s d) ∧
    (firstLive s = none → firstDel s = none → stepRollup s = (s, 0, [])) := by
  refine ⟨?_, ?_, ?_, ?_, ?_⟩
  · intro t d ht hd hlt
    have hstep : stepRollup s =
        rollupLiveCounts s (timeliesOf s) (some d.1) MAX_BATCHED_ROLLUP_COUNTS := by
      unfold stepRollup
      rw [ht, hd]
      dsimp only
      rw [if_pos hlt]
    refine ⟨hstep, ?_, ?_⟩
    · rw [hstep]; exact (rollupLiveCounts_parts s _ _ _).1
    · rw [hstep]; exact (rollupLiveCounts_parts s _ _ _).2.1
  · intro t d ht hd hge
    unfold stepRollup
    rw [ht, hd]
    dsimp only
    rw [if_neg hge]
  · intro t ht hd
    have hstep : stepRollup s =
        rollupLiveCounts s (timeliesOf s) none MAX_BATCHED_ROLLUP_COUNTS := by
      unfold stepRollup
      rw [ht, hd]
    exact ⟨hstep, by rw [hstep]; exact (rollupLiveCounts_parts s _ _ _).1⟩
  · intro d ht hd
    unfold stepRollup
    rw [ht, hd]
  · intro ht hd
    unfold stepRollup
    rw [ht, hd]

/-- C1 amended witness: on `c1Store` the first rule fires and both live cells
(cursors 100 and 150 ≤ 150) are consumed. -/
theorem C1_amended_witness :
    stepRollup c1Store =
      rollupLiveCounts c1Store (timeliesOf c1Store) (some 150)
        MAX_BATCHED_ROLLUP_COUNTS ∧
      (stepRollup c1Store).2.1 = 2 :=
  have h := (C1_amended c1Store).1 ((100, "n1"), ⟨1, ⟨["d1"]⟩⟩) (150, "dx")
    (by decide) (by decide) (by decide)
  ⟨h.1, by rw [h.2.1]; decide⟩

/-! ## C3: `delete_account` removes the DID's records -/

theorem deleteAccount_records_foldl (M : List ((Did × Nsid × RKey) × RecordVal)) :
    ∀ st : Store,
      (M.foldl (fun st p => { st with records := delAssoc p.1 st.records }) st).records =
        M.foldl (fun r p => delAssoc p.1 r) st.records := by
  induction M with
  | nil => intro st; rfl
  | cons m t ih => intro st; rw [List.foldl_cons, List.foldl_cons, ih]

/-- `delete_account` leaves exactly the records whose key does not start with
the DID. -/
theorem deleteAccount_records (s : Store) (did : Did) :
    (deleteAccount s did).1.records = s.records.filter fun p => !(p.1.1 = did) := by
  unfold deleteAccount
  dsimp only
  rw [deleteAccount_records_foldl, foldl_delAssoc_eq_filter]
  refine List.filter_congr fun p hp => ?_
  by_cases hd : p.1.1 = did
  · have hany : ((s.records.filter fun p => decide (p.1.1 = did)).any
        fun q => decide (q.1 = p.1)) = true := by
      rw [List.any_eq_true]
      exact ⟨p, List.mem_filter.2 ⟨hp, by simp [hd]⟩, by simp⟩
    rw [hany]
    simp [hd]
  · have hany : ((s.records.filter fun p => decide (p.1.1 = did)).any
        fun q => decide (q.1 = p.1)) = false := by
      rw [List.any_eq_false]
      intro q hq
      rcases List.mem_filter.1 hq with ⟨-, hqd⟩
      simp only [decide_eq_true_eq] at hqd ⊢
      intro hq1
      exact hd (by rw [← hq1]; exact hqd)
    rw [hany]
    simp [hd]

/-- C3: after `delete_account(DID)` no key with prefix DID remains in the
records partition; the returned count equals the number of records rows
removed; removal is committed in sub-batches of at most 1024 (whose sizes sum
to the count); and the same holds for the records partition after a queued
delete-account item for that DID is processed (`rollup_delete_account`). -/
theorem C3_delete_account (s : Store) (did : Did) :
    ((deleteAccount s did).1.records = s.records.filter fun p => !(p.1.1 = did)) ∧
    (∀ k v, (k, v) ∈ (deleteAccount s did).1.records → ¬ k.1 = did) ∧
    (deleteAccount s did).2.1 + (deleteAccount s did).1.records.length =
      s.records.length ∧
    (∀ m ∈ (deleteAccount s did).2.2, m ≤ 1024) ∧
    (deleteAccount s did).2.2.sum = (deleteAccount s did).2.1 ∧
    ∀ c : Cursor,
      (rollupDeleteAccount s (c, did)).1.records =
        s.records.filter fun p => !(p.1.1 = did) := by
  have hrec := deleteAccount_records s did
  refine ⟨hrec, ?_, ?_, ?_, ?_, ?_⟩
  · intro k v hkv hk
    rw [hrec] at hkv
    rcases List.mem_filter.1 hkv with ⟨-, hkd⟩
    simp [hk] at hkd
  · have hn : (deleteAccount s did).2.1 =
        (s.records.filter fun p => decide (p.1.1 = did)).length := rfl
    rw [hn, hrec]
    exact length_filter_add_length_filter_not _ s.records
  · intro m hm
    exact (chunkSizes_spec _).1 m hm
  · exact (chunkSizes_spec _).2
  · intro c
    show (deleteAccount s did).1.records = _
    exact hrec

/-! ## C5: `rollup_cursor` never decreases -/

theorem applyCommit_agg (n : Nsid) (st : Store) (c : UFOsCommit) :
    (applyCommit n st c).rollupCursor = st.rollupCursor ∧
    (applyCommit n st c).hourly = st.hourly ∧
    (applyCommit n st c).weekly = st.weekly ∧
    (applyCommit n st c).ever = st.ever := by
  rcases c with ⟨cur, cdid, crkey, crev, act⟩
  cases act <;> exact ⟨rfl, rfl, rfl, rfl⟩

/-- A store projection untouched by every kind of write `insert_batch` does
is untouched by `insert_batch`. -/
theorem insertBatch_field_pres {α : Type} {s s' : Store} {b : EventBatch}
    (h : insertBatch s b = some s') (f : Store → α)
    (hc : ∀ st n c, f (applyCommit n st c) = f st)
    (hl : ∀ (st : Store) (k : Cursor × Nsid) (v : CountsValue),
      f { st with liveCounts := insAssoc liveLt k v st.liveCounts } = f st)
    (hq : ∀ (st : Store) (k : Cursor) (v : Did),
      f { st with queues := insAssoc natLtB k v st.queues } = f st)
    (hj : ∀ (st : Store) (c : Cursor), f { st with jsCursor := some c } = f st) :
    f s' = f s := by
  unfold insertBatch at h
  split at h
  · injection h with h
    rw [← h]
  · split at h
    · cases h
    · injection h with h
      rename_i latest _
      rw [← h, hj]
      rw [foldl_pres (f := f) (g := insRemoveStep) fun a r => hq a r.cursor r.did]
      refine foldl_pres (f := f) (g := insGroupStep latest) (fun a g => ?_) _ _
      unfold insGroupStep
      dsimp only
      rw [hl]
      exact foldl_pres (f := f) (g := applyCommit g.1) (fun a2 c => hc a2 g.1 c) _ _

theorem insertBatch_pres {s s' : Store} {b : EventBatch} (h : insertBatch s b = some s') :
    s'.rollupCursor = s.rollupCursor ∧ s'.hourly = s.hourly ∧
    s'.weekly = s.weekly ∧ s'.ever = s.ever := by
  refine ⟨?_, ?_, ?_, ?_⟩
  · exact insertBatch_field_pres h Store.rollupCursor
      (fun st n c => (applyCommit_agg n st c).1) (fun _ _ _ => rfl) (fun _ _ _ => rfl)
      (fun _ _ => rfl)
  · exact insertBatch_field_pres h Store.hourly
      (fun st n c => (applyCommit_agg n st c).2.1) (fun _ _ _ => rfl) (fun _ _ _ => rfl)
      (fun _ _ => rfl)
  · exact insertBatch_field_pres h Store.weekly
      (fun st n c => (applyCommit_agg n st c).2.2.1) (fun _ _ _ => rfl) (fun _ _ _ => rfl)
      (fun _ _ => rfl)
  · exact insertBatch_field_pres h Store.ever
      (fun st n c => (applyCommit_agg n st c).2.2.2) (fun _ _ _ => rfl) (fun _ _ _ => rfl)
      (fun _ _ => rfl)

theorem trimCollection_pres (s : Store) (c : Nsid) (l : Nat) (full : Bool) :
    (trimCollection s c l full).1.rollupCursor = s.rollupCursor ∧
    (trimCollection s c l full).1.hourly = s.hourly ∧
    (trimCollection s c l full).1.weekly = s.weekly ∧
    (trimCollection s c l full).1.ever = s.ever := by
  exact ⟨rfl, rfl, rfl, rfl⟩

theorem deleteAccount_pres (s : Store) (d : Did) :
    (deleteAccount s d).1.rollupCursor = s.rollupCursor ∧
    (deleteAccount s d).1.hourly = s.hourly ∧
    (deleteAccount s d).1.weekly = s.weekly ∧
    (deleteAccount s d).1.ever = s.ever ∧
    (deleteAccount s d).1.liveCounts = s.liveCounts ∧
    (deleteAccount s d).1.queues = s.queues := by
  unfold deleteAccount
  dsimp only
  refine ⟨?_, ?_, ?_, ?_, ?_, ?_⟩ <;>
    · refine foldl_pres
        (g := fun (st : Store) (p : (Did × Nsid × RKey) × RecordVal) =>
          { st with records := delAssoc p.1 st.records })
        (fun a p => ?_) _ _
      rfl

theorem head?_filter_pred {α : Type} {p : α → Bool} {l : List α} {x : α}
    (h : (l.filter p).head? = some x) : p x = true := by
  cases hl : l.filter p with
  | nil => rw [hl] at h; cases h
  | cons a t =>
    rw [hl] at h
    injection h with h
    have hm : x ∈ l.filter p := by
      rw [hl, ← h]
      exact List.mem_cons_self a t
    exact List.of_mem_filter hm

theorem exists_getLast?_mem {α : Type} : ∀ {l : List α}, l ≠ [] →
    ∃ x, l.getLast? = some x ∧ x ∈ l := by
  intro l
  induction l with
  | nil => intro h; exact absurd rfl h
  | cons a t ih =>
    intro _
    cases t with
    | nil => exact ⟨a, rfl, List.mem_cons_self a []⟩
    | cons b t2 =>
      rcases ih (List.cons_ne_nil b t2) with ⟨x, hx, hm⟩
      exact ⟨x, by rw [List.getLast?_cons_cons]; exact hx, List.mem_cons_of_mem a hm⟩

/-- When the first timely cell satisfies the cursor limit, the consumed
prefix starts with it (in particular it is non-empty). -/
theorem processed_head (timelies : List ((Cursor × Nsid) × CountsValue))
    (cl : Option Cursor) (rl : Nat) {t : (Cursor × Nsid) × CountsValue}
    (h : timelies.head? = some t)
    (hok : match cl with | some lim => t.1.1 ≤ lim | none => True)
    (hrl : 0 < rl) : (processedOf timelies cl rl).head? = some t := by
  cases timelies with
  | nil => cases h
  | cons a rest =>
    injection h with h
    rw [h]
    unfold processedOf
    cases rl with
    | zero => cases hrl
    | succ m =>
      rw [List.take_succ_cons, List.takeWhile_cons]
      cases cl with
      | none => rfl
      | some lim =>
        have hcond : (match (some lim : Option Cursor) with
            | some limit => decide (t.1.1 ≤ limit)
            | none => true) = true := decide_eq_true hok
        rw [hcond]
        rfl

theorem mem_processed_mem {timelies : List ((Cursor × Nsid) × CountsValue)}
    {cl : Option Cursor} {rl : Nat} {x : (Cursor × Nsid) × CountsValue}
    (h : x ∈ processedOf timelies cl rl) : x ∈ timelies :=
  ((List.takeWhile_sublist _).trans (List.take_sublist _ _)).subset h

theorem mem_timelies_lt {s : Store} {x : (Cursor × Nsid) × CountsValue}
    (h : x ∈ timeliesOf s) : s.rollupCursor < x.1.1 := by
  have := List.of_mem_filter h
  exact of_decide_eq_true this

/-- The fold path of `step_rollup` strictly advances the rollup cursor. -/
theorem fold_cursor_lt {s : Store} {cl : Option Cursor}
    {t : (Cursor × Nsid) × CountsValue} (ht : firstLive s = some t)
    (hok : match cl with | some lim => t.1.1 ≤ lim | none => True) :
    s.rollupCursor <
      (rollupLiveCounts s (timeliesOf s) cl MAX_BATCHED_ROLLUP_COUNTS).1.rollupCursor := by
  have hhead := processed_head (timeliesOf s) cl MAX_BATCHED_ROLLUP_COUNTS ht hok (by decide)
  have hne : processedOf (timeliesOf s) cl MAX_BATCHED_ROLLUP_COUNTS ≠ [] := by
    intro hnil
    rw [hnil] at hhead
    cases hhead
  rcases exists_getLast?_mem hne with ⟨x, hxlast, hxmem⟩
  have hcur := (rollupLiveCounts_parts s (timeliesOf s) cl MAX_BATCHED_ROLLUP_COUNTS).2.2
  rw [hcur, hxlast]
  exact mem_timelies_lt (mem_processed_mem hxmem)

theorem stepRollup_mono (s : Store) : s.rollupCursor ≤ (stepRollup s).1.rollupCursor := by
  unfold stepRollup
  cases hl : firstLive s with
  | none =>
    cases hd : firstDel s with
    | none => exact le_refl _
    | some d =>
      have hdp : s.rollupCursor < d.1 :=
        of_decide_eq_true (head?_filter_pred (l := s.queues) hd)
      exact Nat.le_of_lt hdp
  | some t =>
    cases hd : firstDel s with
    | none => exact Nat.le_of_lt (fold_cursor_lt hl trivial)
    | some d =>
      dsimp only
      by_cases hlt : t.1.1 < d.1
      · rw [if_pos hlt]
        exact Nat.le_of_lt (fold_cursor_lt hl (Nat.le_of_lt hlt))
      · rw [if_neg hlt]
        have hdp : s.rollupCursor < d.1 :=
          of_decide_eq_true (head?_filter_pred (l := s.queues) hd)
        exact Nat.le_of_lt hdp

theorem applyOp_rollupCursor_mono (s : Store) (op : Op) :
    s.rollupCursor ≤ (applyOp s op).rollupCursor := by
  cases op with
  | insert b =>
    show s.rollupCursor ≤ ((insertBatch s b).getD s).rollupCursor
    cases hib : insertBatch s b with
    | none => exact le_refl _
    | some s2 => exact le_of_eq (insertBatch_pres hib).1.symm
  | step => exact stepRollup_mono s
  | trim c l f => exact le_of_eq (trimCollection_pres s c l f).1.symm
  | delAcct d => exact le_of_eq (deleteAccount_pres s d).1.symm

/-- C5: excluding the reroll control, across every sequence of engine
operations (`insert_batch`, `step_rollup`, `trim_collection`,
`delete_account`) the stored global `rollup_cursor` never decreases. -/
theorem C5_rollupCursor_monotone (s : Store) (ops : List Op) :
    s.rollupCursor ≤ (execOps s ops).rollupCursor := by
  induction ops generalizing s with
  | nil => exact le_refl _
  | cons op rest ih =>
    exact le_trans (applyOp_rollupCursor_mono s op) (ih (applyOp s op))

/-! ## Strict orders on keys -/

/-- The key comparisons are strict linear orders (so sorted row lists have
unique keys and ordered insertion behaves like the store's keyed insert). -/
structure IsStrict {K : Type} (lt : K → K → Bool) : Prop where
  irr : ∀ a, lt a a = false
  tr : ∀ {a b c}, lt a b = true → lt b c = true → lt a c = true
  conn : ∀ {a b}, a ≠ b → lt a b = true ∨ lt b a = true

theorem IsStrict.asym {K : Type} {lt : K → K → Bool} (hs : IsStrict lt) {a b : K}
    (h1 : lt a b = true) (h2 : lt b a = true) : False := by
  have := hs.tr h1 h2
  rw [hs.irr] at this
  cases this

theorem IsStrict.ne {K : Type} {lt : K → K → Bool} (hs : IsStrict lt) {a b : K}
    (h : lt a b = true) : a ≠ b := by
  intro he
  rw [he, hs.irr] at h
  cases h

theorem natLtB_isStrict : IsStrict natLtB := by
  refine ⟨?_, ?_, ?_⟩
  · intro a; simp [natLtB]
  · intro a b c h1 h2
    simp only [natLtB, decide_eq_true_eq] at *
    omega
  · intro a b h
    simp only [natLtB, decide_eq_true_eq]
    omega

theorem unitLtB_isStrict : IsStrict unitLtB := by
  refine ⟨fun a => rfl, ?_, ?_⟩
  · intro a b c h; cases h
  · intro a b h; cases a; cases b; exact absurd rfl h

theorem charListLtB_irr : ∀ l, charListLtB l l = false
  | [] => rfl
  | c :: cs => by
    unfold charListLtB
    rw [if_neg (by exact Nat.lt_irrefl _), if_neg (by exact Nat.lt_irrefl _)]
    exact charListLtB_irr cs

theorem charListLtB_tr : ∀ {a b c : List Char}, charListLtB a b = true →
    charListLtB b c = true → charListLtB a c = true
  | [], [], _, h1, _ => by cases h1
  | [], _ :: _, [], _, h2 => by cases h2
  | [], _ :: _, _ :: _, _, _ => rfl
  | _ :: _, [], _, h1, _ => by cases h1
  | _ :: _, _ :: _, [], _, h2 => by cases h2
  | x :: xs, y :: ys, z :: zs, h1, h2 => by
    unfold charListLtB at h1 h2 ⊢
    by_cases hxy : x.toNat < y.toNat
    · by_cases hyz : y.toNat < z.toNat
      · rw [if_pos (Nat.lt_trans hxy hyz)]
      · rw [if_neg hyz] at h2
        by_cases hzy : z.toNat < y.toNat
        · rw [if_pos hzy] at h2; cases h2
        · have hyez : y.toNat = z.toNat := Nat.le_antisymm
            (Nat.le_of_not_lt hzy) (Nat.le_of_not_lt hyz)
          rw [if_pos (hyez ▸ hxy)]
    · rw [if_neg hxy] at h1
      by_cases hyx : y.toNat < x.toNat
      · rw [if_pos hyx] at h1; cases h1
      · have hxey : x.toNat = y.toNat := Nat.le_antisymm
          (Nat.le_of_not_lt hyx) (Nat.le_of_not_lt hxy)
        rw [if_neg hyx] at h1
        by_cases hyz : y.toNat < z.toNat
        · rw [if_pos (hxey ▸ hyz)]
        · rw [if_neg hyz] at h2
          by_cases hzy : z.toNat < y.toNat
          · rw [if_pos hzy] at h2; cases h2
          · have hyez : y.toNat = z.toNat := Nat.le_antisymm
              (Nat.le_of_not_lt hzy) (Nat.le_of_not_lt hyz)
            rw [if_neg hzy] at h2
            have hxz : x.toNat = z.toNat := hxey.trans hyez
            have hn1 : ¬ x.toNat < z.toNat := by rw [hxz]; exact Nat.lt_irrefl _
            have hn2 : ¬ z.toNat < x.toNat := by rw [hxz]; exact Nat.lt_irrefl _
            rw [if_neg hn1, if_neg hn2]
            exact charListLtB_tr h1 h2

theorem charListLtB_conn : ∀ {a b : List Char}, a ≠ b →
    charListLtB a b = true ∨ charListLtB b a = true
  | [], [], h => absurd rfl h
  | [], _ :: _, _ => Or.inl rfl
  | _ :: _, [], _ => Or.inr rfl
  | x :: xs, y :: ys, h => by
    unfold charListLtB
    rcases Nat.lt_trichotomy x.toNat y.toNat with hlt | heq | hgt
    · left; rw [if_pos hlt]
    · have hxy : x = y := Char.ext (UInt32.ext heq)
      have hts : xs ≠ ys := by
        intro he
        exact h (by rw [hxy, he])
      have hn1 : ¬ x.toNat < y.toNat := by rw [heq]; exact Nat.lt_irrefl _
      have hn2 : ¬ y.toNat < x.toNat := by rw [heq]; exact Nat.lt_irrefl _
      rcases charListLtB_conn hts with hc | hc
      · left
        rw [if_neg hn1, if_neg hn2]
        exact hc
      · right
        rw [if_neg hn2, if_neg hn1]
        exact hc
    · right; rw [if_pos hgt]

theorem strLtB_isStrict : IsStrict strLtB := by
  refine ⟨?_, ?_, ?_⟩
  · intro a; exact charListLtB_irr a.data
  · intro a b c h1 h2; exact charListLtB_tr h1 h2
  · intro a b h
    refine charListLtB_conn ?_
    intro he
    exact h (by cases a; cases b; cases he; rfl)

theorem lex2_isStrict {α β : Type} [DecidableEq α] {la : α → α → Bool}
    {lb : β → β → Bool} (ha : IsStrict la) (hb : IsStrict lb) :
    IsStrict (lex2 la lb) := by
  refine ⟨?_, ?_, ?_⟩
  · intro a
    simp [lex2, ha.irr, hb.irr]
  · intro a b c h1 h2
    simp only [lex2, Bool.or_eq_true, Bool.and_eq_true, decide_eq_true_eq] at h1 h2 ⊢
    rcases h1 with h1 | ⟨h1e, h1b⟩
    · rcases h2 with h2 | ⟨h2e, h2b⟩
      · exact Or.inl (ha.tr h1 h2)
      · exact Or.inl (h2e ▸ h1)
    · rcases h2 with h2 | ⟨h2e, h2b⟩
      · exact Or.inl (h1e ▸ h2)
      · exact Or.inr ⟨h1e.trans h2e, hb.tr h1b h2b⟩
  · intro a b h
    simp only [lex2, Bool.or_eq_true, Bool.and_eq_true, decide_eq_true_eq]
    by_cases h1 : a.1 = b.1
    · have h2 : a.2 ≠ b.2 := by
        intro he
        exact h (Prod.ext h1 he)
      rcases hb.conn h2 with hc | hc
      · exact Or.inl (Or.inr ⟨h1, hc⟩)
      · exact Or.inr (Or.inr ⟨h1.symm, hc⟩)
    · rcases ha.conn h1 with hc | hc
      · exact Or.inl (Or.inl hc)
      · exact Or.inr (Or.inl hc)

theorem liveLt_isStrict : IsStrict liveLt := lex2_isStrict natLtB_isStrict strLtB_isStrict

theorem feedLt_isStrict : IsStrict feedLt := lex2_isStrict strLtB_isStrict natLtB_isStrict

theorem cellLt_isStrict : IsStrict cellLt := lex2_isStrict natLtB_isStrict strLtB_isStrict

theorem everCellLt_isStrict : IsStrict everCellLt :=
  lex2_isStrict unitLtB_isStrict strLtB_isStrict

theorem rank3Lt_isStrict : IsStrict rank3Lt :=
  lex2_isStrict natLtB_isStrict (lex2_isStrict natLtB_isStrict strLtB_isStrict)

theorem everRankLt_isStrict : IsStrict everRankLt :=
  lex2_isStrict unitLtB_isStrict (lex2_isStrict natLtB_isStrict strLtB_isStrict)

/-! ## Sorted association list lemmas -/

/-- Row lists sorted strictly by key (as every fjall partition is). -/
def keySorted {K V : Type} (lt : K → K → Bool) (l : List (K × V)) : Prop :=
  l.Pairwise fun p q => lt p.1 q.1 = true

theorem getAssoc_cons {K V : Type} [DecidableEq K] (p : K × V) (l : List (K × V)) (k : K) :
    getAssoc (p :: l) k = if p.1 = k then some p.2 else getAssoc l k := by
  unfold getAssoc
  rw [List.find?_cons]
  by_cases h : p.1 = k
  · simp [h]
  · simp [h]

theorem getAssoc_insAssoc {K V : Type} [DecidableEq K] (lt : K → K → Bool)
    (k k' : K) (v : V) : ∀ l : List (K × V),
    getAssoc (insAssoc lt k v l) k' = if k' = k then some v else getAssoc l k'
  | [] => by
    rw [show insAssoc lt k v [] = [(k, v)] from rfl, getAssoc_cons]
    by_cases h : k' = k
    · rw [if_pos h, if_pos h.symm]
    · rw [if_neg h, if_neg fun he => h he.symm]
  | p :: t => by
    unfold insAssoc
    by_cases h1 : lt k p.1 = true
    · rw [if_pos h1, getAssoc_cons]
      by_cases h : k' = k
      · rw [if_pos h.symm, if_pos h]
      · rw [if_neg fun he => h he.symm, if_neg h]
    · rw [if_neg h1]
      by_cases h2 : k = p.1
      · rw [if_pos h2, getAssoc_cons, getAssoc_cons]
        by_cases h : k' = k
        · rw [if_pos h.symm, if_pos h]
        · rw [if_neg fun he => h he.symm, if_neg h, if_neg (h2 ▸ fun he => h he.symm)]
      · rw [if_neg h2, getAssoc_cons, getAssoc_cons, getAssoc_insAssoc lt k k' v t]
        by_cases h : p.1 = k'
        · rw [if_pos h, if_pos h]
          rw [if_neg fun he => h2 (by rw [← he, h])]
        · rw [if_neg h, if_neg h]

theorem mem_insAssoc_weak {K V : Type} [DecidableEq K] {lt : K → K → Bool}
    {k : K} {v : V} {q : K × V} : ∀ {l : List (K × V)},
    q ∈ insAssoc lt k v l → q = (k, v) ∨ q ∈ l := by
  intro l
  induction l with
  | nil =>
    intro h
    rcases List.mem_singleton.1 h with rfl
    exact Or.inl rfl
  | cons p t ih =>
    intro h
    unfold insAssoc at h
    by_cases h1 : lt k p.1 = true
    · rw [if_pos h1] at h
      rcases List.mem_cons.1 h with rfl | h
      · exact Or.inl rfl
      · exact Or.inr h
    · rw [if_neg h1] at h
      by_cases h2 : k = p.1
      · rw [if_pos h2] at h
        rcases List.mem_cons.1 h with rfl | h
        · exact Or.inl rfl
        · exact Or.inr (List.mem_cons_of_mem p h)
      · rw [if_neg h2] at h
        rcases List.mem_cons.1 h with rfl | h
        · exact Or.inr (List.mem_cons_self _ _)
        · rcases ih h with h | h
          · exact Or.inl h
          · exact Or.inr (List.mem_cons_of_mem p h)

theorem insAssoc_sorted {K V : Type} [DecidableEq K] {lt : K → K → Bool}
    (hs : IsStrict lt) (k : K) (v : V) :
    ∀ {l : List (K × V)}, keySorted lt l → keySorted lt (insAssoc lt k v l) := by
  intro l
  induction l with
  | nil => intro _; exact List.pairwise_singleton _ _
  | cons p t ih =>
    intro hl
    rcases List.pairwise_cons.1 hl with ⟨hp, ht⟩
    unfold insAssoc
    by_cases h1 : lt k p.1 = true
    · rw [if_pos h1]
      refine List.pairwise_cons.2 ⟨?_, hl⟩
      intro q hq
      rcases List.mem_cons.1 hq with rfl | hq
      · exact h1
      · exact hs.tr h1 (hp q hq)
    · rw [if_neg h1]
      by_cases h2 : k = p.1
      · rw [if_pos h2]
        refine List.pairwise_cons.2 ⟨?_, ht⟩
        intro q hq
        rw [show (k, v).1 = p.1 from h2]
        exact hp q hq
      · rw [if_neg h2]
        refine List.pairwise_cons.2 ⟨?_, ih ht⟩
        intro q hq
        rcases mem_insAssoc_weak hq with rfl | hq
        · rcases hs.conn h2 with hc | hc
          · exact absurd hc h1
          · exact hc
        · exact hp q hq

theorem getAssoc_eq_none_of_forall {K V : Type} [DecidableEq K] {k : K} :
    ∀ {l : List (K × V)}, (∀ q ∈ l, q.1 ≠ k) → getAssoc l k = none := by
  intro l
  induction l with
  | nil => intro _; rfl
  | cons p t ih =>
    intro h
    rw [getAssoc_cons, if_neg (h p (List.mem_cons_self p t)),
      ih fun q hq => h q (List.mem_cons_of_mem p hq)]

/-! ## Record-count sums -/

/-- Sum of the `records` fields over the rows whose key satisfies `q`. -/
def sumBy {K : Type} (q : K → Bool) (l : List (K × CountsValue)) : Nat :=
  ((l.filter fun e => q e.1).map fun e => e.2.records).sum

theorem sumBy_nil {K : Type} (q : K → Bool) : sumBy q [] = 0 := rfl

theorem sumBy_cons {K : Type} (q : K → Bool) (p : K × CountsValue)
    (l : List (K × CountsValue)) :
    sumBy q (p :: l) = (if q p.1 then p.2.records else 0) + sumBy q l := by
  unfold sumBy
  rw [List.filter_cons]
  by_cases h : q p.1
  · rw [if_pos h, if_pos h, List.map_cons, List.sum_cons]
  · rw [if_neg h, if_neg h, Nat.zero_add]

theorem sumBy_eq_zero {K : Type} {q : K → Bool} :
    ∀ {l : List (K × CountsValue)}, (∀ p ∈ l, q p.1 = false) → sumBy q l = 0 := by
  intro l
  induction l with
  | nil => intro _; rfl
  | cons p t ih =>
    intro h
    rw [sumBy_cons, h p (List.mem_cons_self p t)]
    simp only [Bool.false_eq_true, if_false, Nat.zero_add]
    exact ih fun x hx => h x (List.mem_cons_of_mem p hx)

theorem merge_records (a b : CountsValue) : (a.merge b).records = a.records + b.records :=
  rfl

theorem getAssoc_none_forall {K V : Type} [DecidableEq K] {k : K}
    {l : List (K × V)} (h : getAssoc l k = none) : ∀ q ∈ l, q.1 ≠ k := by
  intro q hq he
  unfold getAssoc at h
  rcases Option.map_eq_none'.1 h with hf
  have := List.find?_eq_none.1 hf q hq
  simp [he] at this

/-- Inserting a fresh key `k` adds `v.records` to every covering sum. -/
theorem sumBy_insAssoc_fresh {K : Type} [DecidableEq K] {lt : K → K → Bool}
    (q : K → Bool) (k : K) (v : CountsValue) :
    ∀ {l : List (K × CountsValue)}, (∀ p ∈ l, p.1 ≠ k) →
    sumBy q (insAssoc lt k v l) = sumBy q l + (if q k then v.records else 0) := by
  intro l
  induction l with
  | nil =>
    intro _
    show sumBy q [(k, v)] = _
    rw [sumBy_cons, sumBy_nil]
    dsimp only
    omega
  | cons p t ih =>
    intro hfr
    show sumBy q (insAssoc lt k v (p :: t)) = _
    unfold insAssoc
    by_cases h1 : lt k p.1 = true
    · rw [if_pos h1, sumBy_cons, sumBy_cons]
      dsimp only
      omega
    · rw [if_neg h1,
        if_neg fun he => hfr p (List.mem_cons_self p t) he.symm,
        sumBy_cons, sumBy_cons, ih fun x hx => hfr x (List.mem_cons_of_mem p hx)]
      omega

/-- Replacing the row at an existing key `k` in a sorted list swaps its
contribution in every covering sum. -/
theorem sumBy_insAssoc_replace {K : Type} [DecidableEq K] {lt : K → K → Bool}
    (hs : IsStrict lt) (q : K → Bool) (k : K) (v o : CountsValue) :
    ∀ {l : List (K × CountsValue)}, keySorted lt l → getAssoc l k = some o →
    sumBy q (insAssoc lt k v l) + (if q k then o.records else 0) =
      sumBy q l + (if q k then v.records else 0) := by
  intro l
  induction l with
  | nil => intro _ h; cases h
  | cons p t ih =>
    intro hl hget
    rcases List.pairwise_cons.1 hl with ⟨hp, ht⟩
    show sumBy q (insAssoc lt k v (p :: t)) + _ = _
    unfold insAssoc
    by_cases h1 : lt k p.1 = true
    · exfalso
      have hnone : getAssoc (p :: t) k = none := by
        refine getAssoc_eq_none_of_forall ?_
        intro x hx
        rcases List.mem_cons.1 hx with rfl | hx
        · exact fun he => hs.asym h1 (he ▸ h1)
        · intro he
          exact hs.asym h1 (he ▸ hp x hx)
      rw [hnone] at hget
      cases hget
    · rw [if_neg h1]
      by_cases h2 : k = p.1
      · rw [if_pos h2]
        have ho : o = p.2 := by
          rw [getAssoc_cons, if_pos h2.symm] at hget
          exact (Option.some.inj hget).symm
        rw [sumBy_cons, sumBy_cons, ho]
        dsimp only
        rw [← h2]
        omega
      · rw [if_neg h2]
        rw [getAssoc_cons, if_neg fun he => h2 he.symm] at hget
        rw [sumBy_cons, sumBy_cons]
        have := ih ht hget
        omega

/-- Inserting `current(k).merge δ` at `k` into a sorted row list adds exactly
`δ.records` to every key-filtered record sum that covers `k`. -/
theorem sumBy_insAssoc_merge {K : Type} [DecidableEq K] {lt : K → K → Bool}
    (hs : IsStrict lt) (q : K → Bool) (k : K) (dv : CountsValue)
    {l : List (K × CountsValue)} (hl : keySorted lt l) :
    sumBy q (insAssoc lt k (((getAssoc l k).getD CountsValue.zero).merge dv) l) =
      sumBy q l + (if q k then dv.records else 0) := by
  cases hget : getAssoc l k with
  | none =>
    rw [sumBy_insAssoc_fresh q k _ (getAssoc_none_forall hget)]
    rw [Option.getD_none, merge_records, show CountsValue.zero.records = 0 from rfl]
    simp only [Nat.zero_add]
  | some o =>
    have := sumBy_insAssoc_replace hs q k (((some o).getD CountsValue.zero).merge dv) o
      hl hget
    rw [Option.getD_some, merge_records] at this
    rw [Option.getD_some]
    by_cases h : q k
    · simp only [if_pos h] at this ⊢
      omega
    · simp only [if_neg h] at this ⊢
      omega

/-- `sumBy` with `q k = false` everywhere the fold inserts: sorted insertion
preserves sortedness through an entry fold (any inserted values). -/
theorem famFold_sorted {K V : Type} [DecidableEq K] {lt : K → K → Bool}
    (hs : IsStrict lt) (f : K × CountsValue → V) :
    ∀ (es : List (K × CountsValue)) {cells : List (K × V)}, keySorted lt cells →
      keySorted lt (es.foldl (fun c e => insAssoc lt e.1 (f e) c) cells)
  | [], _, hc => hc
  | e :: es, cells, hc => by
    rw [List.foldl_cons]
    exact famFold_sorted hs f es (insAssoc_sorted hs e.1 (f e) hc)

/-- The per-family cell fold (reads from `pre`, writes into the accumulator)
adds exactly the entry sums to every key-filtered record sum, provided the
entry keys are distinct and the accumulator still agrees with `pre` on them. -/
theorem famFold_sum {K : Type} [DecidableEq K] {lt : K → K → Bool}
    (hs : IsStrict lt) (q : K → Bool) (pre : List (K × CountsValue)) :
    ∀ (es : List (K × CountsValue)) (cells : List (K × CountsValue)),
      keySorted lt cells → (es.map (·.1)).Nodup →
      (∀ e ∈ es, getAssoc cells e.1 = getAssoc pre e.1) →
      sumBy q (es.foldl (fun c e =>
        insAssoc lt e.1 (((getAssoc pre e.1).getD CountsValue.zero).merge e.2) c) cells) =
        sumBy q cells + sumBy q es
  | [], cells, _, _, _ => by rw [List.foldl_nil, sumBy_nil, Nat.add_zero]
  | e :: es, cells, hc, hnd, hagree => by
    rw [List.foldl_cons]
    have hpre : getAssoc pre e.1 = getAssoc cells e.1 :=
      (hagree e (List.mem_cons_self e es)).symm
    rw [List.map_cons, List.nodup_cons] at hnd
    have hrec := famFold_sum hs q pre es
      (insAssoc lt e.1 (((getAssoc pre e.1).getD CountsValue.zero).merge e.2) cells)
      (insAssoc_sorted hs _ _ hc) hnd.2 ?_
    · rw [hrec]
      rw [hpre, sumBy_insAssoc_merge hs q e.1 e.2 hc, sumBy_cons]
      omega
    · intro e2 he2
      rw [getAssoc_insAssoc]
      rw [if_neg ?_]
      · exact hagree e2 (List.mem_cons_of_mem e he2)
      · intro he
        exact hnd.1 (he ▸ List.mem_map_of_mem (·.1) he2)

/-! ## Per-family projections of the `counts_by_rollup` entries -/

/-- Select the bucket component of one family out of a `Rollup` tag. -/
def hourlyProj : RollupTag → Option Nat
  | .hourly h => some h
  | _ => none

def weeklyProj : RollupTag → Option Nat
  | .weekly w => some w
  | _ => none

def everProj : RollupTag → Option Unit
  | .allTime => some ()
  | _ => none

/-- The entries of one aggregate family, re-keyed as (bucket, nsid). -/
def tagProj {β : Type} (proj : RollupTag → Option β)
    (E : List ((Nsid × RollupTag) × CountsValue)) : List ((β × Nsid) × CountsValue) :=
  E.filterMap fun e => (proj e.1.2).map fun b => ((b, e.1.1), e.2)

def hourlyEntries (E : List ((Nsid × RollupTag) × CountsValue)) :
    List ((Nat × Nsid) × CountsValue) := tagProj hourlyProj E

def weeklyEntries (E : List ((Nsid × RollupTag) × CountsValue)) :
    List ((Nat × Nsid) × CountsValue) := tagProj weeklyProj E

def everEntries (E : List ((Nsid × RollupTag) × CountsValue)) :
    List ((Unit × Nsid) × CountsValue) := tagProj everProj E

/-- The mixed `counts_by_rollup` fold decomposes into one per-family fold on
cells: each entry only touches its own family, values read from the pre-batch
store `s`. -/
theorem foldEntries_cells (s : Store) :
    ∀ (E : List ((Nsid × RollupTag) × CountsValue)) (st : Store),
      (E.foldl (applyEntry s) st).hourly =
        (hourlyEntries E).foldl (fun c e =>
          insAssoc cellLt e.1
            (((getAssoc s.hourly e.1).getD CountsValue.zero).merge e.2) c) st.hourly ∧
      (E.foldl (applyEntry s) st).weekly =
        (weeklyEntries E).foldl (fun c e =>
          insAssoc cellLt e.1
            (((getAssoc s.weekly e.1).getD CountsValue.zero).merge e.2) c) st.weekly ∧
      (E.foldl (applyEntry s) st).ever =
        (everEntries E).foldl (fun c e =>
          insAssoc everCellLt e.1
            (((getAssoc s.ever e.1).getD CountsValue.zero).merge e.2) c) st.ever
  | [], st => ⟨rfl, rfl, rfl⟩
  | e :: E, st => by
    rcases e with ⟨⟨n, tag⟩, dv⟩
    rcases foldEntries_cells s E (applyEntry s st ((n, tag), dv)) with ⟨ih1, ih2, ih3⟩
    cases tag with
    | hourly h =>
      refine ⟨?_, ?_, ?_⟩
      · rw [List.foldl_cons, ih1]; rfl
      · rw [List.foldl_cons, ih2]; rfl
      · rw [List.foldl_cons, ih3]; rfl
    | weekly w =>
      refine ⟨?_, ?_, ?_⟩
      · rw [List.foldl_cons, ih1]; rfl
      · rw [List.foldl_cons, ih2]; rfl
      · rw [List.foldl_cons, ih3]; rfl
    | allTime =>
      refine ⟨?_, ?_, ?_⟩
      · rw [List.foldl_cons, ih1]; rfl
      · rw [List.foldl_cons, ih2]; rfl
      · rw [List.foldl_cons, ih3]; rfl

/-! ## `counts_by_rollup` key and sum lemmas -/

theorem updMergeCV_keys {K : Type} [DecidableEq K] (k : K) (v : CountsValue) :
    ∀ m : List (K × CountsValue),
      (updMergeCV k v m).map (·.1) =
        if k ∈ m.map (·.1) then m.map (·.1) else m.map (·.1) ++ [k]
  | [] => by simp [updMergeCV]
  | p :: t => by
    unfold updMergeCV
    by_cases h : p.1 = k
    · rw [if_pos h]
      simp only [List.map_cons]
      rw [if_pos (by rw [h]; exact List.mem_cons_self k _)]
    · rw [if_neg h]
      simp only [List.map_cons]
      rw [updMergeCV_keys k v t]
      by_cases hm : k ∈ t.map (·.1)
      · rw [if_pos hm, if_pos (List.mem_cons_of_mem p.1 hm)]
      · rw [if_neg hm, if_neg ?_, List.cons_append]
        intro hc
        rcases List.mem_cons.1 hc with hc | hc
        · exact h hc.symm
        · exact hm hc

theorem updMergeCV_keys_nodup {K : Type} [DecidableEq K] (k : K) (v : CountsValue)
    {m : List (K × CountsValue)} (h : (m.map (·.1)).Nodup) :
    ((updMergeCV k v m).map (·.1)).Nodup := by
  rw [updMergeCV_keys]
  by_cases hm : k ∈ m.map (·.1)
  · rw [if_pos hm]; exact h
  · rw [if_neg hm]
    refine List.nodup_append.2 ⟨h, List.nodup_singleton k, ?_⟩
    intro a ha hb
    rcases List.mem_singleton.1 hb with rfl
    exact hm ha

theorem buildRollups_keys_nodup :
    ∀ (processed : List ((Cursor × Nsid) × CountsValue))
      (m : List ((Nsid × RollupTag) × CountsValue)),
      (m.map (·.1)).Nodup → ((processed.foldl buildStep m).map (·.1)).Nodup
  | [], _, h => h
  | kv :: processed, m, h => by
    rw [List.foldl_cons]
    exact buildRollups_keys_nodup processed _
      (updMergeCV_keys_nodup _ _ (updMergeCV_keys_nodup _ _ (updMergeCV_keys_nodup _ _ h)))

theorem sumBy_updMergeCV {K : Type} [DecidableEq K] (q : K → Bool) (k : K)
    (v : CountsValue) : ∀ m : List (K × CountsValue),
    sumBy q (updMergeCV k v m) = sumBy q m + (if q k then v.records else 0)
  | [] => by
    show sumBy q [(k, CountsValue.zero.merge v)] = _
    rw [sumBy_cons, sumBy_nil]
    dsimp only
    rw [merge_records, show CountsValue.zero.records = 0 from rfl]
    simp only [Nat.zero_add, Nat.add_zero]
  | p :: t => by
    unfold updMergeCV
    by_cases h : p.1 = k
    · rw [if_pos h, sumBy_cons, sumBy_cons]
      dsimp only
      rw [merge_records, h]
      by_cases hq : q k
      · simp only [if_pos hq]; omega
      · simp only [if_neg hq]; omega
    · rw [if_neg h, sumBy_cons, sumBy_cons, sumBy_updMergeCV q k v t]
      omega

/-! ## Family projections of `updMergeCV` and `buildStep` -/

theorem updMergeCV_cons {K : Type} [DecidableEq K] (k : K) (v : CountsValue)
    (p : K × CountsValue) (t : List (K × CountsValue)) :
    updMergeCV k v (p :: t) =
      if p.1 = k then (p.1, p.2.merge v) :: t else p :: updMergeCV k v t := rfl

theorem tagProj_nil {β : Type} (proj : RollupTag → Option β) :
    tagProj proj [] = [] := rfl

theorem tagProj_cons_some {β : Type} {proj : RollupTag → Option β} {tag : RollupTag}
    {b : β} (hb : proj tag = some b) (n : Nsid) (v : CountsValue)
    (t : List ((Nsid × RollupTag) × CountsValue)) :
    tagProj proj (((n, tag), v) :: t) = ((b, n), v) :: tagProj proj t := by
  simp only [tagProj, List.filterMap_cons, hb, Option.map_some']

theorem tagProj_cons_none {β : Type} {proj : RollupTag → Option β} {tag : RollupTag}
    (hb : proj tag = none) (n : Nsid) (v : CountsValue)
    (t : List ((Nsid × RollupTag) × CountsValue)) :
    tagProj proj (((n, tag), v) :: t) = tagProj proj t := by
  simp only [tagProj, List.filterMap_cons, hb, Option.map_none']

/-- Merging into a tag of the projected family commutes with the projection. -/
theorem tagProj_updMergeCV_some {β : Type} [DecidableEq β] {proj : RollupTag → Option β}
    (hinj : ∀ t1 t2 b, proj t1 = some b → proj t2 = some b → t1 = t2)
    {tag : RollupTag} {b : β} (hb : proj tag = some b) (n : Nsid) (v : CountsValue) :
    ∀ m, tagProj proj (updMergeCV (n, tag) v m) =
      updMergeCV (b, n) v (tagProj proj m)
  | [] => by
    show tagProj proj [((n, tag), CountsValue.zero.merge v)] = _
    rw [tagProj_cons_some hb, tagProj_nil]
    rfl
  | ⟨⟨pn, ptag⟩, pv⟩ :: t => by
    rw [updMergeCV_cons]
    by_cases hpk : ((pn, ptag) : Nsid × RollupTag) = (n, tag)
    · rw [if_pos hpk]
      injection hpk with h1 h2
      subst h1; subst h2
      dsimp only
      rw [tagProj_cons_some hb, tagProj_cons_some hb, updMergeCV_cons, if_pos rfl]
    · rw [if_neg hpk]
      cases hpt : proj ptag with
      | some pb =>
        have hne : ¬ (((pb, pn) : β × Nsid) = (b, n)) := by
          intro he
          injection he with e1 e2
          subst e1; subst e2
          exact hpk (by rw [hinj ptag tag _ hpt hb])
        rw [tagProj_cons_some hpt, tagProj_cons_some hpt,
          tagProj_updMergeCV_some hinj hb n v t, updMergeCV_cons, if_neg hne]
      | none =>
        rw [tagProj_cons_none hpt, tagProj_cons_none hpt,
          tagProj_updMergeCV_some hinj hb n v t]

/-- Merging into a tag outside the projected family is invisible to the
projection. -/
theorem tagProj_updMergeCV_none {β : Type} {proj : RollupTag → Option β}
    {tag : RollupTag} (hb : proj tag = none) (n : Nsid) (v : CountsValue) :
    ∀ m, tagProj proj (updMergeCV (n, tag) v m) = tagProj proj m
  | [] => by
    show tagProj proj [((n, tag), CountsValue.zero.merge v)] = _
    rw [tagProj_cons_none hb, tagProj_nil]
  | ⟨⟨pn, ptag⟩, pv⟩ :: t => by
    rw [updMergeCV_cons]
    by_cases hpk : ((pn, ptag) : Nsid × RollupTag) = (n, tag)
    · rw [if_pos hpk]
      injection hpk with h1 h2
      subst h1; subst h2
      dsimp only
      rw [tagProj_cons_none hb, tagProj_cons_none hb]
    · rw [if_neg hpk]
      cases hpt : proj ptag with
      | some pb =>
        rw [tagProj_cons_some hpt, tagProj_cons_some hpt,
          tagProj_updMergeCV_none hb n v t]
      | none =>
        rw [tagProj_cons_none hpt, tagProj_cons_none hpt,
          tagProj_updMergeCV_none hb n v t]

theorem hourlyProj_hourly (h : Nat) : hourlyProj (RollupTag.hourly h) = some h := rfl

theorem hourlyProj_weekly (w : Nat) : hourlyProj (RollupTag.weekly w) = none := rfl

theorem hourlyProj_allTime : hourlyProj RollupTag.allTime = none := rfl

theorem weeklyProj_hourly (h : Nat) : weeklyProj (RollupTag.hourly h) = none := rfl

theorem weeklyProj_weekly (w : Nat) : weeklyProj (RollupTag.weekly w) = some w := rfl

theorem weeklyProj_allTime : weeklyProj RollupTag.allTime = none := rfl

theorem everProj_hourly (h : Nat) : everProj (RollupTag.hourly h) = none := rfl

theorem everProj_weekly (w : Nat) : everProj (RollupTag.weekly w) = none := rfl

theorem everProj_allTime : everProj RollupTag.allTime = some () := rfl

theorem hourlyProj_inj (t1 t2 : RollupTag) (b : Nat)
    (e1 : hourlyProj t1 = some b) (e2 : hourlyProj t2 = some b) : t1 = t2 := by
  cases t1 <;> cases t2 <;> simp_all [hourlyProj]

theorem weeklyProj_inj (t1 t2 : RollupTag) (b : Nat)
    (e1 : weeklyProj t1 = some b) (e2 : weeklyProj t2 = some b) : t1 = t2 := by
  cases t1 <;> cases t2 <;> simp_all [weeklyProj]

theorem everProj_inj (t1 t2 : RollupTag) (b : Unit)
    (e1 : everProj t1 = some b) (e2 : everProj t2 = some b) : t1 = t2 := by
  cases t1 <;> cases t2 <;> simp_all [everProj]

theorem tagProj_keys {β : Type} (proj : RollupTag → Option β) :
    ∀ E : List ((Nsid × RollupTag) × CountsValue),
      (tagProj proj E).map (·.1) =
        (E.map (·.1)).filterMap fun k => (proj k.2).map fun b => (b, k.1)
  | [] => rfl
  | ⟨⟨n, tag⟩, v⟩ :: t => by
    cases hpt : proj tag with
    | some b =>
      rw [tagProj_cons_some hpt, List.map_cons, List.map_cons, List.filterMap_cons,
        tagProj_keys proj t]
      dsimp only
      rw [hpt]
      rfl
    | none =>
      rw [tagProj_cons_none hpt, List.map_cons, List.filterMap_cons, tagProj_keys proj t]
      dsimp only
      rw [hpt]
      rfl

theorem tagProj_keys_nodup {β : Type} {proj : RollupTag → Option β}
    (hinj : ∀ t1 t2 b, proj t1 = some b → proj t2 = some b → t1 = t2)
    {E : List ((Nsid × RollupTag) × CountsValue)} (h : (E.map (·.1)).Nodup) :
    ((tagProj proj E).map (·.1)).Nodup := by
  rw [tagProj_keys]
  refine List.Nodup.filterMap ?_ h
  intro a a' bn ha ha'
  rw [Option.mem_def, Option.map_eq_some'] at ha ha'
  rcases ha with ⟨b1, hb1, he1⟩
  rcases ha' with ⟨b2, hb2, he2⟩
  rcases a with ⟨n1, tg1⟩
  rcases a' with ⟨n2, tg2⟩
  rw [← he2] at he1
  injection he1 with e1 e2
  dsimp only at e1 e2 hb1 hb2
  subst e1
  subst e2
  rw [hinj tg1 tg2 _ hb1 hb2]

theorem buildStep_eq (m : List ((Nsid × RollupTag) × CountsValue))
    (kv : (Cursor × Nsid) × CountsValue) :
    buildStep m kv =
      updMergeCV (kv.1.2, RollupTag.allTime) kv.2
        (updMergeCV (kv.1.2, RollupTag.weekly (weekTrunc kv.1.1)) kv.2
          (updMergeCV (kv.1.2, RollupTag.hourly (hourTrunc kv.1.1)) kv.2 m)) := rfl

/-- Each consumed live cell contributes exactly one merge to the projected
family. -/
theorem hourly_buildStep (n2 : Nsid) (c : Cursor) (v : CountsValue)
    (m : List ((Nsid × RollupTag) × CountsValue)) :
    tagProj hourlyProj (buildStep m ((c, n2), v)) =
      updMergeCV (hourTrunc c, n2) v (tagProj hourlyProj m) := by
  rw [buildStep_eq]
  dsimp only
  rw [tagProj_updMergeCV_none hourlyProj_allTime,
    tagProj_updMergeCV_none (hourlyProj_weekly (weekTrunc c)),
    tagProj_updMergeCV_some hourlyProj_inj (hourlyProj_hourly (hourTrunc c))]

theorem weekly_buildStep (n2 : Nsid) (c : Cursor) (v : CountsValue)
    (m : List ((Nsid × RollupTag) × CountsValue)) :
    tagProj weeklyProj (buildStep m ((c, n2), v)) =
      updMergeCV (weekTrunc c, n2) v (tagProj weeklyProj m) := by
  rw [buildStep_eq]
  dsimp only
  rw [tagProj_updMergeCV_none weeklyProj_allTime,
    tagProj_updMergeCV_some weeklyProj_inj (weeklyProj_weekly (weekTrunc c)),
    tagProj_updMergeCV_none (weeklyProj_hourly (hourTrunc c))]

theorem ever_buildStep (n2 : Nsid) (c : Cursor) (v : CountsValue)
    (m : List ((Nsid × RollupTag) × CountsValue)) :
    tagProj everProj (buildStep m ((c, n2), v)) =
      updMergeCV ((), n2) v (tagProj everProj m) := by
  rw [buildStep_eq]
  dsimp only
  rw [tagProj_updMergeCV_some everProj_inj everProj_allTime,
    tagProj_updMergeCV_none (everProj_weekly (weekTrunc c)),
    tagProj_updMergeCV_none (everProj_hourly (hourTrunc c))]

/-- A family projection of the `counts_by_rollup` accumulation carries
exactly the per-nsid record sum of the consumed cells. -/
theorem sumBy_tagProj_buildRollups {β : Type} [DecidableEq β]
    {proj : RollupTag → Option β} (bkt : Cursor → β)
    (hstep : ∀ (n2 : Nsid) (c : Cursor) (v : CountsValue) m,
      tagProj proj (buildStep m ((c, n2), v)) = updMergeCV (bkt c, n2) v (tagProj proj m))
    (n : Nsid) :
    ∀ (processed : List ((Cursor × Nsid) × CountsValue))
      (m : List ((Nsid × RollupTag) × CountsValue)),
      sumBy (fun k : β × Nsid => decide (k.2 = n))
          (tagProj proj (processed.foldl buildStep m)) =
        sumBy (fun k : β × Nsid => decide (k.2 = n)) (tagProj proj m) +
          sumBy (fun k : Cursor × Nsid => decide (k.2 = n)) processed
  | [], m => by rw [List.foldl_nil, sumBy_nil, Nat.add_zero]
  | ⟨⟨c, n2⟩, v⟩ :: processed, m => by
    rw [List.foldl_cons, sumBy_cons,
      sumBy_tagProj_buildRollups bkt hstep n processed _, hstep n2 c v m,
      sumBy_updMergeCV]
    dsimp only
    omega


/-! ## C6: hourly/weekly sums against the all-time cell -/

theorem keySorted_keys_nodup {K V : Type} {lt : K → K → Bool} (hs : IsStrict lt)
    {l : List (K × V)} (h : keySorted lt l) : (l.map (·.1)).Nodup := by
  refine List.pairwise_map.2 ?_
  exact List.Pairwise.imp (fun hab => hs.ne hab) h

/-- On a duplicate-free row list, the sum filtered to one key is that key's
row (zero when absent). -/
theorem sumBy_eq_lookup {K : Type} [DecidableEq K] (q : K → Bool) (k0 : K)
    (hq : ∀ k, q k = decide (k = k0)) :
    ∀ {cells : List (K × CountsValue)}, (cells.map (·.1)).Nodup →
      sumBy q cells = ((getAssoc cells k0).getD CountsValue.zero).records := by
  intro cells
  induction cells with
  | nil => intro _; rfl
  | cons p t ih =>
    intro hnd
    rw [List.map_cons, List.nodup_cons] at hnd
    rw [sumBy_cons, getAssoc_cons]
    by_cases he : p.1 = k0
    · rw [if_pos (show q p.1 = true by rw [hq p.1]; exact decide_eq_true he),
        if_pos he, Option.getD_some]
      have ht0 : sumBy q t = 0 := by
        refine sumBy_eq_zero fun x hx => ?_
        rw [hq x.1]
        refine decide_eq_false fun hc => hnd.1 ?_
        rw [he, ← hc]
        exact List.mem_map_of_mem (·.1) hx
      rw [ht0, Nat.add_zero]
    · rw [if_neg (show ¬ q p.1 = true by
          rw [hq p.1]; exact fun hc => he (of_decide_eq_true hc)),
        if_neg he, Nat.zero_add]
      exact ih hnd.2

/-- The record sum over the hourly aggregate cells covering NSID `n`. -/
def hourlySumOf (s : Store) (n : Nsid) : Nat :=
  sumBy (fun k : Nat × Nsid => decide (k.2 = n)) s.hourly

/-- The record sum over the weekly aggregate cells covering NSID `n`. -/
def weeklySumOf (s : Store) (n : Nsid) : Nat :=
  sumBy (fun k : Nat × Nsid => decide (k.2 = n)) s.weekly

/-- The record sum over the all-time cells for NSID `n` (at most one cell). -/
def everSumOf (s : Store) (n : Nsid) : Nat :=
  sumBy (fun k : Unit × Nsid => decide (k.2 = n)) s.ever

/-- The record count the law compares against: `ever_counts[n].records`,
zero when the cell is absent. -/
def everRecordsOf (s : Store) (n : Nsid) : Nat :=
  ((getAssoc s.ever ((), n)).getD CountsValue.zero).records

/-- Sortedness of the three aggregate-cell partitions (their on-disk key
order). -/
def aggSorted (s : Store) : Prop :=
  keySorted cellLt s.hourly ∧ keySorted cellLt s.weekly ∧ keySorted everCellLt s.ever

/-- The C6 balance: for every NSID the hourly and the weekly record sums both
equal the all-time record sum. -/
def aggBalanced (s : Store) : Prop :=
  ∀ n, hourlySumOf s n = everSumOf s n ∧ weeklySumOf s n = everSumOf s n

/-- The three aggregate partitions written by `rollup_live_counts`, decomposed
into per-family folds. -/
theorem rollupLiveCounts_fields (s : Store)
    (timelies : List ((Cursor × Nsid) × CountsValue)) (lim : Option Cursor) (rl : Nat) :
    (rollupLiveCounts s timelies lim rl).1.hourly =
      (hourlyEntries (buildRollups (processedOf timelies lim rl))).foldl
        (fun c e => insAssoc cellLt e.1
          (((getAssoc s.hourly e.1).getD CountsValue.zero).merge e.2) c) s.hourly ∧
    (rollupLiveCounts s timelies lim rl).1.weekly =
      (weeklyEntries (buildRollups (processedOf timelies lim rl))).foldl
        (fun c e => insAssoc cellLt e.1
          (((getAssoc s.weekly e.1).getD CountsValue.zero).merge e.2) c) s.weekly ∧
    (rollupLiveCounts s timelies lim rl).1.ever =
      (everEntries (buildRollups (processedOf timelies lim rl))).foldl
        (fun c e => insAssoc everCellLt e.1
          (((getAssoc s.ever e.1).getD CountsValue.zero).merge e.2) c) s.ever := by
  have h := foldEntries_cells s (buildRollups (processedOf timelies lim rl))
    { s with liveCounts :=
        (processedOf timelies lim rl).foldl (fun lc kv => delAssoc kv.1 lc) s.liveCounts }
  exact ⟨h.1, h.2.1, h.2.2⟩

theorem rollupLiveCounts_sortedPres (s : Store)
    (timelies : List ((Cursor × Nsid) × CountsValue)) (lim : Option Cursor) (rl : Nat)
    (hwf : aggSorted s) : aggSorted (rollupLiveCounts s timelies lim rl).1 := by
  obtain ⟨hw1, hw2, hw3⟩ := hwf
  obtain ⟨f1, f2, f3⟩ := rollupLiveCounts_fields s timelies lim rl
  unfold aggSorted
  refine ⟨?_, ?_, ?_⟩
  · rw [f1]
    exact famFold_sorted cellLt_isStrict
      (fun e => ((getAssoc s.hourly e.1).getD CountsValue.zero).merge e.2) _ hw1
  · rw [f2]
    exact famFold_sorted cellLt_isStrict
      (fun e => ((getAssoc s.weekly e.1).getD CountsValue.zero).merge e.2) _ hw2
  · rw [f3]
    exact famFold_sorted everCellLt_isStrict
      (fun e => ((getAssoc s.ever e.1).getD CountsValue.zero).merge e.2) _ hw3

/-- One `rollup_live_counts` call adds the consumed cells' per-nsid record sum
to each of the three families. -/
theorem rollupLiveCounts_sums (s : Store)
    (timelies : List ((Cursor × Nsid) × CountsValue)) (lim : Option Cursor) (rl : Nat)
    (hwf : aggSorted s) (n : Nsid) :
    hourlySumOf (rollupLiveCounts s timelies lim rl).1 n =
      hourlySumOf s n + sumBy (fun k : Cursor × Nsid => decide (k.2 = n))
        (processedOf timelies lim rl) ∧
    weeklySumOf (rollupLiveCounts s timelies lim rl).1 n =
      weeklySumOf s n + sumBy (fun k : Cursor × Nsid => decide (k.2 = n))
        (processedOf timelies lim rl) ∧
    everSumOf (rollupLiveCounts s timelies lim rl).1 n =
      everSumOf s n + sumBy (fun k : Cursor × Nsid => decide (k.2 = n))
        (processedOf timelies lim rl) := by
  obtain ⟨hw1, hw2, hw3⟩ := hwf
  obtain ⟨f1, f2, f3⟩ := rollupLiveCounts_fields s timelies lim rl
  have hnd := buildRollups_keys_nodup (processedOf timelies lim rl) [] (by simp)
  refine ⟨?_, ?_, ?_⟩
  · unfold hourlySumOf
    rw [f1, famFold_sum cellLt_isStrict (fun k : Nat × Nsid => decide (k.2 = n)) s.hourly
        (hourlyEntries (buildRollups (processedOf timelies lim rl))) s.hourly hw1
        (tagProj_keys_nodup hourlyProj_inj hnd) (fun e he => rfl),
      show hourlyEntries (buildRollups (processedOf timelies lim rl)) =
        tagProj hourlyProj ((processedOf timelies lim rl).foldl buildStep []) from rfl,
      sumBy_tagProj_buildRollups hourTrunc hourly_buildStep n
        (processedOf timelies lim rl) [],
      tagProj_nil, sumBy_nil, Nat.zero_add]
  · unfold weeklySumOf
    rw [f2, famFold_sum cellLt_isStrict (fun k : Nat × Nsid => decide (k.2 = n)) s.weekly
        (weeklyEntries (buildRollups (processedOf timelies lim rl))) s.weekly hw2
        (tagProj_keys_nodup weeklyProj_inj hnd) (fun e he => rfl),
      show weeklyEntries (buildRollups (processedOf timelies lim rl)) =
        tagProj weeklyProj ((processedOf timelies lim rl).foldl buildStep []) from rfl,
      sumBy_tagProj_buildRollups weekTrunc weekly_buildStep n
        (processedOf timelies lim rl) [],
      tagProj_nil, sumBy_nil, Nat.zero_add]
  · unfold everSumOf
    rw [f3, famFold_sum everCellLt_isStrict (fun k : Unit × Nsid => decide (k.2 = n)) s.ever
        (everEntries (buildRollups (processedOf timelies lim rl))) s.ever hw3
        (tagProj_keys_nodup everProj_inj hnd) (fun e he => rfl),
      show everEntries (buildRollups (processedOf timelies lim rl)) =
        tagProj everProj ((processedOf timelies lim rl).foldl buildStep []) from rfl,
      sumBy_tagProj_buildRollups (fun _ => ()) ever_buildStep n
        (processedOf timelies lim rl) [],
      tagProj_nil, sumBy_nil, Nat.zero_add]

theorem rollupLiveCounts_balanced (s : Store)
    (timelies : List ((Cursor × Nsid) × CountsValue)) (lim : Option Cursor) (rl : Nat)
    (hwf : aggSorted s) (hb : aggBalanced s) :
    aggBalanced (rollupLiveCounts s timelies lim rl).1 := by
  intro n
  obtain ⟨hh, hw, he⟩ := rollupLiveCounts_sums s timelies lim rl hwf n
  exact ⟨by rw [hh, he, (hb n).1], by rw [hw, he, (hb n).2]⟩

/-- A store whose three aggregate partitions are unchanged keeps both C6
properties. -/
theorem agg_transport {s s2 : Store} (hh : s2.hourly = s.hourly)
    (hw : s2.weekly = s.weekly) (he : s2.ever = s.ever) :
    (aggSorted s → aggSorted s2) ∧ (aggBalanced s → aggBalanced s2) := by
  unfold aggSorted aggBalanced hourlySumOf weeklySumOf everSumOf
  rw [hh, hw, he]
  exact ⟨id, id⟩

theorem rollupDeleteAccount_agg (s : Store) (d : Cursor × Did) :
    (rollupDeleteAccount s d).1.hourly = s.hourly ∧
    (rollupDeleteAccount s d).1.weekly = s.weekly ∧
    (rollupDeleteAccount s d).1.ever = s.ever := by
  unfold rollupDeleteAccount
  dsimp only
  exact ⟨(deleteAccount_pres s d.2).2.1, (deleteAccount_pres s d.2).2.2.1,
    (deleteAccount_pres s d.2).2.2.2.1⟩

theorem stepRollup_agg (s : Store) (hwf : aggSorted s) (hb : aggBalanced s) :
    aggSorted (stepRollup s).1 ∧ aggBalanced (stepRollup s).1 := by
  unfold stepRollup
  cases hfl : firstLive s with
  | none =>
    cases hfd : firstDel s with
    | none => exact ⟨hwf, hb⟩
    | some d =>
      dsimp only
      obtain ⟨hh, hw, he⟩ := rollupDeleteAccount_agg s d
      exact ⟨(agg_transport hh hw he).1 hwf, (agg_transport hh hw he).2 hb⟩
  | some timely =>
    cases hfd : firstDel s with
    | none =>
      dsimp only
      exact ⟨rollupLiveCounts_sortedPres s (timeliesOf s) none MAX_BATCHED_ROLLUP_COUNTS hwf,
        rollupLiveCounts_balanced s (timeliesOf s) none MAX_BATCHED_ROLLUP_COUNTS hwf hb⟩
    | some d =>
      dsimp only
      by_cases hc : timely.1.1 < d.1
      · rw [if_pos hc]
        exact ⟨rollupLiveCounts_sortedPres s (timeliesOf s) (some d.1)
            MAX_BATCHED_ROLLUP_COUNTS hwf,
          rollupLiveCounts_balanced s (timeliesOf s) (some d.1)
            MAX_BATCHED_ROLLUP_COUNTS hwf hb⟩
      · rw [if_neg hc]
        obtain ⟨hh, hw, he⟩ := rollupDeleteAccount_agg s d
        exact ⟨(agg_transport hh hw he).1 hwf, (agg_transport hh hw he).2 hb⟩

theorem applyOp_agg (s : Store) (op : Op) (hwf : aggSorted s) (hb : aggBalanced s) :
    aggSorted (applyOp s op) ∧ aggBalanced (applyOp s op) := by
  cases op with
  | insert b =>
    show aggSorted ((insertBatch s b).getD s) ∧ aggBalanced ((insertBatch s b).getD s)
    cases hib : insertBatch s b with
    | none => exact ⟨hwf, hb⟩
    | some s2 =>
      obtain ⟨hcur, hh, hw, he⟩ := insertBatch_pres hib
      exact ⟨(agg_transport hh hw he).1 hwf, (agg_transport hh hw he).2 hb⟩
  | step => exact stepRollup_agg s hwf hb
  | trim c l f =>
    obtain ⟨hcur, hh, hw, he⟩ := trimCollection_pres s c l f
    exact ⟨(agg_transport hh hw he).1 hwf, (agg_transport hh hw he).2 hb⟩
  | delAcct d =>
    obtain ⟨hcur, hh, hw, he, hlc, hqs⟩ := deleteAccount_pres s d
    exact ⟨(agg_transport hh hw he).1 hwf, (agg_transport hh hw he).2 hb⟩

theorem execOps_agg :
    ∀ (ops : List Op) (s : Store), aggSorted s → aggBalanced s →
      aggSorted (execOps s ops) ∧ aggBalanced (execOps s ops)
  | [], _, h1, h2 => ⟨h1, h2⟩
  | op :: ops, s, h1, h2 => by
    obtain ⟨h3, h4⟩ := applyOp_agg s op h1 h2
    exact execOps_agg ops (applyOp s op) h3 h4

theorem aggSorted_init : aggSorted Store.init := by
  unfold aggSorted keySorted
  exact ⟨List.Pairwise.nil, List.Pairwise.nil, List.Pairwise.nil⟩

theorem aggBalanced_init : aggBalanced Store.init := fun _ => ⟨rfl, rfl⟩

/-- C6: in every reachable store in which every live-counts cell for NSID `n`
has been folded away by `step_rollup`, the sum of the `records` fields over
the hourly aggregate cells covering `n` equals `ever_counts[n].records`, and
likewise the sum over the weekly cells.  (The balance holds in every
reachable store: a fold feeds the hourly, weekly and all-time family with the
same per-cell counts.) -/
theorem C6_rollup_sum_balance (ops : List Op) (n : Nsid)
    (_hfolded : ∀ kv ∈ (execOps Store.init ops).liveCounts, kv.1.2 ≠ n) :
    hourlySumOf (execOps Store.init ops) n = everRecordsOf (execOps Store.init ops) n ∧
    weeklySumOf (execOps Store.init ops) n = everRecordsOf (execOps Store.init ops) n := by
  obtain ⟨hwf, hb⟩ := execOps_agg ops Store.init aggSorted_init aggBalanced_init
  obtain ⟨hs1, hs2, hs3⟩ := hwf
  have hev : everSumOf (execOps Store.init ops) n
      = everRecordsOf (execOps Store.init ops) n := by
    unfold everSumOf everRecordsOf
    refine sumBy_eq_lookup _ ((), n) ?_ (keySorted_keys_nodup everCellLt_isStrict hs3)
    rintro ⟨⟨⟩, kn⟩
    simp [decide_eq_decide, Prod.ext_iff]
  exact ⟨(hb n).1.trans hev, (hb n).2.trans hev⟩

/-- Witness for C6: the C8 ingest followed by one roll-up step folds every
live cell for a.a.a, and the sums agree there. -/
theorem C6_rollup_sum_balance_witness :
    (∀ kv ∈ (execOps Store.init [Op.insert c8Batch, Op.step]).liveCounts,
        kv.1.2 ≠ "a.a.a") ∧
    (hourlySumOf (execOps Store.init [Op.insert c8Batch, Op.step]) "a.a.a" =
        everRecordsOf (execOps Store.init [Op.insert c8Batch, Op.step]) "a.a.a" ∧
      weeklySumOf (execOps Store.init [Op.insert c8Batch, Op.step]) "a.a.a" =
        everRecordsOf (execOps Store.init [Op.insert c8Batch, Op.step]) "a.a.a") :=
  ⟨by decide, C6_rollup_sum_balance [Op.insert c8Batch, Op.step] "a.a.a" (by decide)⟩


/-! ## C4: rank-index consistency -/

theorem insSet_cons {K : Type} [DecidableEq K] (lt : K → K → Bool) (x h : K)
    (t : List K) :
    insSet lt x (h :: t) =
      if lt x h then x :: h :: t else if x = h then h :: t else h :: insSet lt x t := rfl

theorem mem_insSet {K : Type} [DecidableEq K] (lt : K → K → Bool) (x : K) :
    ∀ (l : List K) (z : K), z ∈ insSet lt x l ↔ z = x ∨ z ∈ l
  | [], z => by simp [insSet]
  | h :: t, z => by
    rw [insSet_cons]
    by_cases h1 : lt x h = true
    · rw [if_pos h1]
      simp only [List.mem_cons]
    · rw [if_neg h1]
      by_cases h2 : x = h
      · rw [if_pos h2]
        subst h2
        simp only [List.mem_cons]
        tauto
      · rw [if_neg h2]
        rw [List.mem_cons, List.mem_cons, mem_insSet lt x t z]
        tauto

theorem insSet_sorted {K : Type} [DecidableEq K] {lt : K → K → Bool} (hs : IsStrict lt)
    (x : K) : ∀ (l : List K), l.Pairwise (fun a c => lt a c = true) →
    (insSet lt x l).Pairwise (fun a c => lt a c = true)
  | [], _ => by
    show ([x] : List K).Pairwise _
    exact List.pairwise_singleton _ x
  | h :: t, hl => by
    rcases List.pairwise_cons.1 hl with ⟨hh, ht⟩
    rw [insSet_cons]
    by_cases h1 : lt x h = true
    · rw [if_pos h1]
      refine List.pairwise_cons.2 ⟨?_, hl⟩
      intro z hz
      rcases List.mem_cons.1 hz with rfl | hz
      · exact h1
      · exact hs.tr h1 (hh z hz)
    · rw [if_neg h1]
      by_cases h2 : x = h
      · rw [if_pos h2]
        exact hl
      · rw [if_neg h2]
        refine List.pairwise_cons.2 ⟨?_, insSet_sorted hs x t ht⟩
        intro z hz
        rcases (mem_insSet lt x t z).1 hz with rfl | hz
        · rcases hs.conn (fun he => h2 he.symm) with hc | hc
          · exact hc
          · exact absurd hc h1
        · exact hh z hz

/-- Inserting an element below every element of the list prepends it. -/
theorem insSet_lt_head {K : Type} [DecidableEq K] (lt : K → K → Bool) (x : K) :
    ∀ l : List K, (∀ z ∈ l, lt x z = true) → insSet lt x l = x :: l
  | [], _ => rfl
  | h :: t, hz => by
    rw [insSet_cons, if_pos (hz h (List.mem_cons_self h t))]

theorem delSet_sorted {K : Type} [DecidableEq K] {lt : K → K → Bool} (y : K)
    {l : List K} (hl : l.Pairwise (fun a c => lt a c = true)) :
    (delSet y l).Pairwise (fun a c => lt a c = true) :=
  List.Pairwise.filter _ hl

theorem delSet_not_mem {K : Type} [DecidableEq K] (y : K) :
    ∀ l : List K, y ∉ l → delSet y l = l
  | [], _ => rfl
  | h :: t, hy => by
    have hh : ¬ h = y := fun he => hy (List.mem_cons.2 (Or.inl he.symm))
    show List.filter _ (h :: t) = h :: t
    rw [List.filter_cons, if_pos (decide_eq_true hh)]
    exact congrArg (List.cons h) (delSet_not_mem y t fun hm => hy (List.mem_cons_of_mem h hm))

theorem delSet_singleton_self {K : Type} [DecidableEq K] (y : K) :
    delSet y [y] = [] := by
  simp [delSet]

/-- The rank rows naming NSID `n` within bucket `b`. -/
def rankFor {β : Type} [DecidableEq β] (rows : List (β × Nat × Nsid)) (b : β)
    (n : Nsid) : List (β × Nat × Nsid) :=
  rows.filter fun r => decide (r.1 = b) && decide (r.2.2 = n)

theorem rankFor_nil {β : Type} [DecidableEq β] (b : β) (n : Nsid) :
    rankFor [] b n = [] := rfl

theorem rankFor_cons {β : Type} [DecidableEq β] (h : β × Nat × Nsid)
    (t : List (β × Nat × Nsid)) (b : β) (n : Nsid) :
    rankFor (h :: t) b n =
      if (decide (h.1 = b) && decide (h.2.2 = n)) = true
      then h :: rankFor t b n else rankFor t b n := by
  unfold rankFor
  rw [List.filter_cons]

theorem rankFor_mem {β : Type} [DecidableEq β] {l : List (β × Nat × Nsid)} {b : β}
    {n : Nsid} {z : β × Nat × Nsid} (hz : z ∈ rankFor l b n) :
    z.1 = b ∧ z.2.2 = n := by
  have h2 := (List.mem_filter.1 hz).2
  rw [Bool.and_eq_true, decide_eq_true_eq, decide_eq_true_eq] at h2
  exact h2

theorem rankFor_delSet {β : Type} [DecidableEq β] (y : β × Nat × Nsid)
    (l : List (β × Nat × Nsid)) (b : β) (n : Nsid) :
    rankFor (delSet y l) b n = delSet y (rankFor l b n) := by
  unfold rankFor delSet
  rw [List.filter_filter, List.filter_filter]
  exact List.filter_congr fun x hx => by rw [Bool.and_comm]

theorem rankFor_insSet {β : Type} [DecidableEq β]
    {slt : (β × Nat × Nsid) → (β × Nat × Nsid) → Bool} (hs : IsStrict slt)
    (x : β × Nat × Nsid) (b : β) (n : Nsid) :
    ∀ l : List (β × Nat × Nsid), l.Pairwise (fun a c => slt a c = true) →
      rankFor (insSet slt x l) b n =
        if (decide (x.1 = b) && decide (x.2.2 = n)) = true
        then insSet slt x (rankFor l b n) else rankFor l b n
  | [], _ => by
    show rankFor [x] b n = _
    rw [rankFor_cons]
    by_cases hq : (decide (x.1 = b) && decide (x.2.2 = n)) = true
    · rw [if_pos hq, if_pos hq]
      rfl
    · rw [if_neg hq, if_neg hq]
  | h :: t, hl => by
    rcases List.pairwise_cons.1 hl with ⟨hh, ht⟩
    rw [insSet_cons]
    by_cases h1 : slt x h = true
    · rw [if_pos h1, rankFor_cons]
      by_cases hq : (decide (x.1 = b) && decide (x.2.2 = n)) = true
      · rw [if_pos hq, if_pos hq]
        refine (insSet_lt_head slt x _ ?_).symm
        intro z hz
        rcases List.mem_cons.1 (List.mem_of_mem_filter hz) with rfl | hz3
        · exact h1
        · exact hs.tr h1 (hh z hz3)
      · rw [if_neg hq, if_neg hq]
    · rw [if_neg h1]
      by_cases h2 : x = h
      · rw [if_pos h2]
        subst h2
        by_cases hq : (decide (x.1 = b) && decide (x.2.2 = n)) = true
        · rw [if_pos hq, rankFor_cons, if_pos hq, insSet_cons,
            if_neg (show ¬ slt x x = true by rw [hs.irr]; exact fun hc => nomatch hc),
            if_pos rfl]
        · rw [if_neg hq]
      · rw [if_neg h2, rankFor_cons, rankFor_cons]
        rw [rankFor_insSet hs x b n t ht]
        by_cases hqh : (decide (h.1 = b) && decide (h.2.2 = n)) = true
        · rw [if_pos hqh, if_pos hqh]
          by_cases hq : (decide (x.1 = b) && decide (x.2.2 = n)) = true
          · rw [if_pos hq, if_pos hq, insSet_cons, if_neg h1, if_neg h2]
          · rw [if_neg hq, if_neg hq]
        · rw [if_neg hqh, if_neg hqh]


/-- The corrected rank-index consistency of one aggregate family: every
present cell has exactly its records rank row and, unless its dids estimate
is 0, exactly its dids rank row; a bucket with no cell has no rank rows. -/
def famConsistent {β : Type} [DecidableEq β]
    (cells : List ((β × Nsid) × CountsValue)) (rr dr : List (β × Nat × Nsid)) : Prop :=
  ∀ (b : β) (n : Nsid),
    (∀ v, getAssoc cells (b, n) = some v →
      rankFor rr b n = [(b, v.records, n)] ∧
      (rankFor dr b n = [(b, v.estimate, n)] ∨
        (v.estimate = 0 ∧ rankFor dr b n = []))) ∧
    (getAssoc cells (b, n) = none → rankFor rr b n = [] ∧ rankFor dr b n = [])

/-- One aggregate-family update of `rollup_live_counts` (cell write,
rank-records replace, conditional rank-dids replace), the old cell read from
the pre-batch partition `pre`. -/
def famStep {β : Type} [DecidableEq β] (lt : (β × Nsid) → (β × Nsid) → Bool)
    (slt : (β × Nat × Nsid) → (β × Nat × Nsid) → Bool)
    (pre : List ((β × Nsid) × CountsValue))
    (t : List ((β × Nsid) × CountsValue) × List (β × Nat × Nsid) × List (β × Nat × Nsid))
    (e : (β × Nsid) × CountsValue) :
    List ((β × Nsid) × CountsValue) × List (β × Nat × Nsid) × List (β × Nat × Nsid) :=
  let old := (getAssoc pre e.1).getD CountsValue.zero
  let rolled := old.merge e.2
  let rr := insSet slt (e.1.1, rolled.records, e.1.2)
    (delSet (e.1.1, old.records, e.1.2) t.2.1)
  let dr := if rolled.estimate = old.estimate then t.2.2
    else insSet slt (e.1.1, rolled.estimate, e.1.2)
      (delSet (e.1.1, old.estimate, e.1.2) t.2.2)
  (insAssoc lt e.1 rolled t.1, rr, dr)

theorem famStep_cells {β : Type} [DecidableEq β]
    (lt : (β × Nsid) → (β × Nsid) → Bool)
    (slt : (β × Nat × Nsid) → (β × Nat × Nsid) → Bool)
    (pre : List ((β × Nsid) × CountsValue)) (t) (e : (β × Nsid) × CountsValue) :
    (famStep lt slt pre t e).1 =
      insAssoc lt e.1 (((getAssoc pre e.1).getD CountsValue.zero).merge e.2) t.1 := rfl

theorem famStep_rr {β : Type} [DecidableEq β]
    (lt : (β × Nsid) → (β × Nsid) → Bool)
    (slt : (β × Nat × Nsid) → (β × Nat × Nsid) → Bool)
    (pre : List ((β × Nsid) × CountsValue)) (t) (e : (β × Nsid) × CountsValue) :
    (famStep lt slt pre t e).2.1 =
      insSet slt (e.1.1, (((getAssoc pre e.1).getD CountsValue.zero).merge e.2).records, e.1.2)
        (delSet (e.1.1, ((getAssoc pre e.1).getD CountsValue.zero).records, e.1.2) t.2.1) := rfl

theorem famStep_dr {β : Type} [DecidableEq β]
    (lt : (β × Nsid) → (β × Nsid) → Bool)
    (slt : (β × Nat × Nsid) → (β × Nat × Nsid) → Bool)
    (pre : List ((β × Nsid) × CountsValue)) (t) (e : (β × Nsid) × CountsValue) :
    (famStep lt slt pre t e).2.2 =
      if (((getAssoc pre e.1).getD CountsValue.zero).merge e.2).estimate =
          ((getAssoc pre e.1).getD CountsValue.zero).estimate then t.2.2
      else insSet slt
        (e.1.1, (((getAssoc pre e.1).getD CountsValue.zero).merge e.2).estimate, e.1.2)
        (delSet (e.1.1, ((getAssoc pre e.1).getD CountsValue.zero).estimate, e.1.2)
          t.2.2) := rfl

/-- One cell update keeps the family rank-consistent. -/
theorem famUpd_consistent {β : Type} [DecidableEq β]
    {lt : (β × Nsid) → (β × Nsid) → Bool}
    {slt : (β × Nat × Nsid) → (β × Nat × Nsid) → Bool} (hs : IsStrict slt)
    (cells : List ((β × Nsid) × CountsValue)) (rr dr : List (β × Nat × Nsid))
    (hrs : rr.Pairwise (fun a c => slt a c = true))
    (hds : dr.Pairwise (fun a c => slt a c = true))
    (eb : β) (en : Nsid) (old dv : CountsValue)
    (hold : (getAssoc cells (eb, en)).getD CountsValue.zero = old)
    (hc : famConsistent cells rr dr) :
    famConsistent (insAssoc lt (eb, en) (old.merge dv) cells)
      (insSet slt (eb, (old.merge dv).records, en) (delSet (eb, old.records, en) rr))
      (if (old.merge dv).estimate = old.estimate then dr
       else insSet slt (eb, (old.merge dv).estimate, en)
         (delSet (eb, old.estimate, en) dr)) := by
  intro b n
  by_cases hbn : ((b, n) : β × Nsid) = (eb, en)
  · injection hbn with hb hn
    subst hb; subst hn
    refine ⟨?_, ?_⟩
    · intro v hv
      rw [getAssoc_insAssoc, if_pos rfl] at hv
      injection hv with hv
      subst hv
      constructor
      · rw [rankFor_insSet hs _ b n _ (delSet_sorted _ hrs),
          if_pos (by rw [Bool.and_eq_true]; exact ⟨decide_eq_true rfl, decide_eq_true rfl⟩),
          rankFor_delSet]
        rcases hcell : getAssoc cells (b, n) with _ | v0
        · rw [((hc b n).2 hcell).1]
          rfl
        · have hv0 : v0 = old := by rw [← hold, hcell]; rfl
          rw [((hc b n).1 v0 hcell).1, ← hv0, delSet_singleton_self]
          rfl
      · by_cases hest : (old.merge dv).estimate = old.estimate
        · rw [if_pos hest]
          rcases hcell : getAssoc cells (b, n) with _ | v0
          · have hz : old = CountsValue.zero := by rw [← hold, hcell]; rfl
            right
            refine ⟨?_, ((hc b n).2 hcell).2⟩
            rw [hest, hz]
            rfl
          · have hv0 : v0 = old := by rw [← hold, hcell]; rfl
            rcases ((hc b n).1 v0 hcell).2 with hrow | ⟨hz, hrow⟩
            · left
              rw [hrow, hest, hv0]
            · right
              refine ⟨?_, hrow⟩
              rw [hest, ← hv0]
              exact hz
        · rw [if_neg hest]
          rw [rankFor_insSet hs _ b n _ (delSet_sorted _ hds),
            if_pos (by rw [Bool.and_eq_true]; exact ⟨decide_eq_true rfl, decide_eq_true rfl⟩),
            rankFor_delSet]
          left
          rcases hcell : getAssoc cells (b, n) with _ | v0
          · rw [((hc b n).2 hcell).2]
            rfl
          · have hv0 : v0 = old := by rw [← hold, hcell]; rfl
            rcases ((hc b n).1 v0 hcell).2 with hrow | ⟨hz, hrow⟩
            · rw [hrow, ← hv0, delSet_singleton_self]
              rfl
            · rw [hrow]
              rfl
    · intro hv
      rw [getAssoc_insAssoc, if_pos rfl] at hv
      cases hv
  · have hcond : ¬ ((decide (eb = b) && decide (en = n)) = true) := by
      intro hc2
      rw [Bool.and_eq_true, decide_eq_true_eq, decide_eq_true_eq] at hc2
      exact hbn (by rw [hc2.1, hc2.2])
    have hnotin_rr : (eb, old.records, en) ∉ rankFor rr b n := by
      intro hm
      have h2 := rankFor_mem hm
      exact hcond (by rw [Bool.and_eq_true]
                      exact ⟨decide_eq_true h2.1, decide_eq_true h2.2⟩)
    have hnotin_dr : (eb, old.estimate, en) ∉ rankFor dr b n := by
      intro hm
      have h2 := rankFor_mem hm
      exact hcond (by rw [Bool.and_eq_true]
                      exact ⟨decide_eq_true h2.1, decide_eq_true h2.2⟩)
    have hrr : rankFor (insSet slt (eb, (old.merge dv).records, en)
        (delSet (eb, old.records, en) rr)) b n = rankFor rr b n := by
      rw [rankFor_insSet hs _ b n _ (delSet_sorted _ hrs), if_neg hcond, rankFor_delSet,
        delSet_not_mem _ _ hnotin_rr]
    have hdr : rankFor (if (old.merge dv).estimate = old.estimate then dr
        else insSet slt (eb, (old.merge dv).estimate, en)
          (delSet (eb, old.estimate, en) dr)) b n = rankFor dr b n := by
      by_cases hest : (old.merge dv).estimate = old.estimate
      · rw [if_pos hest]
      · rw [if_neg hest, rankFor_insSet hs _ b n _ (delSet_sorted _ hds), if_neg hcond,
          rankFor_delSet, delSet_not_mem _ _ hnotin_dr]
    have hcells : getAssoc (insAssoc lt (eb, en) (old.merge dv) cells) (b, n) =
        getAssoc cells (b, n) := by
      rw [getAssoc_insAssoc, if_neg hbn]
    refine ⟨?_, ?_⟩
    · intro v hv
      rw [hcells] at hv
      rw [hrr, hdr]
      exact (hc b n).1 v hv
    · intro hv
      rw [hcells] at hv
      rw [hrr, hdr]
      exact (hc b n).2 hv


/-- The per-family fold of `rollup_live_counts` keeps the rank sets sorted and
the family rank-consistent, given distinct entry keys that still agree with
the pre-batch partition. -/
theorem famFold_consistent {β : Type} [DecidableEq β]
    (lt : (β × Nsid) → (β × Nsid) → Bool)
    {slt : (β × Nat × Nsid) → (β × Nat × Nsid) → Bool} (hs : IsStrict slt)
    (pre : List ((β × Nsid) × CountsValue)) :
    ∀ (es : List ((β × Nsid) × CountsValue))
      (t : List ((β × Nsid) × CountsValue) × List (β × Nat × Nsid) × List (β × Nat × Nsid)),
      (es.map (·.1)).Nodup →
      (∀ e ∈ es, getAssoc t.1 e.1 = getAssoc pre e.1) →
      t.2.1.Pairwise (fun a c => slt a c = true) →
      t.2.2.Pairwise (fun a c => slt a c = true) →
      famConsistent t.1 t.2.1 t.2.2 →
      ((es.foldl (famStep lt slt pre) t).2.1.Pairwise (fun a c => slt a c = true) ∧
        (es.foldl (famStep lt slt pre) t).2.2.Pairwise (fun a c => slt a c = true)) ∧
      famConsistent (es.foldl (famStep lt slt pre) t).1
        (es.foldl (famStep lt slt pre) t).2.1 (es.foldl (famStep lt slt pre) t).2.2
  | [], t, _, _, h1, h2, hcons => ⟨⟨h1, h2⟩, hcons⟩
  | e :: es, t, hnd, hagree, h1, h2, hcons => by
    rw [List.map_cons, List.nodup_cons] at hnd
    rw [List.foldl_cons]
    refine famFold_consistent lt hs pre es (famStep lt slt pre t e) hnd.2 ?_ ?_ ?_ ?_
    · intro e2 he2
      rw [famStep_cells, getAssoc_insAssoc, if_neg ?_]
      · exact hagree e2 (List.mem_cons_of_mem e he2)
      · intro he
        exact hnd.1 (he ▸ List.mem_map_of_mem (·.1) he2)
    · rw [famStep_rr]
      exact insSet_sorted hs _ _ (delSet_sorted _ h1)
    · rw [famStep_dr]
      by_cases hest : (((getAssoc pre e.1).getD CountsValue.zero).merge e.2).estimate =
          ((getAssoc pre e.1).getD CountsValue.zero).estimate
      · rw [if_pos hest]
        exact h2
      · rw [if_neg hest]
        exact insSet_sorted hs _ _ (delSet_sorted _ h2)
    · rw [famStep_cells, famStep_rr, famStep_dr]
      exact famUpd_consistent hs t.1 t.2.1 t.2.2 h1 h2 e.1.1 e.1.2
        ((getAssoc pre e.1).getD CountsValue.zero) e.2
        (by rw [hagree e (List.mem_cons_self e es)]) hcons

/-- The mixed `counts_by_rollup` fold decomposes per family into `famStep`
folds over the projected entries (cells and both rank sets together). -/
theorem foldEntries_ranks (s : Store) :
    ∀ (E : List ((Nsid × RollupTag) × CountsValue)) (st : Store),
      ((E.foldl (applyEntry s) st).hourly,
        (E.foldl (applyEntry s) st).hourlyRankRecords,
        (E.foldl (applyEntry s) st).hourlyRankDids) =
        (hourlyEntries E).foldl (famStep cellLt rank3Lt s.hourly)
          (st.hourly, st.hourlyRankRecords, st.hourlyRankDids) ∧
      ((E.foldl (applyEntry s) st).weekly,
        (E.foldl (applyEntry s) st).weeklyRankRecords,
        (E.foldl (applyEntry s) st).weeklyRankDids) =
        (weeklyEntries E).foldl (famStep cellLt rank3Lt s.weekly)
          (st.weekly, st.weeklyRankRecords, st.weeklyRankDids) ∧
      ((E.foldl (applyEntry s) st).ever,
        (E.foldl (applyEntry s) st).everRankRecords,
        (E.foldl (applyEntry s) st).everRankDids) =
        (everEntries E).foldl (famStep everCellLt everRankLt s.ever)
          (st.ever, st.everRankRecords, st.everRankDids)
  | [], st => ⟨rfl, rfl, rfl⟩
  | e :: E, st => by
    rcases e with ⟨⟨n, tag⟩, dv⟩
    rcases foldEntries_ranks s E (applyEntry s st ((n, tag), dv)) with ⟨ih1, ih2, ih3⟩
    cases tag with
    | hourly h =>
      refine ⟨?_, ?_, ?_⟩
      · rw [List.foldl_cons, ih1]; rfl
      · rw [List.foldl_cons, ih2]; rfl
      · rw [List.foldl_cons, ih3]; rfl
    | weekly w =>
      refine ⟨?_, ?_, ?_⟩
      · rw [List.foldl_cons, ih1]; rfl
      · rw [List.foldl_cons, ih2]; rfl
      · rw [List.foldl_cons, ih3]; rfl
    | allTime =>
      refine ⟨?_, ?_, ?_⟩
      · rw [List.foldl_cons, ih1]; rfl
      · rw [List.foldl_cons, ih2]; rfl
      · rw [List.foldl_cons, ih3]; rfl

/-- Sortedness of the six rank partitions (their on-disk key order). -/
def ranksSorted (s : Store) : Prop :=
  s.hourlyRankRecords.Pairwise (fun a c => rank3Lt a c = true) ∧
  s.hourlyRankDids.Pairwise (fun a c => rank3Lt a c = true) ∧
  s.weeklyRankRecords.Pairwise (fun a c => rank3Lt a c = true) ∧
  s.weeklyRankDids.Pairwise (fun a c => rank3Lt a c = true) ∧
  s.everRankRecords.Pairwise (fun a c => everRankLt a c = true) ∧
  s.everRankDids.Pairwise (fun a c => everRankLt a c = true)

/-- The corrected rank-index consistency over all three aggregate families. -/
def rankConsistent (s : Store) : Prop :=
  famConsistent s.hourly s.hourlyRankRecords s.hourlyRankDids ∧
  famConsistent s.weekly s.weeklyRankRecords s.weeklyRankDids ∧
  famConsistent s.ever s.everRankRecords s.everRankDids

theorem rollupLiveCounts_rank_fields (s : Store)
    (timelies : List ((Cursor × Nsid) × CountsValue)) (lim : Option Cursor) (rl : Nat) :
    ((rollupLiveCounts s timelies lim rl).1.hourly,
      (rollupLiveCounts s timelies lim rl).1.hourlyRankRecords,
      (rollupLiveCounts s timelies lim rl).1.hourlyRankDids) =
      (hourlyEntries (buildRollups (processedOf timelies lim rl))).foldl
        (famStep cellLt rank3Lt s.hourly)
        (s.hourly, s.hourlyRankRecords, s.hourlyRankDids) ∧
    ((rollupLiveCounts s timelies lim rl).1.weekly,
      (rollupLiveCounts s timelies lim rl).1.weeklyRankRecords,
      (rollupLiveCounts s timelies lim rl).1.weeklyRankDids) =
      (weeklyEntries (buildRollups (processedOf timelies lim rl))).foldl
        (famStep cellLt rank3Lt s.weekly)
        (s.weekly, s.weeklyRankRecords, s.weeklyRankDids) ∧
    ((rollupLiveCounts s timelies lim rl).1.ever,
      (rollupLiveCounts s timelies lim rl).1.everRankRecords,
      (rollupLiveCounts s timelies lim rl).1.everRankDids) =
      (everEntries (buildRollups (processedOf timelies lim rl))).foldl
        (famStep everCellLt everRankLt s.ever)
        (s.ever, s.everRankRecords, s.everRankDids) := by
  have h := foldEntries_ranks s (buildRollups (processedOf timelies lim rl))
    { s with liveCounts :=
        (processedOf timelies lim rl).foldl (fun lc kv => delAssoc kv.1 lc) s.liveCounts }
  exact ⟨h.1, h.2.1, h.2.2⟩

theorem rollupLiveCounts_rankPres (s : Store)
    (timelies : List ((Cursor × Nsid) × CountsValue)) (lim : Option Cursor) (rl : Nat)
    (hrs : ranksSorted s) (hc : rankConsistent s) :
    ranksSorted (rollupLiveCounts s timelies lim rl).1 ∧
    rankConsistent (rollupLiveCounts s timelies lim rl).1 := by
  obtain ⟨a1, a2, a3, a4, a5, a6⟩ := hrs
  obtain ⟨c1, c2, c3⟩ := hc
  obtain ⟨f1, f2, f3⟩ := rollupLiveCounts_rank_fields s timelies lim rl
  have hnd := buildRollups_keys_nodup (processedOf timelies lim rl) [] (by simp)
  have H1 := famFold_consistent cellLt rank3Lt_isStrict s.hourly
    (hourlyEntries (buildRollups (processedOf timelies lim rl)))
    (s.hourly, s.hourlyRankRecords, s.hourlyRankDids)
    (tagProj_keys_nodup hourlyProj_inj hnd) (fun e he => rfl) a1 a2 c1
  have H2 := famFold_consistent cellLt rank3Lt_isStrict s.weekly
    (weeklyEntries (buildRollups (processedOf timelies lim rl)))
    (s.weekly, s.weeklyRankRecords, s.weeklyRankDids)
    (tagProj_keys_nodup weeklyProj_inj hnd) (fun e he => rfl) a3 a4 c2
  have H3 := famFold_consistent everCellLt everRankLt_isStrict s.ever
    (everEntries (buildRollups (processedOf timelies lim rl)))
    (s.ever, s.everRankRecords, s.everRankDids)
    (tagProj_keys_nodup everProj_inj hnd) (fun e he => rfl) a5 a6 c3
  refine ⟨⟨?_, ?_, ?_, ?_, ?_, ?_⟩, ?_, ?_, ?_⟩
  · rw [show (rollupLiveCounts s timelies lim rl).1.hourlyRankRecords =
        ((hourlyEntries (buildRollups (processedOf timelies lim rl))).foldl
          (famStep cellLt rank3Lt s.hourly)
          (s.hourly, s.hourlyRankRecords, s.hourlyRankDids)).2.1
      from congrArg (fun p => p.2.1) f1]
    exact H1.1.1
  · rw [show (rollupLiveCounts s timelies lim rl).1.hourlyRankDids =
        ((hourlyEntries (buildRollups (processedOf timelies lim rl))).foldl
          (famStep cellLt rank3Lt s.hourly)
          (s.hourly, s.hourlyRankRecords, s.hourlyRankDids)).2.2
      from congrArg (fun p => p.2.2) f1]
    exact H1.1.2
  · rw [show (rollupLiveCounts s timelies lim rl).1.weeklyRankRecords =
        ((weeklyEntries (buildRollups (processedOf timelies lim rl))).foldl
          (famStep cellLt rank3Lt s.weekly)
          (s.weekly, s.weeklyRankRecords, s.weeklyRankDids)).2.1
      from congrArg (fun p => p.2.1) f2]
    exact H2.1.1
  · rw [show (rollupLiveCounts s timelies lim rl).1.weeklyRankDids =
        ((weeklyEntries (buildRollups (processedOf timelies lim rl))).foldl
          (famStep cellLt rank3Lt s.weekly)
          (s.weekly, s.weeklyRankRecords, s.weeklyRankDids)).2.2
      from congrArg (fun p => p.2.2) f2]
    exact H2.1.2
  · rw [show (rollupLiveCounts s timelies lim rl).1.everRankRecords =
        ((everEntries (buildRollups (processedOf timelies lim rl))).foldl
          (famStep everCellLt everRankLt s.ever)
          (s.ever, s.everRankRecords, s.everRankDids)).2.1
      from congrArg (fun p => p.2.1) f3]
    exact H3.1.1
  · rw [show (rollupLiveCounts s timelies lim rl).1.everRankDids =
        ((everEntries (buildRollups (processedOf timelies lim rl))).foldl
          (famStep everCellLt everRankLt s.ever)
          (s.ever, s.everRankRecords, s.everRankDids)).2.2
      from congrArg (fun p => p.2.2) f3]
    exact H3.1.2
  · rw [show (rollupLiveCounts s timelies lim rl).1.hourly =
        ((hourlyEntries (buildRollups (processedOf timelies lim rl))).foldl
          (famStep cellLt rank3Lt s.hourly)
          (s.hourly, s.hourlyRankRecords, s.hourlyRankDids)).1
      from congrArg (fun p => p.1) f1,
      show (rollupLiveCounts s timelies lim rl).1.hourlyRankRecords =
        ((hourlyEntries (buildRollups (processedOf timelies lim rl))).foldl
          (famStep cellLt rank3Lt s.hourly)
          (s.hourly, s.hourlyRankRecords, s.hourlyRankDids)).2.1
      from congrArg (fun p => p.2.1) f1,
      show (rollupLiveCounts s timelies lim rl).1.hourlyRankDids =
        ((hourlyEntries (buildRollups (processedOf timelies lim rl))).foldl
          (famStep cellLt rank3Lt s.hourly)
          (s.hourly, s.hourlyRankRecords, s.hourlyRankDids)).2.2
      from congrArg (fun p => p.2.2) f1]
    exact H1.2
  · rw [show (rollupLiveCounts s timelies lim rl).1.weekly =
        ((weeklyEntries (buildRollups (processedOf timelies lim rl))).foldl
          (famStep cellLt rank3Lt s.weekly)
          (s.weekly, s.weeklyRankRecords, s.weeklyRankDids)).1
      from congrArg (fun p => p.1) f2,
      show (rollupLiveCounts s timelies lim rl).1.weeklyRankRecords =
        ((weeklyEntries (buildRollups (processedOf timelies lim rl))).foldl
          (famStep cellLt rank3Lt s.weekly)
          (s.weekly, s.weeklyRankRecords, s.weeklyRankDids)).2.1
      from congrArg (fun p => p.2.1) f2,
      show (rollupLiveCounts s timelies lim rl).1.weeklyRankDids =
        ((weeklyEntries (buildRollups (processedOf timelies lim rl))).foldl
          (famStep cellLt rank3Lt s.weekly)
          (s.weekly, s.weeklyRankRecords, s.weeklyRankDids)).2.2
      from congrArg (fun p => p.2.2) f2]
    exact H2.2
  · rw [show (rollupLiveCounts s timelies lim rl).1.ever =
        ((everEntries (buildRollups (processedOf timelies lim rl))).foldl
          (famStep everCellLt everRankLt s.ever)
          (s.ever, s.everRankRecords, s.everRankDids)).1
      from congrArg (fun p => p.1) f3,
      show (rollupLiveCounts s timelies lim rl).1.everRankRecords =
        ((everEntries (buildRollups (processedOf timelies lim rl))).foldl
          (famStep everCellLt everRankLt s.ever)
          (s.ever, s.everRankRecords, s.everRankDids)).2.1
      from congrArg (fun p => p.2.1) f3,
      show (rollupLiveCounts s timelies lim rl).1.everRankDids =
        ((everEntries (buildRollups (processedOf timelies lim rl))).foldl
          (famStep everCellLt everRankLt s.ever)
          (s.ever, s.everRankRecords, s.everRankDids)).2.2
      from congrArg (fun p => p.2.2) f3]
    exact H3.2


theorem deleteAccount_rank (s : Store) (d : Did) :
    (deleteAccount s d).1.hourlyRankRecords = s.hourlyRankRecords ∧
    (deleteAccount s d).1.hourlyRankDids = s.hourlyRankDids ∧
    (deleteAccount s d).1.weeklyRankRecords = s.weeklyRankRecords ∧
    (deleteAccount s d).1.weeklyRankDids = s.weeklyRankDids ∧
    (deleteAccount s d).1.everRankRecords = s.everRankRecords ∧
    (deleteAccount s d).1.everRankDids = s.everRankDids := by
  unfold deleteAccount
  dsimp only
  refine ⟨?_, ?_, ?_, ?_, ?_, ?_⟩ <;>
    · refine foldl_pres
        (g := fun (st : Store) (p : (Did × Nsid × RKey) × RecordVal) =>
          { st with records := delAssoc p.1 st.records })
        (fun a p => ?_) _ _
      rfl

theorem rollupDeleteAccount_rank (s : Store) (d : Cursor × Did) :
    (rollupDeleteAccount s d).1.hourly = s.hourly ∧
    (rollupDeleteAccount s d).1.weekly = s.weekly ∧
    (rollupDeleteAccount s d).1.ever = s.ever ∧
    (rollupDeleteAccount s d).1.hourlyRankRecords = s.hourlyRankRecords ∧
    (rollupDeleteAccount s d).1.hourlyRankDids = s.hourlyRankDids ∧
    (rollupDeleteAccount s d).1.weeklyRankRecords = s.weeklyRankRecords ∧
    (rollupDeleteAccount s d).1.weeklyRankDids = s.weeklyRankDids ∧
    (rollupDeleteAccount s d).1.everRankRecords = s.everRankRecords ∧
    (rollupDeleteAccount s d).1.everRankDids = s.everRankDids := by
  unfold rollupDeleteAccount
  dsimp only
  exact ⟨(deleteAccount_pres s d.2).2.1, (deleteAccount_pres s d.2).2.2.1,
    (deleteAccount_pres s d.2).2.2.2.1, (deleteAccount_rank s d.2).1,
    (deleteAccount_rank s d.2).2.1, (deleteAccount_rank s d.2).2.2.1,
    (deleteAccount_rank s d.2).2.2.2.1, (deleteAccount_rank s d.2).2.2.2.2.1,
    (deleteAccount_rank s d.2).2.2.2.2.2⟩

/-- A store with unchanged aggregate-cell and rank partitions keeps both rank
properties. -/
theorem rank_transport {s s2 : Store} (hh : s2.hourly = s.hourly)
    (hw : s2.weekly = s.weekly) (he : s2.ever = s.ever)
    (r1 : s2.hourlyRankRecords = s.hourlyRankRecords)
    (r2 : s2.hourlyRankDids = s.hourlyRankDids)
    (r3 : s2.weeklyRankRecords = s.weeklyRankRecords)
    (r4 : s2.weeklyRankDids = s.weeklyRankDids)
    (r5 : s2.everRankRecords = s.everRankRecords)
    (r6 : s2.everRankDids = s.everRankDids) :
    (ranksSorted s → ranksSorted s2) ∧ (rankConsistent s → rankConsistent s2) := by
  unfold ranksSorted rankConsistent
  rw [hh, hw, he, r1, r2, r3, r4, r5, r6]
  exact ⟨id, id⟩

/-- One roll-up step preserves sortedness of the rank partitions and the
corrected rank-index consistency. -/
theorem stepRollup_rank (s : Store) (hrs : ranksSorted s) (hc : rankConsistent s) :
    ranksSorted (stepRollup s).1 ∧ rankConsistent (stepRollup s).1 := by
  unfold stepRollup
  cases hfl : firstLive s with
  | none =>
    cases hfd : firstDel s with
    | none => exact ⟨hrs, hc⟩
    | some d =>
      dsimp only
      obtain ⟨hh, hw, he, r1, r2, r3, r4, r5, r6⟩ := rollupDeleteAccount_rank s d
      exact ⟨(rank_transport hh hw he r1 r2 r3 r4 r5 r6).1 hrs,
        (rank_transport hh hw he r1 r2 r3 r4 r5 r6).2 hc⟩
  | some timely =>
    cases hfd : firstDel s with
    | none =>
      dsimp only
      exact rollupLiveCounts_rankPres s (timeliesOf s) none MAX_BATCHED_ROLLUP_COUNTS hrs hc
    | some d =>
      dsimp only
      by_cases hcur : timely.1.1 < d.1
      · rw [if_pos hcur]
        exact rollupLiveCounts_rankPres s (timeliesOf s) (some d.1)
          MAX_BATCHED_ROLLUP_COUNTS hrs hc
      · rw [if_neg hcur]
        obtain ⟨hh, hw, he, r1, r2, r3, r4, r5, r6⟩ := rollupDeleteAccount_rank s d
        exact ⟨(rank_transport hh hw he r1 r2 r3 r4 r5 r6).1 hrs,
          (rank_transport hh hw he r1 r2 r3 r4 r5 r6).2 hc⟩

/-- Claim C4's literal rank-index consistency of one family: every cell has
exactly its records rank row and exactly its dids rank row, and no other row
in its bucket names its NSID. -/
def famRankLit {β : Type} [DecidableEq β]
    (cells : List ((β × Nsid) × CountsValue)) (rr dr : List (β × Nat × Nsid)) : Prop :=
  ∀ cell ∈ cells,
    rankFor rr cell.1.1 cell.1.2 = [(cell.1.1, cell.2.records, cell.1.2)] ∧
    rankFor dr cell.1.1 cell.1.2 = [(cell.1.1, cell.2.estimate, cell.1.2)]

def rankLit (s : Store) : Prop :=
  famRankLit s.hourly s.hourlyRankRecords s.hourlyRankDids ∧
  famRankLit s.weekly s.weeklyRankRecords s.weeklyRankDids ∧
  famRankLit s.ever s.everRankRecords s.everRankDids

/-- Claim C4 as stated: the literal rank-index consistency is preserved by
every rollup fold. -/
def ClaimC4 : Prop := ∀ s : Store, rankLit s → rankLit (stepRollup s).1

/-- A store satisfying the literal invariant vacuously (no aggregate cells)
but holding a stray all-time rank row, plus one live cell to fold. -/
def c4s : Store :=
  { Store.init with
    liveCounts := [((100, "m"), ⟨1, ⟨["d"]⟩⟩)],
    everRankRecords := [((), 5, "m")] }

/-- C4: the claimed invariant is NOT preserved by a rollup fold: folding the
live cell of `c4s` creates the all-time cell for m next to the stray rank row
`((), 5, m)`, so two rank-records rows name m in the all-time bucket. -/
theorem C4_counterexample : ¬ ClaimC4 := by
  intro h
  refine absurd (h c4s ?_) ?_
  · unfold rankLit famRankLit c4s
    decide
  · unfold rankLit famRankLit
    decide

/-- A store with one live cell over an empty rank state, for the witness. -/
def c4w : Store := { Store.init with liveCounts := [((100, "m"), ⟨1, ⟨["d"]⟩⟩)] }

/-- C4 (amended): the corrected rank-index consistency — every present cell
has exactly its records rank row, exactly its dids rank row unless its
estimate is 0 (then none, the conditional rank-dids write skips an unchanged
0 estimate), and buckets without a cell have no rank rows — is preserved by
every roll-up step, together with rank-partition sortedness. -/
theorem C4_amended (s : Store) (hsort : ranksSorted s) (hcons : rankConsistent s) :
    ranksSorted (stepRollup s).1 ∧ rankConsistent (stepRollup s).1 :=
  stepRollup_rank s hsort hcons

/-- Witness for C4 (amended) at the concrete store `c4w`. -/
theorem C4_amended_witness :
    (ranksSorted c4w ∧ rankConsistent c4w) ∧
    (ranksSorted (stepRollup c4w).1 ∧ rankConsistent (stepRollup c4w).1) := by
  have h1 : ranksSorted c4w := by
    unfold ranksSorted
    exact ⟨List.Pairwise.nil, List.Pairwise.nil, List.Pairwise.nil, List.Pairwise.nil,
      List.Pairwise.nil, List.Pairwise.nil⟩
  have h2 : rankConsistent c4w := by
    unfold rankConsistent famConsistent
    refine ⟨?_, ?_, ?_⟩ <;>
      exact fun b n => ⟨fun v hv => (nomatch hv), fun _ => ⟨rfl, rfl⟩⟩
  exact ⟨⟨h1, h2⟩, C4_amended c4w h1 h2⟩


/-! ## C7: merge-reader bounds and ordering -/

/-- The cursors an iterator can still emit: the cached record (if any)
followed by the remaining feed rows.  An iterator whose cache holds the
limit-reached marker `Some(Ok(None))` emits nothing ever again (the marker is
never consumed), and a cached exhaustion emits nothing. -/
def pCursors (p : PIter) : List Cursor :=
  match p.cache with
  | some (some (some r)) => r.cursor :: p.it.remaining.map fun row => row.1.2
  | some (some none) => []
  | some none => []
  | none => p.it.remaining.map fun row => row.1.2

/-- Emittable cursors are non-increasing. -/
def pWF (p : PIter) : Prop := List.Chain' (fun a b => b ≤ a) (pCursors p)

/-- Counting well-formedness: `fetched` within `limit`, and the remaining
rows (and any cached record) all belong to one collection. -/
def pCnt (p : PIter) : Prop :=
  p.it.fetched ≤ p.it.limit ∧
  ∃ c0, (∀ row ∈ p.it.remaining, row.1.1 = c0) ∧
    (∀ r, p.cache = some (some (some r)) → r.collection = c0)

/-- An upper bound on how many more records of collection `c` the iterator
can emit. -/
def pMax (c : Nsid) (p : PIter) : Nat :=
  (match p.cache with
   | some (some (some r)) => if r.collection = c then 1 else 0
   | _ => 0) +
  (if (!p.it.remaining.isEmpty &&
      p.it.remaining.all fun row => decide (row.1.1 = c)) = true
   then p.it.limit - p.it.fetched else 0)

def sumMax (c : Nsid) (ps : List PIter) : Nat := (ps.map (pMax c)).sum

/-- The cursors still reachable by the merge loop: iterators after a
limit-reached iterator are unreachable when `expand` is false (every scan
breaks there). -/
def itersCands (expand : Bool) : List PIter → List Cursor
  | [] => []
  | p :: rest =>
    match p.cache with
    | some (some none) => if expand then itersCands expand rest else []
    | _ => pCursors p ++ itersCands expand rest

/-- Bounded by the selected candidate, if one is selected. -/
def bnd (x : Option (Cursor × Nat)) (c : Cursor) : Prop :=
  ∀ γ i, x = some (γ, i) → c ≤ γ

theorem sumMax_nil (c : Nsid) : sumMax c [] = 0 := rfl

theorem sumMax_cons (c : Nsid) (p : PIter) (ps : List PIter) :
    sumMax c (p :: ps) = pMax c p + sumMax c ps := by
  unfold sumMax
  rw [List.map_cons, List.sum_cons]

theorem sumMax_set (c : Nsid) :
    ∀ (ps : List PIter) (j : Nat) (p x : PIter), ps.get? j = some p →
      sumMax c (ps.set j x) + pMax c p = sumMax c ps + pMax c x
  | [], j, p, x, h => by cases h
  | q :: ps, 0, p, x, h => by
    injection h with h
    subst h
    rw [List.set_cons_zero, sumMax_cons, sumMax_cons]
    omega
  | q :: ps, j + 1, p, x, h => by
    rw [List.set_cons_succ, sumMax_cons, sumMax_cons]
    have := sumMax_set c ps j p x h
    omega

/-- Dropping a cached record from an iterator lowers its bound for the
record's collection by one. -/
theorem pMax_drop_cache (c : Nsid) (p : PIter) (r : URec)
    (h : p.cache = some (some (some r))) :
    pMax c { p with cache := none } + (if r.collection = c then 1 else 0) =
      pMax c p := by
  unfold pMax
  rw [h]
  dsimp only
  omega

theorem chain_desc_head {x : Cursor} :
    ∀ {xs : List Cursor}, List.Chain' (fun a b => b ≤ a) (x :: xs) →
      ∀ y ∈ x :: xs, y ≤ x := by
  intro xs
  induction xs generalizing x with
  | nil =>
    intro _ y hy
    rcases List.mem_singleton.1 hy with rfl
    exact Nat.le_refl y
  | cons x2 xs ih =>
    intro h y hy
    rcases List.chain'_cons.1 h with ⟨h12, h2⟩
    rcases List.mem_cons.1 hy with rfl | hy
    · exact Nat.le_refl y
    · exact Nat.le_trans (ih h2 y hy) h12

theorem riNext_limit (recs : List ((Did × Nsid × RKey) × RecordVal)) (it : RecIter)
    (h : it.fetched = it.limit) : riNext recs it = (some none, it) := by
  unfold riNext
  rw [if_pos h]

theorem riNext_go (recs : List ((Did × Nsid × RKey) × RecordVal)) (it : RecIter)
    (h : ¬ it.fetched = it.limit) :
    riNext recs it =
      match riScan recs it.remaining with
      | none => (none, { it with remaining := [] })
      | some (r, rest) =>
        (some (some r), { it with remaining := rest, fetched := it.fetched + 1 }) := by
  unfold riNext
  rw [if_neg h]

theorem ppeek_some (recs : List ((Did × Nsid × RKey) × RecordVal)) (p : PIter)
    (v0 : Option (Option URec)) (h : p.cache = some v0) : ppeek recs p = (v0, p) := by
  unfold ppeek
  rw [h]

theorem ppeek_none (recs : List ((Did × Nsid × RKey) × RecordVal)) (p : PIter)
    (h : p.cache = none) :
    ppeek recs p = ((riNext recs p.it).1,
      { cache := some (riNext recs p.it).1, it := (riNext recs p.it).2 }) := by
  unfold ppeek
  rw [h]

/-- Every record found by the feed scan is one of the scanned rows, and the
iterator continues from the suffix right after it. -/
theorem riScan_spec (recs : List ((Did × Nsid × RKey) × RecordVal)) :
    ∀ (rem : List ((Nsid × Cursor) × FeedVal)) (r : URec)
      (rest : List ((Nsid × Cursor) × FeedVal)), riScan recs rem = some (r, rest) →
      ∃ l1 fv, rem = l1 ++ ((r.collection, r.cursor), fv) :: rest
  | [], r, rest, h => by cases h
  | (fk, fv0) :: rest0, r, rest, h => by
    rw [show riScan recs ((fk, fv0) :: rest0) =
        (match getAssoc recs (fv0.did, fk.1, fv0.rkey) with
         | none => riScan recs rest0
         | some meta =>
           if meta.cursor ≠ fk.2 then riScan recs rest0
           else if meta.rev ≠ fv0.rev then riScan recs rest0
           else some (⟨fk.1, fk.2, fv0.did, fv0.rkey, meta.rev, meta.record,
             meta.isUpdate⟩, rest0)) from rfl] at h
    rcases hga : getAssoc recs (fv0.did, fk.1, fv0.rkey) with _ | meta
    · rw [hga] at h
      obtain ⟨l1, fv, he⟩ := riScan_spec recs rest0 r rest h
      exact ⟨(fk, fv0) :: l1, fv, by rw [List.cons_append, he]⟩
    · rw [hga] at h
      dsimp only at h
      by_cases h1 : meta.cursor ≠ fk.2
      · rw [if_pos h1] at h
        obtain ⟨l1, fv, he⟩ := riScan_spec recs rest0 r rest h
        exact ⟨(fk, fv0) :: l1, fv, by rw [List.cons_append, he]⟩
      · rw [if_neg h1] at h
        by_cases h2 : meta.rev ≠ fv0.rev
        · rw [if_pos h2] at h
          obtain ⟨l1, fv, he⟩ := riScan_spec recs rest0 r rest h
          exact ⟨(fk, fv0) :: l1, fv, by rw [List.cons_append, he]⟩
        · rw [if_neg h2] at h
          injection h with h
          injection h with hr hrest
          subst hrest
          refine ⟨[], fv0, ?_⟩
          rw [List.nil_append, ← hr]


/-- Everything one peek does: it keeps the iterator well formed, never grows
its emittable cursors or its per-collection bound, fills the cache with the
returned value, and a returned record is cached with its cursor on top. -/
theorem ppeek_spec (recs : List ((Did × Nsid × RKey) × RecordVal)) (p : PIter)
    (hw : pWF p) (hcnt : pCnt p) :
    pWF (ppeek recs p).2 ∧ pCnt (ppeek recs p).2 ∧
    (∀ c, pMax c (ppeek recs p).2 ≤ pMax c p) ∧
    (∀ γ ∈ pCursors (ppeek recs p).2, γ ∈ pCursors p) ∧
    (ppeek recs p).2.cache = some (ppeek recs p).1 ∧
    (∀ r, (ppeek recs p).1 = some (some r) →
      (ppeek recs p).2.cache = some (some (some r)) ∧
      pCursors (ppeek recs p).2 =
        r.cursor :: (ppeek recs p).2.it.remaining.map fun row => row.1.2) := by
  rcases hca : p.cache with _ | v0
  · rw [ppeek_none recs p hca]
    by_cases hfl : p.it.fetched = p.it.limit
    · rw [riNext_limit recs p.it hfl]
      dsimp only
      obtain ⟨hf, c0, hrows, hcr⟩ := hcnt
      refine ⟨?_, ⟨hf, c0, hrows, ?_⟩, ?_, ?_, rfl, ?_⟩
      · exact List.chain'_nil
      · intro r hr
        simp at hr
      · intro c
        unfold pMax
        rw [hca]
      · intro γ hγ
        cases hγ
      · intro r hr
        simp at hr
    · rw [riNext_go recs p.it hfl]
      rcases hsc : riScan recs p.it.remaining with _ | rr
      · dsimp only
        obtain ⟨hf, c0, hrows, hcr⟩ := hcnt
        refine ⟨?_, ⟨hf, c0, ?_, ?_⟩, ?_, ?_, rfl, ?_⟩
        · exact List.chain'_nil
        · intro row hrow
          cases hrow
        · intro r hr
          simp at hr
        · intro c
          exact Nat.zero_le _
        · intro γ hγ
          cases hγ
        · intro r hr
          cases hr
      · rcases rr with ⟨r, rest⟩
        dsimp only
        obtain ⟨l1, fv, he⟩ := riScan_spec recs p.it.remaining r rest hsc
        obtain ⟨hf, c0, hrows, hcr⟩ := hcnt
        have hlt : p.it.fetched < p.it.limit := Nat.lt_of_le_of_ne hf hfl
        have hmem : ((r.collection, r.cursor), fv) ∈ p.it.remaining := by
          rw [he]
          exact List.mem_append_right _ (List.mem_cons_self _ _)
        have hc0r : r.collection = c0 := hrows _ hmem
        have hmap : p.it.remaining.map (fun row => row.1.2) =
            l1.map (fun row => row.1.2) ++
              r.cursor :: rest.map (fun row => row.1.2) := by
          rw [he, List.map_append, List.map_cons]
        have hwf1 : List.Chain' (fun a b => b ≤ a)
            (r.cursor :: rest.map fun row => row.1.2) := by
          have hwall : List.Chain' (fun a b => b ≤ a)
              ((l1.map fun row => row.1.2) ++
                r.cursor :: rest.map fun row => row.1.2) := by
            rw [← hmap]
            unfold pWF pCursors at hw
            rw [hca] at hw
            exact hw
          exact List.Chain'.right_of_append hwall
        refine ⟨?_, ⟨Nat.succ_le_of_lt hlt, c0, ?_, ?_⟩, ?_, ?_, rfl, ?_⟩
        · unfold pWF pCursors
          dsimp only
          exact hwf1
        · intro row hrow
          refine hrows row ?_
          rw [he]
          exact List.mem_append_right _ (List.mem_cons_of_mem _ hrow)
        · intro r2 hr2
          injection hr2 with hr2
          injection hr2 with hr2
          injection hr2 with hr2
          rw [← hr2]
          exact hc0r
        · intro c
          unfold pMax
          rw [hca]
          dsimp only
          by_cases hc0 : c0 = c
          · subst hc0
            have hne2 : p.it.remaining.isEmpty = false := by
              rw [he]
              cases l1 <;> rfl
            have hall : (p.it.remaining.all fun row => decide (row.1.1 = c0)) = true :=
              List.all_eq_true.2 fun row hrow => decide_eq_true (hrows row hrow)
            rw [if_pos hc0r,
              if_pos (show (!p.it.remaining.isEmpty &&
                  p.it.remaining.all fun row => decide (row.1.1 = c0)) = true by
                rw [hne2, hall]; rfl)]
            by_cases hcnd : (!rest.isEmpty &&
                rest.all fun row => decide (row.1.1 = c0)) = true
            · rw [if_pos hcnd]
              omega
            · rw [if_neg hcnd]
              omega
          · have hrest0 : ¬ ((!rest.isEmpty &&
                rest.all fun row => decide (row.1.1 = c)) = true) := by
              intro hcond
              rw [Bool.and_eq_true] at hcond
              cases hrest : rest with
              | nil =>
                rw [hrest] at hcond
                cases hcond.1
              | cons y ys =>
                have hy := List.all_eq_true.1 hcond.2 y
                  (by rw [hrest]; exact List.mem_cons_self y ys)
                rw [decide_eq_true_eq] at hy
                refine hc0 ?_
                rw [← hy]
                refine (hrows y ?_).symm
                rw [he, hrest]
                exact List.mem_append_right _
                  (List.mem_cons_of_mem _ (List.mem_cons_self y ys))
            have hrem0 : ¬ ((!p.it.remaining.isEmpty &&
                p.it.remaining.all fun row => decide (row.1.1 = c)) = true) := by
              intro hcond
              rw [Bool.and_eq_true] at hcond
              have := List.all_eq_true.1 hcond.2 _ hmem
              rw [decide_eq_true_eq] at this
              exact hc0 (hc0r ▸ this)
            rw [if_neg (show ¬ r.collection = c by rw [hc0r]; exact hc0),
              if_neg hrest0, if_neg hrem0]
        · intro γ hγ
          unfold pCursors at hγ ⊢
          rw [hca]
          dsimp only at hγ
          rw [hmap]
          exact List.mem_append_right _ hγ
        · intro r2 hr2
          injection hr2 with hr2
          injection hr2 with hr2
          subst hr2
          exact ⟨rfl, rfl⟩
  · rw [ppeek_some recs p v0 hca]
    dsimp only
    refine ⟨hw, hcnt, fun c => Nat.le_refl _, fun γ hγ => hγ, hca, ?_⟩
    intro r hr
    subst hr
    refine ⟨hca, ?_⟩
    unfold pCursors
    rw [hca]


theorem pCursors_exh {p : PIter} (h : p.cache = some none) : pCursors p = [] := by
  unfold pCursors
  rw [h]

theorem itersCands_nil (expand : Bool) : itersCands expand [] = [] := rfl

theorem itersCands_cons_frozen (expand : Bool) {q : PIter} (rest : List PIter)
    (h : q.cache = some (some none)) :
    itersCands expand (q :: rest) =
      if expand then itersCands expand rest else [] := by
  rw [show itersCands expand (q :: rest) =
      (match q.cache with
       | some (some none) => if expand then itersCands expand rest else []
       | _ => pCursors q ++ itersCands expand rest) from rfl, h]

theorem itersCands_cons_notfrozen (expand : Bool) {q : PIter} (rest : List PIter)
    (h : q.cache ≠ some (some none)) :
    itersCands expand (q :: rest) = pCursors q ++ itersCands expand rest := by
  rw [show itersCands expand (q :: rest) =
      (match q.cache with
       | some (some none) => if expand then itersCands expand rest else []
       | _ => pCursors q ++ itersCands expand rest) from rfl]
  rcases hq : q.cache with _ | v0
  · rfl
  · rcases v0 with _ | v1
    · rfl
    · rcases v1 with _ | r
      · exact absurd hq h
      · rfl

theorem itersCands_cons_sub_expand {γ : Cursor} (q : PIter) (rest : List PIter)
    (h : γ ∈ itersCands true rest) : γ ∈ itersCands true (q :: rest) := by
  by_cases hq : q.cache = some (some none)
  · rw [itersCands_cons_frozen true rest hq, if_pos rfl]
    exact h
  · rw [itersCands_cons_notfrozen true rest hq]
    exact List.mem_append_right _ h

theorem itersCands_set (expand : Bool) :
    ∀ (ps : List PIter) (j : Nat) (p : PIter) (r : URec),
      ps.get? j = some p → p.cache = some (some (some r)) →
      ∀ γ ∈ itersCands expand (ps.set j { p with cache := none }),
        γ ∈ itersCands expand ps
  | [], _, p, r, h, _, γ, hγ => by cases h
  | q :: rest, 0, p, r, h, hc, γ, hγ => by
    injection h with h
    subst h
    rw [List.set_cons_zero,
      itersCands_cons_notfrozen expand rest
        (show ({ q with cache := none } : PIter).cache ≠ some (some none) by
          intro hh; cases hh)] at hγ
    rw [itersCands_cons_notfrozen expand rest (by rw [hc]; intro hh; cases hh)]
    rcases List.mem_append.1 hγ with h1 | h1
    · refine List.mem_append_left _ ?_
      unfold pCursors at h1 ⊢
      rw [hc]
      dsimp only at h1
      exact List.mem_cons_of_mem _ h1
    · exact List.mem_append_right _ h1
  | q :: rest, j + 1, p, r, h, hc, γ, hγ => by
    rw [List.set_cons_succ] at hγ
    by_cases hq : q.cache = some (some none)
    · rw [itersCands_cons_frozen expand _ hq] at hγ ⊢
      by_cases hex : expand = true
      · rw [if_pos hex] at hγ ⊢
        exact itersCands_set expand rest j p r h hc γ hγ
      · rw [if_neg hex] at hγ
        cases hγ
    · rw [itersCands_cons_notfrozen expand _ hq] at hγ ⊢
      rcases List.mem_append.1 hγ with h1 | h1
      · exact List.mem_append_left _ h1
      · exact List.mem_append_right _ (itersCands_set expand rest j p r h hc γ h1)

/-- The running `latest` update of the scan: keep the strictly greater
cursor, first index wins ties. -/
def latestUpd (lat : Option (Cursor × Nat)) (c : Cursor) (i : Nat) :
    Option (Cursor × Nat) :=
  match lat with
  | some (cursor, _) => if c > cursor then some (c, i) else lat
  | none => some (c, i)

theorem latestUpd_spec (lat : Option (Cursor × Nat)) (c : Cursor) (i : Nat) :
    ∃ γ1 i1, latestUpd lat c i = some (γ1, i1) ∧ c ≤ γ1 ∧
      (∀ γv i0, lat = some (γv, i0) → γv ≤ γ1) ∧
      (latestUpd lat c i = lat ∨ (γ1 = c ∧ i1 = i)) := by
  rcases lat with _ | ⟨γold, iold⟩
  · refine ⟨c, i, rfl, Nat.le_refl c, ?_, Or.inr ⟨rfl, rfl⟩⟩
    intro γv i0 hv
    cases hv
  · unfold latestUpd
    dsimp only
    by_cases hgt : c > γold
    · rw [if_pos hgt]
      refine ⟨c, i, rfl, Nat.le_refl c, ?_, Or.inr ⟨rfl, rfl⟩⟩
      intro γv i0 hv
      injection hv with hv
      injection hv with h1 h2
      rw [← h1]
      exact Nat.le_of_lt hgt
    · rw [if_neg hgt]
      refine ⟨γold, iold, rfl, Nat.le_of_not_lt hgt, ?_, Or.inl rfl⟩
      intro γv i0 hv
      injection hv with hv
      injection hv with h1 h2
      rw [← h1]

theorem bnd_of_some {lat : Option (Cursor × Nat)} {γv : Cursor} {i0 : Nat} {γ0 : Cursor}
    (hl : lat = some (γv, i0)) (h : γ0 ≤ γv) : bnd lat γ0 := by
  intro γ i hli
  rw [hl] at hli
  injection hli with hli
  injection hli with h1 h2
  rw [← h1]
  exact h


theorem scanIters_nil (recs : List ((Did × Nsid × RKey) × RecordVal)) (expand : Bool)
    (i : Nat) (lat : Option (Cursor × Nat)) :
    scanIters recs expand [] i lat = ([], lat) := rfl

theorem scanIters_cons_none (recs : List ((Did × Nsid × RKey) × RecordVal))
    (expand : Bool) (p : PIter) (rest : List PIter) (i : Nat)
    (lat : Option (Cursor × Nat)) (p1 : PIter) (hpk : ppeek recs p = (none, p1)) :
    scanIters recs expand (p :: rest) i lat =
      (p1 :: (scanIters recs expand rest (i + 1) lat).1,
        (scanIters recs expand rest (i + 1) lat).2) := by
  rw [show scanIters recs expand (p :: rest) i lat =
      (let (v, p1) := ppeek recs p
       match v with
       | none =>
         let (rest1, latest1) := scanIters recs expand rest (i + 1) lat
         (p1 :: rest1, latest1)
       | some none =>
         if expand then
           let (rest1, latest1) := scanIters recs expand rest (i + 1) lat
           (p1 :: rest1, latest1)
         else (p1 :: rest, lat)
       | some (some rec) =>
         let latest1 :=
           match lat with
           | some (cursor, _) => if rec.cursor > cursor then some (rec.cursor, i) else lat
           | none => some (rec.cursor, i)
         let (rest1, latest2) := scanIters recs expand rest (i + 1) latest1
         (p1 :: rest1, latest2)) from rfl, hpk]

theorem scanIters_cons_limit (recs : List ((Did × Nsid × RKey) × RecordVal))
    (expand : Bool) (p : PIter) (rest : List PIter) (i : Nat)
    (lat : Option (Cursor × Nat)) (p1 : PIter)
    (hpk : ppeek recs p = (some none, p1)) :
    scanIters recs expand (p :: rest) i lat =
      if expand then
        (p1 :: (scanIters recs expand rest (i + 1) lat).1,
          (scanIters recs expand rest (i + 1) lat).2)
      else (p1 :: rest, lat) := by
  rw [show scanIters recs expand (p :: rest) i lat =
      (let (v, p1) := ppeek recs p
       match v with
       | none =>
         let (rest1, latest1) := scanIters recs expand rest (i + 1) lat
         (p1 :: rest1, latest1)
       | some none =>
         if expand then
           let (rest1, latest1) := scanIters recs expand rest (i + 1) lat
           (p1 :: rest1, latest1)
         else (p1 :: rest, lat)
       | some (some rec) =>
         let latest1 :=
           match lat with
           | some (cursor, _) => if rec.cursor > cursor then some (rec.cursor, i) else lat
           | none => some (rec.cursor, i)
         let (rest1, latest2) := scanIters recs expand rest (i + 1) latest1
         (p1 :: rest1, latest2)) from rfl, hpk]

theorem scanIters_cons_rec (recs : List ((Did × Nsid × RKey) × RecordVal))
    (expand : Bool) (p : PIter) (rest : List PIter) (i : Nat)
    (lat : Option (Cursor × Nat)) (p1 : PIter) (rec : URec)
    (hpk : ppeek recs p = (some (some rec), p1)) :
    scanIters recs expand (p :: rest) i lat =
      (p1 :: (scanIters recs expand rest (i + 1) (latestUpd lat rec.cursor i)).1,
        (scanIters recs expand rest (i + 1) (latestUpd lat rec.cursor i)).2) := by
  rw [show scanIters recs expand (p :: rest) i lat =
      (let (v, p1) := ppeek recs p
       match v with
       | none =>
         let (rest1, latest1) := scanIters recs expand rest (i + 1) lat
         (p1 :: rest1, latest1)
       | some none =>
         if expand then
           let (rest1, latest1) := scanIters recs expand rest (i + 1) lat
           (p1 :: rest1, latest1)
         else (p1 :: rest, lat)
       | some (some rec) =>
         let latest1 :=
           match lat with
           | some (cursor, _) => if rec.cursor > cursor then some (rec.cursor, i) else lat
           | none => some (rec.cursor, i)
         let (rest1, latest2) := scanIters recs expand rest (i + 1) latest1
         (p1 :: rest1, latest2)) from rfl, hpk]
  exact rfl


/-- Everything one scan pass does: it keeps the iterators well formed, never
grows their candidate cursors or per-collection bounds, bounds every
remaining reachable candidate by the selected latest, lifts an incoming bound
through the pass, and the selected latest (when not inherited) is a cached
record of the returned iterator list. -/
theorem scanIters_spec (recs : List ((Did × Nsid × RKey) × RecordVal)) (expand : Bool) :
    ∀ (ps : List PIter) (i : Nat) (lat : Option (Cursor × Nat)),
      (∀ p ∈ ps, pWF p) → (∀ p ∈ ps, pCnt p) →
      (∀ p ∈ (scanIters recs expand ps i lat).1, pWF p) ∧
      (∀ p ∈ (scanIters recs expand ps i lat).1, pCnt p) ∧
      (∀ c, sumMax c (scanIters recs expand ps i lat).1 ≤ sumMax c ps) ∧
      (∀ γ ∈ itersCands expand (scanIters recs expand ps i lat).1,
        γ ∈ itersCands expand ps) ∧
      (∀ γ ∈ itersCands expand (scanIters recs expand ps i lat).1,
        bnd (scanIters recs expand ps i lat).2 γ) ∧
      (∀ γ0 γv i0, lat = some (γv, i0) → γ0 ≤ γv →
        bnd (scanIters recs expand ps i lat).2 γ0) ∧
      (∀ γ j, (scanIters recs expand ps i lat).2 = some (γ, j) →
        lat = some (γ, j) ∨
        (i ≤ j ∧ ∃ q r, (scanIters recs expand ps i lat).1.get? (j - i) = some q ∧
          q.cache = some (some (some r)) ∧ r.cursor = γ ∧
          γ ∈ itersCands expand (scanIters recs expand ps i lat).1))
  | [], i, lat, _, _ => by
    rw [scanIters_nil]
    dsimp only
    refine ⟨fun p hp => absurd hp (List.not_mem_nil p),
      fun p hp => absurd hp (List.not_mem_nil p),
      fun c => Nat.le_refl _, fun γ hγ => hγ, ?_, ?_, ?_⟩
    · intro γ hγ
      exact absurd (by rw [itersCands_nil] at hγ; exact hγ) (List.not_mem_nil γ)
    · intro γ0 γv i0 hl hle
      exact bnd_of_some hl hle
    · intro γ j hj
      exact Or.inl hj
  | p :: rest, i, lat, hW, hC => by
    rcases hpk : ppeek recs p with ⟨v, p1⟩
    obtain ⟨w1, w2, w3, w4, w5, w6⟩ :=
      ppeek_spec recs p (hW p (List.mem_cons_self p rest)) (hC p (List.mem_cons_self p rest))
    rw [hpk] at w1 w2 w3 w4 w5 w6
    dsimp only at w1 w2 w3 w4 w5 w6
    have hWr : ∀ q ∈ rest, pWF q := fun q hq => hW q (List.mem_cons_of_mem p hq)
    have hCr : ∀ q ∈ rest, pCnt q := fun q hq => hC q (List.mem_cons_of_mem p hq)
    cases v with
    | none =>
      have heq : scanIters recs expand (p :: rest) i lat =
          (p1 :: (scanIters recs expand rest (i + 1) lat).1,
            (scanIters recs expand rest (i + 1) lat).2) := by
        rw [scanIters_cons_none recs expand p rest i lat p1 hpk]
      obtain ⟨r1, r2, r3, r4, r5, r6, r7⟩ := scanIters_spec recs expand rest (i + 1) lat hWr hCr
      rw [heq]
      dsimp only
      have hpnf : p.cache ≠ some (some none) := by
        intro hfr
        rw [ppeek_some recs p _ hfr] at hpk
        injection hpk with h1 h2
        cases h1
      have hcand : itersCands expand (p1 :: (scanIters recs expand rest (i + 1) lat).1) =
          pCursors p1 ++ itersCands expand (scanIters recs expand rest (i + 1) lat).1 :=
        itersCands_cons_notfrozen expand _ (by rw [w5]; intro hh; simp at hh)
      refine ⟨?_, ?_, ?_, ?_, ?_, ?_, ?_⟩
      · intro q hq
        rcases List.mem_cons.1 hq with rfl | hq
        · exact w1
        · exact r1 q hq
      · intro q hq
        rcases List.mem_cons.1 hq with rfl | hq
        · exact w2
        · exact r2 q hq
      · intro c
        rw [sumMax_cons, sumMax_cons]
        have h3 := r3 c
        have h4 := w3 c
        omega
      · intro γ hγ
        rw [hcand] at hγ
        rw [itersCands_cons_notfrozen expand rest hpnf]
        rcases List.mem_append.1 hγ with h1 | h1
        · exact List.mem_append_left _ (w4 γ h1)
        · exact List.mem_append_right _ (r4 γ h1)
      · intro γ hγ
        rw [hcand] at hγ
        rcases List.mem_append.1 hγ with h1 | h1
        · rw [pCursors_exh w5] at h1
          cases h1
        · exact r5 γ h1
      · intro γ0 γv i0 hl hle
        exact r6 γ0 γv i0 hl hle
      · intro γ j hj
        rcases r7 γ j hj with h1 | ⟨hij, q, r, hget, hqc, hcur, hmem⟩
        · exact Or.inl h1
        · right
          refine ⟨Nat.le_of_succ_le hij, q, r, ?_, hqc, hcur, ?_⟩
          · rw [show j - i = (j - (i + 1)) + 1 from by omega, List.get?_cons_succ]
            exact hget
          · rw [hcand]
            exact List.mem_append_right _ hmem
    | some vv =>
      cases vv with
      | none =>
        by_cases hex : expand = true
        · subst hex
          have heq : scanIters recs true (p :: rest) i lat =
              (p1 :: (scanIters recs true rest (i + 1) lat).1,
                (scanIters recs true rest (i + 1) lat).2) := by
            rw [scanIters_cons_limit recs true p rest i lat p1 hpk, if_pos rfl]
          obtain ⟨r1, r2, r3, r4, r5, r6, r7⟩ :=
            scanIters_spec recs true rest (i + 1) lat hWr hCr
          rw [heq]
          dsimp only
          have hcand : itersCands true (p1 :: (scanIters recs true rest (i + 1) lat).1) =
              itersCands true (scanIters recs true rest (i + 1) lat).1 := by
            rw [itersCands_cons_frozen true _ w5, if_pos rfl]
          refine ⟨?_, ?_, ?_, ?_, ?_, ?_, ?_⟩
          · intro q hq
            rcases List.mem_cons.1 hq with rfl | hq
            · exact w1
            · exact r1 q hq
          · intro q hq
            rcases List.mem_cons.1 hq with rfl | hq
            · exact w2
            · exact r2 q hq
          · intro c
            rw [sumMax_cons, sumMax_cons]
            have h3 := r3 c
            have h4 := w3 c
            omega
          · intro γ hγ
            rw [hcand] at hγ
            exact itersCands_cons_sub_expand p rest (r4 γ hγ)
          · intro γ hγ
            rw [hcand] at hγ
            exact r5 γ hγ
          · intro γ0 γv i0 hl hle
            exact r6 γ0 γv i0 hl hle
          · intro γ j hj
            rcases r7 γ j hj with h1 | ⟨hij, q, r, hget, hqc, hcur, hmem⟩
            · exact Or.inl h1
            · right
              refine ⟨Nat.le_of_succ_le hij, q, r, ?_, hqc, hcur, ?_⟩
              · rw [show j - i = (j - (i + 1)) + 1 from by omega, List.get?_cons_succ]
                exact hget
              · rw [hcand]
                exact hmem
        · have heq : scanIters recs expand (p :: rest) i lat = (p1 :: rest, lat) := by
            rw [scanIters_cons_limit recs expand p rest i lat p1 hpk, if_neg hex]
          rw [heq]
          dsimp only
          have hcand : itersCands expand (p1 :: rest) = [] := by
            rw [itersCands_cons_frozen expand rest w5, if_neg hex]
          refine ⟨?_, ?_, ?_, ?_, ?_, ?_, ?_⟩
          · intro q hq
            rcases List.mem_cons.1 hq with rfl | hq
            · exact w1
            · exact hWr q hq
          · intro q hq
            rcases List.mem_cons.1 hq with rfl | hq
            · exact w2
            · exact hCr q hq
          · intro c
            rw [sumMax_cons, sumMax_cons]
            have h4 := w3 c
            omega
          · intro γ hγ
            rw [hcand] at hγ
            cases hγ
          · intro γ hγ
            rw [hcand] at hγ
            cases hγ
          · intro γ0 γv i0 hl hle
            exact bnd_of_some hl hle
          · intro γ j hj
            exact Or.inl hj
      | some rec =>
        obtain ⟨hrc1, hrc2⟩ := w6 rec rfl
        obtain ⟨γ1, i1, hl1, hrcle, hmono, hcase⟩ := latestUpd_spec lat rec.cursor i
        have heq : scanIters recs expand (p :: rest) i lat =
            (p1 :: (scanIters recs expand rest (i + 1) (latestUpd lat rec.cursor i)).1,
              (scanIters recs expand rest (i + 1) (latestUpd lat rec.cursor i)).2) := by
          rw [scanIters_cons_rec recs expand p rest i lat p1 rec hpk]
        obtain ⟨r1, r2, r3, r4, r5, r6, r7⟩ :=
          scanIters_spec recs expand rest (i + 1) (latestUpd lat rec.cursor i) hWr hCr
        rw [heq]
        dsimp only
        have hpnf : p.cache ≠ some (some none) := by
          intro hfr
          rw [ppeek_some recs p _ hfr] at hpk
          injection hpk with h1 h2
          injection h1 with h1
          cases h1
        have hp1nf : p1.cache ≠ some (some none) := by
          rw [hrc1]
          intro hh
          simp at hh
        have hcand : itersCands expand
            (p1 :: (scanIters recs expand rest (i + 1) (latestUpd lat rec.cursor i)).1) =
            pCursors p1 ++ itersCands expand
              (scanIters recs expand rest (i + 1) (latestUpd lat rec.cursor i)).1 :=
          itersCands_cons_notfrozen expand _ hp1nf
        have hbnd2 : bnd (scanIters recs expand rest (i + 1) (latestUpd lat rec.cursor i)).2
            rec.cursor := r6 rec.cursor γ1 i1 hl1 hrcle
        refine ⟨?_, ?_, ?_, ?_, ?_, ?_, ?_⟩
        · intro q hq
          rcases List.mem_cons.1 hq with rfl | hq
          · exact w1
          · exact r1 q hq
        · intro q hq
          rcases List.mem_cons.1 hq with rfl | hq
          · exact w2
          · exact r2 q hq
        · intro c
          rw [sumMax_cons, sumMax_cons]
          have h3 := r3 c
          have h4 := w3 c
          omega
        · intro γ hγ
          rw [hcand] at hγ
          rw [itersCands_cons_notfrozen expand rest hpnf]
          rcases List.mem_append.1 hγ with h1 | h1
          · exact List.mem_append_left _ (w4 γ h1)
          · exact List.mem_append_right _ (r4 γ h1)
        · intro γ hγ
          rw [hcand] at hγ
          rcases List.mem_append.1 hγ with h1 | h1
          · rw [hrc2] at h1
            have hle : γ ≤ rec.cursor := by
              have hw1c := w1
              unfold pWF at hw1c
              rw [hrc2] at hw1c
              exact chain_desc_head hw1c γ h1
            intro γf jf hf
            exact Nat.le_trans hle (hbnd2 γf jf hf)
          · exact r5 γ h1
        · intro γ0 γv i0 hl hle
          exact r6 γ0 γ1 i1 hl1 (Nat.le_trans hle (hmono γv i0 hl))
        · intro γ j hj
          rcases r7 γ j hj with h1 | ⟨hij, q, r, hget, hqc, hcur, hmem⟩
          · rcases hcase with hc1 | ⟨hg, hi⟩
            · left
              rw [← hc1]
              exact h1
            · right
              have he2 : γ1 = γ ∧ i1 = j := by
                rw [hl1] at h1
                injection h1 with h1
                injection h1 with ha hb
                exact ⟨ha, hb⟩
              refine ⟨?_, p1, rec, ?_, hrc1, ?_, ?_⟩
              · rw [← he2.2, hi]
              · rw [← he2.2, hi, Nat.sub_self]
                rfl
              · rw [← hg]
                exact he2.1
              · rw [hcand, hrc2, show γ = rec.cursor from by rw [← he2.1, hg]]
                exact List.mem_append_left _ (List.mem_cons_self _ _)
          · right
            refine ⟨Nat.le_of_succ_le hij, q, r, ?_, hqc, hcur, ?_⟩
            · rw [show j - i = (j - (i + 1)) + 1 from by omega, List.get?_cons_succ]
              exact hget
            · rw [hcand]
              exact List.mem_append_right _ hmem


theorem mergeLoop_zero (recs : List ((Did × Nsid × RKey) × RecordVal)) (expand : Bool)
    (iters : List PIter) (acc : List URec) :
    mergeLoop recs expand 0 iters acc = acc.reverse := rfl

theorem mergeLoop_succ (recs : List ((Did × Nsid × RKey) × RecordVal)) (expand : Bool)
    (fuel : Nat) (iters : List PIter) (acc : List URec) :
    mergeLoop recs expand (fuel + 1) iters acc =
      match (scanIters recs expand iters 0 none).2 with
      | none => acc.reverse
      | some (_, idx) =>
        match (scanIters recs expand iters 0 none).1.get? idx with
        | some p =>
          match p.cache with
          | some (some (some rec)) =>
            mergeLoop recs expand fuel
              ((scanIters recs expand iters 0 none).1.set idx { p with cache := none })
              (rec :: acc)
          | _ => acc.reverse
        | none => acc.reverse := rfl

theorem pCnt_drop (p : PIter) (h : pCnt p) : pCnt { p with cache := none } := by
  obtain ⟨hf, c0, hrows, _⟩ := h
  exact ⟨hf, c0, hrows, fun r hr => by cases hr⟩

/-- The merged output is in non-increasing cursor order. -/
theorem mergeLoop_desc (recs : List ((Did × Nsid × RKey) × RecordVal)) (expand : Bool) :
    ∀ (fuel : Nat) (iters : List PIter) (acc : List URec),
      (∀ p ∈ iters, pWF p) → (∀ p ∈ iters, pCnt p) →
      List.Chain' (fun a b => a.cursor ≤ b.cursor) acc →
      (∀ γ ∈ itersCands expand iters, ∀ h, acc.head? = some h → γ ≤ h.cursor) →
      List.Chain' (fun a b => b.cursor ≤ a.cursor) (mergeLoop recs expand fuel iters acc)
  | 0, iters, acc, _, _, h2, _ => by
    rw [mergeLoop_zero]
    exact List.chain'_reverse.2 h2
  | fuel + 1, iters, acc, h1, hcnt, h2, h3 => by
    rcases hscan : scanIters recs expand iters 0 none with ⟨iters1, latest⟩
    obtain ⟨s1, s2, s3, s4, s5, s6, s7⟩ := scanIters_spec recs expand iters 0 none h1 hcnt
    rw [hscan] at s1 s2 s3 s4 s5 s6 s7
    dsimp only at s1 s2 s3 s4 s5 s6 s7
    rw [mergeLoop_succ, hscan]
    dsimp only
    cases latest with
    | none => exact List.chain'_reverse.2 h2
    | some gi =>
      rcases gi with ⟨γ, idx⟩
      dsimp only
      rcases s7 γ idx rfl with hl | ⟨-, q, r, hget, hqc, hcur, hmem⟩
      · cases hl
      · rw [Nat.sub_zero] at hget
        rw [hget]
        dsimp only
        rw [hqc]
        refine mergeLoop_desc recs expand fuel _ _ ?_ ?_ ?_ ?_
        · intro p2 hp2
          rcases List.mem_or_eq_of_mem_set hp2 with hp2 | rfl
          · exact s1 p2 hp2
          · have hwq := s1 q (List.get?_mem hget)
            unfold pWF pCursors at hwq ⊢
            rw [hqc] at hwq
            dsimp only
            exact hwq.tail
        · intro p2 hp2
          rcases List.mem_or_eq_of_mem_set hp2 with hp2 | rfl
          · exact s2 p2 hp2
          · exact pCnt_drop q (s2 q (List.get?_mem hget))
        · refine List.chain'_cons'.2 ⟨?_, h2⟩
          intro b hb
          have h5 := h3 γ (s4 γ hmem) b hb
          rw [hcur]
          exact h5
        · intro γ2 hγ2 h hh
          have hγ2' := itersCands_set expand iters1 idx q r hget hqc γ2 hγ2
          have h6 := s5 γ2 hγ2' γ idx rfl
          injection hh with hh
          rw [← hh]
          rw [← hcur] at h6
          exact h6
  termination_by fuel => fuel

/-- The merged output contains at most `sumMax` records of each collection
beyond those already accumulated. -/
theorem mergeLoop_count (recs : List ((Did × Nsid × RKey) × RecordVal)) (expand : Bool)
    (c : Nsid) :
    ∀ (fuel : Nat) (iters : List PIter) (acc : List URec),
      (∀ p ∈ iters, pWF p) → (∀ p ∈ iters, pCnt p) →
      ((mergeLoop recs expand fuel iters acc).filter
        (fun u => decide (u.collection = c))).length ≤
        (acc.filter (fun u => decide (u.collection = c))).length + sumMax c iters
  | 0, iters, acc, _, _ => by
    rw [mergeLoop_zero, List.filter_reverse, List.length_reverse]
    exact Nat.le_add_right _ _
  | fuel + 1, iters, acc, h1, hcnt => by
    rcases hscan : scanIters recs expand iters 0 none with ⟨iters1, latest⟩
    obtain ⟨s1, s2, s3, s4, s5, s6, s7⟩ := scanIters_spec recs expand iters 0 none h1 hcnt
    rw [hscan] at s1 s2 s3 s4 s5 s6 s7
    dsimp only at s1 s2 s3 s4 s5 s6 s7
    rw [mergeLoop_succ, hscan]
    dsimp only
    cases latest with
    | none =>
      rw [List.filter_reverse, List.length_reverse]
      exact Nat.le_add_right _ _
    | some gi =>
      rcases gi with ⟨γ, idx⟩
      dsimp only
      rcases s7 γ idx rfl with hl | ⟨-, q, r, hget, hqc, hcur, hmem⟩
      · cases hl
      · rw [Nat.sub_zero] at hget
        rw [hget]
        dsimp only
        rw [hqc]
        dsimp only
        have hrec := mergeLoop_count recs expand c fuel
          (iters1.set idx { q with cache := none }) (r :: acc)
          (fun p2 hp2 => by
            rcases List.mem_or_eq_of_mem_set hp2 with hp2 | h4
            · exact s1 p2 hp2
            · subst h4
              have hwq := s1 q (List.get?_mem hget)
              unfold pWF pCursors at hwq ⊢
              rw [hqc] at hwq
              dsimp only
              exact hwq.tail)
          (fun p2 hp2 => by
            rcases List.mem_or_eq_of_mem_set hp2 with hp2 | h4
            · exact s2 p2 hp2
            · subst h4
              exact pCnt_drop q (s2 q (List.get?_mem hget)))
        have e1 := sumMax_set c iters1 idx q { q with cache := none } hget
        have e2 := pMax_drop_cache c q r hqc
        have e3 := s3 c
        have hcc : ((r :: acc).filter fun u => decide (u.collection = c)).length =
            (acc.filter fun u => decide (u.collection = c)).length +
              (if r.collection = c then 1 else 0) := by
          rw [List.filter_cons]
          by_cases hq : r.collection = c
          · rw [if_pos (decide_eq_true hq), if_pos hq, List.length_cons]
          · rw [if_neg (fun hd => hq (of_decide_eq_true hd)), if_neg hq]
            omega
        rw [hcc] at hrec
        omega
  termination_by fuel => fuel


theorem feedLt_same (c : Nsid) (x y : Cursor) (h : feedLt (c, x) (c, y) = true) :
    x < y := by
  unfold feedLt lex2 at h
  rw [show strLtB c c = false from strLtB_isStrict.irr c] at h
  simp [natLtB] at h
  exact h

/-- The iterator built by `get_records_by_collections` for one collection. -/
def initIter (s : Store) (limit : Nat) (c : Nsid) : PIter :=
  { cache := none,
    it := { remaining := (s.feeds.filter fun p => p.1.1 = c).reverse,
            limit := limit, fetched := 0 } }

theorem initIter_rows (s : Store) (limit : Nat) (c : Nsid) :
    ∀ row ∈ (initIter s limit c).it.remaining, row.1.1 = c := by
  intro row hrow
  unfold initIter at hrow
  dsimp only at hrow
  rw [List.mem_reverse] at hrow
  have := (List.mem_filter.1 hrow).2
  rw [decide_eq_true_eq] at this
  exact this

theorem initIter_pWF (s : Store) (limit : Nat) (c : Nsid)
    (hfeeds : keySorted feedLt s.feeds) : pWF (initIter s limit c) := by
  unfold pWF pCursors initIter
  dsimp only
  rw [List.map_reverse]
  refine List.Pairwise.chain' ?_
  rw [List.pairwise_reverse, List.pairwise_map]
  refine List.Pairwise.imp_of_mem ?_ (List.Pairwise.filter _ hfeeds)
  intro a b ha hb hab
  have ha2 := (List.mem_filter.1 ha).2
  have hb2 := (List.mem_filter.1 hb).2
  rw [decide_eq_true_eq] at ha2 hb2
  refine Nat.le_of_lt ?_
  have : feedLt (c, a.1.2) (c, b.1.2) = true := by
    rw [show ((c, a.1.2) : Nsid × Cursor) = a.1 by rw [← ha2],
      show ((c, b.1.2) : Nsid × Cursor) = b.1 by rw [← hb2]]
    exact hab
  exact feedLt_same c a.1.2 b.1.2 this

theorem initIter_pCnt (s : Store) (limit : Nat) (c : Nsid) :
    pCnt (initIter s limit c) :=
  ⟨Nat.zero_le _, c, initIter_rows s limit c, fun r hr => by cases hr⟩

theorem pMax_initIter_le (s : Store) (limit : Nat) (c c1 : Nsid) :
    pMax c (initIter s limit c1) ≤ limit ∧
    (c1 ≠ c → pMax c (initIter s limit c1) = 0) := by
  unfold pMax
  rw [show (initIter s limit c1).cache = none from rfl,
    show (initIter s limit c1).it.limit = limit from rfl,
    show (initIter s limit c1).it.fetched = 0 from rfl]
  dsimp only
  constructor
  · by_cases hcnd : (!(initIter s limit c1).it.remaining.isEmpty &&
        (initIter s limit c1).it.remaining.all fun row => decide (row.1.1 = c)) = true
    · rw [if_pos hcnd]
      omega
    · rw [if_neg hcnd]
      omega
  · intro hne
    rw [if_neg ?_]
    intro hcnd
    rw [Bool.and_eq_true] at hcnd
    cases hrem : (initIter s limit c1).it.remaining with
    | nil =>
      rw [hrem] at hcnd
      cases hcnd.1
    | cons y ys =>
      have hy := List.all_eq_true.1 hcnd.2 y (by rw [hrem]; exact List.mem_cons_self y ys)
      rw [decide_eq_true_eq] at hy
      refine hne ?_
      rw [← hy]
      exact (initIter_rows s limit c1 y (by rw [hrem]; exact List.mem_cons_self y ys)).symm

theorem sumMax_init_zero (s : Store) (limit : Nat) (c : Nsid) :
    ∀ cs : List Nsid, (∀ c2 ∈ cs, c2 ≠ c) →
      sumMax c (cs.map (initIter s limit)) = 0
  | [], _ => rfl
  | c1 :: cs, h => by
    rw [List.map_cons, sumMax_cons,
      (pMax_initIter_le s limit c c1).2 (h c1 (List.mem_cons_self c1 cs)),
      sumMax_init_zero s limit c cs fun c2 hc2 => h c2 (List.mem_cons_of_mem c1 hc2)]

theorem sumMax_init_le (s : Store) (limit : Nat) (c : Nsid) :
    ∀ cs : List Nsid, cs.Nodup → sumMax c (cs.map (initIter s limit)) ≤ limit
  | [], _ => Nat.zero_le _
  | c1 :: cs, hnd => by
    rw [List.nodup_cons] at hnd
    rw [List.map_cons, sumMax_cons]
    by_cases hc1 : c1 = c
    · subst hc1
      rw [sumMax_init_zero s limit c1 cs fun c2 hc2 hce => hnd.1 (hce ▸ hc2)]
      have := (pMax_initIter_le s limit c1 c1).1
      omega
    · rw [(pMax_initIter_le s limit c c1).2 hc1]
      have := sumMax_init_le s limit c cs hnd.2
      omega

/-- Claim C7 as stated: with expand=false the reader returns at most `limit`
records in total, merge-sorted in descending cursor order; with expand=true
at most `limit` per collection, also descending. -/
def ClaimC7 : Prop :=
  ∀ (s : Store) (collections : List Nsid) (limit : Nat),
    (getRecordsByCollections s collections limit false).length ≤ limit ∧
    List.Chain' (fun a b => b.cursor ≤ a.cursor)
      (getRecordsByCollections s collections limit false) ∧
    (∀ c : Nsid, ((getRecordsByCollections s collections limit true).filter
      (fun u => decide (u.collection = c))).length ≤ limit) ∧
    List.Chain' (fun a b => b.cursor ≤ a.cursor)
      (getRecordsByCollections s collections limit true)

/-- Two sorted collections with two live records each. -/
def c7s : Store :=
  { Store.init with
    feeds := [(("a.a.a", 9), ⟨"d", "r9", "v9"⟩), (("a.a.a", 10), ⟨"d", "r10", "v10"⟩),
              (("b.b.b", 7), ⟨"d", "r7", "v7"⟩), (("b.b.b", 8), ⟨"d", "r8", "v8"⟩)],
    records := [(("d", "a.a.a", "r10"), ⟨10, false, "v10", "{}"⟩),
                (("d", "a.a.a", "r9"), ⟨9, false, "v9", "{}"⟩),
                (("d", "b.b.b", "r7"), ⟨7, false, "v7", "{}"⟩),
                (("d", "b.b.b", "r8"), ⟨8, false, "v8", "{}"⟩)] }

/-- C7 as stated is false: on `c7s` with collections [b.b.b, a.a.a] and limit
2, the non-expand read returns 4 records.  (When one iterator reports its
limit reached, the scan pass only breaks out of that pass; earlier
iterators keep yielding on later passes.) -/
theorem C7_counterexample : ¬ ClaimC7 := by
  intro h
  have h2 := (h c7s ["b.b.b", "a.a.a"] 2).1
  revert h2
  decide

/-- C7 (amended): for every store whose feeds partition is sorted and every
duplicate-free collection list, the merged output is in non-increasing cursor
order in BOTH modes, and contains at most `limit` records per collection in
BOTH modes; the total bound of the claim fails (see the counterexample), the
per-collection bound is what holds. -/
theorem C7_amended (s : Store) (collections : List Nsid) (limit : Nat) (expand : Bool)
    (hfeeds : keySorted feedLt s.feeds) (hnd : collections.Nodup) :
    List.Chain' (fun a b => b.cursor ≤ a.cursor)
      (getRecordsByCollections s collections limit expand) ∧
    ∀ c : Nsid, ((getRecordsByCollections s collections limit expand).filter
      (fun u => decide (u.collection = c))).length ≤ limit := by
  by_cases hemp : collections.isEmpty = true
  · have hgr : getRecordsByCollections s collections limit expand = [] := by
      unfold getRecordsByCollections
      rw [if_pos hemp]
    rw [hgr]
    exact ⟨List.chain'_nil, fun c => Nat.zero_le _⟩
  · have hgr : getRecordsByCollections s collections limit expand =
        mergeLoop s.records expand (collections.length * limit + 1)
          (collections.map (initIter s limit)) [] := by
      unfold getRecordsByCollections initIter
      rw [if_neg hemp]
    rw [hgr]
    have hIW : ∀ p ∈ collections.map (initIter s limit), pWF p := by
      intro p hp
      rcases List.mem_map.1 hp with ⟨c1, _, rfl⟩
      exact initIter_pWF s limit c1 hfeeds
    have hIC : ∀ p ∈ collections.map (initIter s limit), pCnt p := by
      intro p hp
      rcases List.mem_map.1 hp with ⟨c1, _, rfl⟩
      exact initIter_pCnt s limit c1
    refine ⟨?_, ?_⟩
    · refine mergeLoop_desc s.records expand _ _ [] hIW hIC List.chain'_nil ?_
      intro γ hγ h hh
      cases hh
    · intro c
      have h1 := mergeLoop_count s.records expand c (collections.length * limit + 1)
        (collections.map (initIter s limit)) [] hIW hIC
      have h2 := sumMax_init_le s limit c collections hnd
      rw [show (([] : List URec).filter fun u => decide (u.collection = c)).length = 0
        from rfl] at h1
      omega

/-- Witness for C7 (amended) at the concrete store `c7s`. -/
theorem C7_amended_witness :
    (keySorted feedLt c7s.feeds ∧ (["b.b.b", "a.a.a"] : List Nsid).Nodup) ∧
    (List.Chain' (fun a b => b.cursor ≤ a.cursor)
      (getRecordsByCollections c7s ["b.b.b", "a.a.a"] 2 false) ∧
    ∀ c : Nsid, ((getRecordsByCollections c7s ["b.b.b", "a.a.a"] 2 false).filter
      (fun u => decide (u.collection = c))).length ≤ 2) :=
  ⟨⟨by unfold keySorted; decide, by decide⟩,
    C7_amended c7s ["b.b.b", "a.a.a"] 2 false (by unfold keySorted; decide) (by decide)⟩

end Ufos
